import Mathlib

/-!
Verification development for the HMMER reference dynamic-programming engine
(dual-mode local/glocal profile HMM comparison).

Embedding convention (weight space).  The C code computes in log space with
float scores: `p7_FLogsum(a,b)` is log(e^a + e^b), score addition is `+`,
impossible is `-eslINFINITY`, and Viterbi uses `ESL_MAX`.  Under *exact*
log-sum-exp arithmetic (the regime the claims address), the map s ↦ e^s is an
isomorphism from (ℝ ∪ {-∞}, flogsum, +, max, -∞) onto (ℝ≥0, +, ·, max, 0).
We therefore embed every score by its weight e^s in ℚ≥0 (nonnegative
rationals, an exact computable carrier of the same semiring/order structure):

  p7_FLogsum(a,b)  ↦  a + b
  a + b (scores)   ↦  a * b
  -eslINFINITY     ↦  0
  ESL_MAX(a,b)     ↦  max a b
  0.0 (score)      ↦  1

Every DP definition below is translated line by line from the C sources named
in its doc comment; matrix rows become a `Row` of functions over the model
position k, the C pointer walks become index arithmetic, and the
deferred-storage accumulator variables (dlv/dgv, mgn/mln, ...) become the
recursive definitions of the D/M chains.  Sums written `∑ k in Finset.range M`
with argument `k+1` range over model positions k = 1..M exactly as the C
`for (k = 1; k <= M; k++)` loops do.
-/

open scoped NNRat

namespace HMMER

/-- Profile (query model) in weight space: the score tables of `P7_PROFILE`
as used by the reference DP code.  `tsc[k]` transition slots become the nine
functions `tMM .. tDD` (index k = 0..M-1 as stored: the L→M_{k+1} / G→M_{k+1}
entries are at index k, the source's off-by-one storage); `rsc` emission
slots become `msc`/`isc`; `xsc[.][LOOP/MOVE]` become the `x..` fields, with
`xsc[p7P_B][0]` = `xB0` (B→L) and `xsc[p7P_B][1]` = `xB1` (B→G).  A digital
sequence becomes `dsq : ℕ → ℕ` (symbols are opaque). -/
structure Profile where
  M : ℕ
  msc : ℕ → ℕ → ℚ≥0
  isc : ℕ → ℕ → ℚ≥0
  tMM : ℕ → ℚ≥0
  tIM : ℕ → ℚ≥0
  tDM : ℕ → ℚ≥0
  tLM : ℕ → ℚ≥0
  tGM : ℕ → ℚ≥0
  tMI : ℕ → ℚ≥0
  tII : ℕ → ℚ≥0
  tMD : ℕ → ℚ≥0
  tDD : ℕ → ℚ≥0
  xNloop : ℚ≥0
  xNmove : ℚ≥0
  xJloop : ℚ≥0
  xJmove : ℚ≥0
  xCloop : ℚ≥0
  xCmove : ℚ≥0
  xEloop : ℚ≥0
  xEmove : ℚ≥0
  xB0 : ℚ≥0
  xB1 : ℚ≥0

/-- One row of a reference DP matrix (`P7_REFMX` row): the six main cells
[ML MG IL IG DL DG] for each model position k = 0..M (k = 0 and out-of-range
cells hold 0, the weight of `-eslINFINITY`), and the specials
[E N J B L G C].  JJ/CC are decoding-only and always `-inf` in
Forward/Backward/Viterbi fills, so they are omitted. -/
structure Row where
  ML : ℕ → ℚ≥0
  MG : ℕ → ℚ≥0
  IL : ℕ → ℚ≥0
  IG : ℕ → ℚ≥0
  DL : ℕ → ℚ≥0
  DG : ℕ → ℚ≥0
  E : ℚ≥0
  N : ℚ≥0
  J : ℚ≥0
  B : ℚ≥0
  L : ℚ≥0
  G : ℚ≥0
  C : ℚ≥0

/-! ### Forward: `p7_ReferenceForward`, src/src/dp_reference/reference_fwdback.c lines 75-198 -/

/-- ML cell of a new Forward row (reference_fwdback.c lines 129-132 and the
unrolled k = M copy at lines 159-162): for k ≥ 1,
`mlv = *rsc + flogsum(flogsum(ML(i-1,k-1)+MM(k-1), IL(i-1,k-1)+IM(k-1)),
flogsum(DL(i-1,k-1)+DM(k-1), xL+LM(k-1)))`; `p` is the previous row and `x`
the row's residue.  k = 0 cells are set to `-inf` (line 120). -/
def fML (gm : Profile) (p : Row) (x : ℕ) : ℕ → ℚ≥0
  | 0 => 0
  | k + 1 =>
    gm.msc (k+1) x *
      ((p.ML k * gm.tMM k + p.IL k * gm.tIM k) + (p.DL k * gm.tDM k + p.L * gm.tLM k))

/-- MG cell of a new Forward row (lines 134-137, 164-167), glocal analog of
`fML` with entry `xG + GM(k-1)`. -/
def fMG (gm : Profile) (p : Row) (x : ℕ) : ℕ → ℚ≥0
  | 0 => 0
  | k + 1 =>
    gm.msc (k+1) x *
      ((p.MG k * gm.tMM k + p.IG k * gm.tIM k) + (p.DG k * gm.tDM k + p.G * gm.tGM k))

/-- IL cell of a new Forward row (line 144): for 1 ≤ k < M,
`*rsc + flogsum(ML(i-1,k)+MI(k), IL(i-1,k)+II(k))`; the I_M state does not
exist (line 171). -/
def fIL (gm : Profile) (p : Row) (x : ℕ) (k : ℕ) : ℚ≥0 :=
  if k = 0 ∨ k = gm.M then 0
  else gm.isc k x * (p.ML k * gm.tMI k + p.IL k * gm.tII k)

/-- IG cell of a new Forward row (lines 145, 172). -/
def fIG (gm : Profile) (p : Row) (x : ℕ) (k : ℕ) : ℚ≥0 :=
  if k = 0 ∨ k = gm.M then 0
  else gm.isc k x * (p.MG k * gm.tMI k + p.IG k * gm.tII k)

/-- DL cell of a new Forward row, the deferred-storage accumulator `dlv`
(lines 122, 152, 154, 178): `dlv` starts at `-inf`, the value stored at
position k+1 is `flogsum(mlv(k)+MD(k), dlv(k)+DD(k))`.  Since `fML _ _ _ 0 = 0`
this single equation also yields the stored `DL(i,1) = -inf`. -/
def fDL (gm : Profile) (p : Row) (x : ℕ) : ℕ → ℚ≥0
  | 0 => 0
  | k + 1 => fML gm p x k * gm.tMD k + fDL gm p x k * gm.tDD k

/-- DG cell of a new Forward row, accumulator `dgv` (lines 122, 153, 155, 179). -/
def fDG (gm : Profile) (p : Row) (x : ℕ) : ℕ → ℚ≥0
  | 0 => 0
  | k + 1 => fMG gm p x k * gm.tMD k + fDG gm p x k * gm.tDD k

/-- E accumulation `xE` of a Forward row: local exits `flogsum(flogsum(mlv,dlv),xE)`
for k = 1..M-1 (line 149) plus the unrolled k = M update that adds
`flogsum(flogsum(mlv,dlv), flogsum(mgv,dgv))` (line 175); in total
ML+DL summed over k = 1..M plus the glocal exits MG(M)+DG(M). -/
def fXE (gm : Profile) (p : Row) (x : ℕ) : ℚ≥0 :=
  (∑ k in Finset.range gm.M, (fML gm p x (k+1) + fDL gm p x (k+1))) +
    (fMG gm p x gm.M + fDG gm p x gm.M)

/-- N special of a Forward row (line 185): `N(i) = N(i-1) + N_LOOP`. -/
def fwN (gm : Profile) (p : Row) : ℚ≥0 := p.N * gm.xNloop

/-- J special of a Forward row (line 186):
`J(i) = flogsum(J(i-1)+J_LOOP, E(i)+E_LOOP)`. -/
def fwJ (gm : Profile) (p : Row) (x : ℕ) : ℚ≥0 :=
  p.J * gm.xJloop + fXE gm p x * gm.xEloop

/-- B special of a Forward row (line 187):
`B(i) = flogsum(N(i)+N_MOVE, J(i)+J_MOVE)`. -/
def fwB (gm : Profile) (p : Row) (x : ℕ) : ℚ≥0 :=
  fwN gm p * gm.xNmove + fwJ gm p x * gm.xJmove

/-- C special of a Forward row (line 190):
`C(i) = flogsum(C(i-1)+C_LOOP, E(i)+E_MOVE)`. -/
def fwC (gm : Profile) (p : Row) (x : ℕ) : ℚ≥0 :=
  p.C * gm.xCloop + fXE gm p x * gm.xEmove

/-- One Forward row step: the body of the `for (i = 1; i <= L; i++)` loop of
`p7_ReferenceForward` (lines 112-193), building row i from row i-1 = `p` and
residue `x = dsq[i]`.  Specials (lines 184-190): E = xE; N, J, B as above;
`L(i) = B(i)+B[0]`, `G(i) = B(i)+B[1]` (lines 188-189); C as above. -/
def fNext (gm : Profile) (p : Row) (x : ℕ) : Row where
  ML := fML gm p x
  MG := fMG gm p x
  IL := fIL gm p x
  IG := fIG gm p x
  DL := fDL gm p x
  DG := fDG gm p x
  E := fXE gm p x
  N := fwN gm p
  J := fwJ gm p x
  B := fwB gm p x
  L := fwB gm p x * gm.xB0
  G := fwB gm p x * gm.xB1
  C := fwC gm p x

/-- Row 0 initialization, shared verbatim by `p7_ReferenceForward`
(reference_fwdback.c lines 98-108) and `p7_ReferenceViterbi`
(reference_viterbi.c lines 67-77): all main cells `-inf`; `E = -inf`;
`N = 0.0`; `J = -inf`; `B = N_MOVE`; `L = N_MOVE + B[0]`; `G = N_MOVE + B[1]`;
`C = -inf`. -/
def row0 (gm : Profile) : Row where
  ML := fun _ => 0
  MG := fun _ => 0
  IL := fun _ => 0
  IG := fun _ => 0
  DL := fun _ => 0
  DG := fun _ => 0
  E := 0
  N := 1
  J := 0
  B := gm.xNmove
  L := gm.xNmove * gm.xB0
  G := gm.xNmove * gm.xB1
  C := 0

/-- The Forward matrix rows 0..L: row i of the `P7_REFMX` filled by
`p7_ReferenceForward` on sequence `dsq` (1-indexed; `dsq i` is x_i). -/
def fRows (gm : Profile) (dsq : ℕ → ℕ) : ℕ → Row
  | 0 => row0 gm
  | i + 1 => fNext gm (fRows gm dsq i) (dsq (i+1))

/-- Raw Forward score of `p7_ReferenceForward` (line 196):
`*opt_sc = C(L) + C_MOVE`. -/
def p7_ReferenceForward (gm : Profile) (dsq : ℕ → ℕ) (L : ℕ) : ℚ≥0 :=
  (fRows gm dsq L).C * gm.xCmove

/-! ### Viterbi: `p7_ReferenceViterbi`, src/src/reference_viterbi.c lines 54-168 -/

/-- ML cell of a new Viterbi row (reference_viterbi.c lines 97-100, unrolled
copy 127-130): as `fML` with `ESL_MAX` in place of `flogsum`. -/
def vML (gm : Profile) (p : Row) (x : ℕ) : ℕ → ℚ≥0
  | 0 => 0
  | k + 1 =>
    gm.msc (k+1) x *
      max (max (p.ML k * gm.tMM k) (p.IL k * gm.tIM k))
          (max (p.DL k * gm.tDM k) (p.L * gm.tLM k))

/-- MG cell of a new Viterbi row (lines 102-105, 132-135). -/
def vMG (gm : Profile) (p : Row) (x : ℕ) : ℕ → ℚ≥0
  | 0 => 0
  | k + 1 =>
    gm.msc (k+1) x *
      max (max (p.MG k * gm.tMM k) (p.IG k * gm.tIM k))
          (max (p.DG k * gm.tDM k) (p.G * gm.tGM k))

/-- IL cell of a new Viterbi row (lines 112, 139). -/
def vIL (gm : Profile) (p : Row) (x : ℕ) (k : ℕ) : ℚ≥0 :=
  if k = 0 ∨ k = gm.M then 0
  else gm.isc k x * max (p.ML k * gm.tMI k) (p.IL k * gm.tII k)

/-- IG cell of a new Viterbi row (lines 113, 140). -/
def vIG (gm : Profile) (p : Row) (x : ℕ) (k : ℕ) : ℚ≥0 :=
  if k = 0 ∨ k = gm.M then 0
  else gm.isc k x * max (p.MG k * gm.tMI k) (p.IG k * gm.tII k)

/-- DL accumulator `dlv` of a Viterbi row (lines 90, 120, 122, 147). -/
def vDL (gm : Profile) (p : Row) (x : ℕ) : ℕ → ℚ≥0
  | 0 => 0
  | k + 1 => max (vML gm p x k * gm.tMD k) (vDL gm p x k * gm.tDD k)

/-- DG accumulator `dgv` of a Viterbi row (lines 90, 121, 123, 148). -/
def vDG (gm : Profile) (p : Row) (x : ℕ) : ℕ → ℚ≥0
  | 0 => 0
  | k + 1 => max (vMG gm p x k * gm.tMD k) (vDG gm p x k * gm.tDD k)

/-- The running E maximum after the k = 1..m part of the Viterbi inner loop:
`xE = ESL_MAX(mlv, xE)` (line 117) -- only ML enters for k < M
("Dk->E can never be optimal", line 116). -/
def vXEacc (gm : Profile) (p : Row) (x : ℕ) : ℕ → ℚ≥0
  | 0 => 0
  | k + 1 => max (vML gm p x (k+1)) (vXEacc gm p x k)

/-- Final Viterbi row E (lines 143-144): after the k < M loop, the unrolled
k = M node applies `xE = MAX(MAX(mgv,dgv), MAX(xE,mlv))`. -/
def vXE (gm : Profile) (p : Row) (x : ℕ) : ℚ≥0 :=
  max (max (vMG gm p x gm.M) (vDG gm p x gm.M))
      (max (vXEacc gm p x (gm.M - 1)) (vML gm p x gm.M))

/-- One Viterbi row step (lines 80-160); specials at lines 153-159 mirror the
Forward specials with `ESL_MAX`. -/
def vNext (gm : Profile) (p : Row) (x : ℕ) : Row where
  ML := vML gm p x
  MG := vMG gm p x
  IL := vIL gm p x
  IG := vIG gm p x
  DL := vDL gm p x
  DG := vDG gm p x
  E := vXE gm p x
  N := p.N * gm.xNloop
  J := max (p.J * gm.xJloop) (vXE gm p x * gm.xEloop)
  B := max ((p.N * gm.xNloop) * gm.xNmove)
           (max (p.J * gm.xJloop) (vXE gm p x * gm.xEloop) * gm.xJmove)
  L := max ((p.N * gm.xNloop) * gm.xNmove)
           (max (p.J * gm.xJloop) (vXE gm p x * gm.xEloop) * gm.xJmove) * gm.xB0
  G := max ((p.N * gm.xNloop) * gm.xNmove)
           (max (p.J * gm.xJloop) (vXE gm p x * gm.xEloop) * gm.xJmove) * gm.xB1
  C := max (p.C * gm.xCloop) (vXE gm p x * gm.xEmove)

/-- The Viterbi matrix rows 0..L. -/
def vRows (gm : Profile) (dsq : ℕ → ℕ) : ℕ → Row
  | 0 => row0 gm
  | i + 1 => vNext gm (vRows gm dsq i) (dsq (i+1))

/-- Raw Viterbi score of `p7_ReferenceViterbi` (line 163):
`*opt_sc = xC + C_MOVE`. -/
def p7_ReferenceViterbi (gm : Profile) (dsq : ℕ → ℕ) (L : ℕ) : ℚ≥0 :=
  (vRows gm dsq L).C * gm.xCmove

/-! ### Backward: `p7_ReferenceBackward`, src/src/dp_reference/reference_fwdback.c lines 247-461

The Backward fill walks rows L down to 0.  A Backward cell holds the weight of
all path suffixes from that state (after its own emission) to T.  Note the
code picks up next-row I values *without* an insert emission score
("if inserts had nonzero score: + *rsn", lines 378-379): it hardwires the
assumption that insert emission scores are zero (weight 1).

The G/L specials of row i are the accumulators xG/xL built while processing
row i+1 (wing-retracted G→M_k entries, lines 291-292, 308-309, 360-361,
392-393, stored at lines 339-340 / 447-448): G(i) collects
`MG(i+1,k) + msc(k, x_{i+1}) + GM(k-1)` over k = 1..M; in our range form the
entry to M_{k+1} is `tGM k`.  The downward k = M..1 chains (accumulators
dgc/dlc/mgn/mln) are expressed by auxiliary recursions over j = M - k. -/

/-- Backward G special of row i, from next row `n` = row i+1 and
`x` = x_{i+1} (accumulator xG, lines 291, 308, 360, 392). -/
def gSum (gm : Profile) (n : Row) (x : ℕ) : ℚ≥0 :=
  ∑ k in Finset.range gm.M, n.MG (k+1) * gm.msc (k+1) x * gm.tGM k

/-- Backward L special of row i (accumulator xL, lines 292, 309, 361, 393). -/
def lSum (gm : Profile) (n : Row) (x : ℕ) : ℚ≥0 :=
  ∑ k in Finset.range gm.M, n.ML (k+1) * gm.msc (k+1) x * gm.tLM k

/-- Backward C special of row i (line 338, 446): `C(i) = C(i+1) + C_LOOP`. -/
def bkC (gm : Profile) (n : Row) : ℚ≥0 := n.C * gm.xCloop

/-- Backward B special of row i (lines 341-342, 449):
`B(i) = flogsum(G(i)+B[1], L(i)+B[0])`. -/
def bkB (gm : Profile) (n : Row) (x : ℕ) : ℚ≥0 :=
  gSum gm n x * gm.xB1 + lSum gm n x * gm.xB0

/-- Backward J special of row i (lines 343-344, 450):
`J(i) = flogsum(J(i+1)+J_LOOP, B(i)+J_MOVE)`. -/
def bkJ (gm : Profile) (n : Row) (x : ℕ) : ℚ≥0 :=
  n.J * gm.xJloop + bkB gm n x * gm.xJmove

/-- Backward N special of row i (lines 345-346, 451):
`N(i) = flogsum(N(i+1)+N_LOOP, B(i)+N_MOVE)`. -/
def bkN (gm : Profile) (n : Row) (x : ℕ) : ℚ≥0 :=
  n.N * gm.xNloop + bkB gm n x * gm.xNmove

/-- Backward E special of row i (lines 347-348, 452):
`E(i) = flogsum(C(i)+E_MOVE, J(i)+E_LOOP)`. -/
def bkE (gm : Profile) (n : Row) (x : ℕ) : ℚ≥0 :=
  bkC gm n * gm.xEmove + bkJ gm n x * gm.xEloop

/-- Backward DG chain of row i (accumulator dgc, lines 365, 397-398), as a
function of j = M - k: `DG(i,M) = xE` and, stepping k+1 → k,
`DG(i,k) = flogsum(mgn + DM(k), DG(i,k+1) + DD(k))` with
`mgn = MG(i+1,k+1) + msc(k+1, x_{i+1})`; `e` is the row's xE. -/
def bDGaux (gm : Profile) (n : Row) (x : ℕ) (e : ℚ≥0) : ℕ → ℚ≥0
  | 0 => e
  | j + 1 =>
    gm.msc (gm.M - j) x * n.MG (gm.M - j) * gm.tDM (gm.M - j - 1) +
      bDGaux gm n x e j * gm.tDD (gm.M - j - 1)

/-- Backward DL chain of row i (accumulator dlc, lines 366, 399-401):
`DL(i,M) = xE`; `DL(i,k) = flogsum(flogsum(mln + DM(k), DL(i,k+1) + DD(k)), xE)`. -/
def bDLaux (gm : Profile) (n : Row) (x : ℕ) (e : ℚ≥0) : ℕ → ℚ≥0
  | 0 => e
  | j + 1 =>
    (gm.msc (gm.M - j) x * n.ML (gm.M - j) * gm.tDM (gm.M - j - 1) +
      bDLaux gm n x e j * gm.tDD (gm.M - j - 1)) + e

/-- Backward DG cell at position k (0 outside 1..M, k = 0 cells are `-inf`). -/
def bDG (gm : Profile) (n : Row) (x : ℕ) (e : ℚ≥0) (k : ℕ) : ℚ≥0 :=
  if 1 ≤ k ∧ k ≤ gm.M then bDGaux gm n x e (gm.M - k) else 0

/-- Backward DL cell at position k. -/
def bDL (gm : Profile) (n : Row) (x : ℕ) (e : ℚ≥0) (k : ℕ) : ℚ≥0 :=
  if 1 ≤ k ∧ k ≤ gm.M then bDLaux gm n x e (gm.M - k) else 0

/-- Backward MG cell of row i (lines 369 and 383-385):
`MG(i,M) = xE` (glocal exit, transition weight 1); for 1 ≤ k < M,
`mgc = flogsum(flogsum(mgn + MM(k), ign + MI(k)), dgc + MD(k))` with
`mgn = MG(i+1,k+1) + msc(k+1, x_{i+1})`, `ign = IG(i+1,k)` (no insert score),
`dgc = DG(i,k+1)`. -/
def bMG (gm : Profile) (n : Row) (x : ℕ) (e : ℚ≥0) (k : ℕ) : ℚ≥0 :=
  if k = 0 ∨ gm.M < k then 0
  else if k = gm.M then e
  else
    (gm.msc (k+1) x * n.MG (k+1) * gm.tMM k + n.IG k * gm.tMI k) +
      bDG gm n x e (k+1) * gm.tMD k

/-- Backward ML cell of row i (lines 370 and 387-390): `ML(i,M) = xE`;
for 1 ≤ k < M,
`mlc = flogsum(flogsum(mln + MM(k), iln + MI(k)), flogsum(dlc + MD(k), xE))`,
the trailing xE being the local exit ML_k→E of weight 1. -/
def bML (gm : Profile) (n : Row) (x : ℕ) (e : ℚ≥0) (k : ℕ) : ℚ≥0 :=
  if k = 0 ∨ gm.M < k then 0
  else if k = gm.M then e
  else
    (gm.msc (k+1) x * n.ML (k+1) * gm.tMM k + n.IL k * gm.tMI k) +
      (bDL gm n x e (k+1) * gm.tMD k + e)

/-- Backward IG cell of row i (lines 367, 403-404): `-inf` at k = M;
`IG(i,k) = flogsum(mgn + IM(k), ign + II(k))` for 1 ≤ k < M. -/
def bIG (gm : Profile) (n : Row) (x : ℕ) (k : ℕ) : ℚ≥0 :=
  if k = 0 ∨ gm.M ≤ k then 0
  else gm.msc (k+1) x * n.MG (k+1) * gm.tIM k + n.IG k * gm.tII k

/-- Backward IL cell of row i (lines 368, 405-406). -/
def bIL (gm : Profile) (n : Row) (x : ℕ) (k : ℕ) : ℚ≥0 :=
  if k = 0 ∨ gm.M ≤ k then 0
  else gm.msc (k+1) x * n.ML (k+1) * gm.tIM k + n.IL k * gm.tII k

/-- One Backward row step: the body of the `for (i = L-1; i >= 1; i--)` loop
of `p7_ReferenceBackward` (lines 325-433), building row i from row i+1 = `n`
and the next row's residue `x = dsq[i+1]`.  The same formulas produce the
row 0 specials (lines 441-452); the code additionally clears row 0's main
cells (lines 455-457), which the Backward score (read from N(0)) never uses. -/
def bPrev (gm : Profile) (n : Row) (x : ℕ) : Row where
  ML := bML gm n x (bkE gm n x)
  MG := bMG gm n x (bkE gm n x)
  IL := bIL gm n x
  IG := bIG gm n x
  DL := bDL gm n x (bkE gm n x)
  DG := bDG gm n x (bkE gm n x)
  E := bkE gm n x
  N := bkN gm n x
  J := bkJ gm n x
  B := bkB gm n x
  L := lSum gm n x
  G := gSum gm n x
  C := bkC gm n

/-- Backward DG chain of the initialization row L (lines 293, 312):
`DG(L,M) = xE = C_MOVE + E_MOVE`; `DG(L,k) = DG(L,k+1) + DD(k)`;
j = M - k as before. -/
def bDGLaux (gm : Profile) (e : ℚ≥0) : ℕ → ℚ≥0
  | 0 => e
  | j + 1 => bDGLaux gm e j * gm.tDD (gm.M - j - 1)

/-- Backward DL chain of row L (lines 294, 313):
`DL(L,M) = xE`; `DL(L,k) = flogsum(xE, DL(L,k+1) + DD(k))`. -/
def bDLLaux (gm : Profile) (e : ℚ≥0) : ℕ → ℚ≥0
  | 0 => e
  | j + 1 => e + bDLLaux gm e j * gm.tDD (gm.M - j - 1)

/-- Row L initialization of `p7_ReferenceBackward` (lines 274-320):
specials `C(L) = C_MOVE`, `E(L) = C(L) + E_MOVE`, all others `-inf`
(lines 280-288); main cells `MG(L,M) = ML(L,M) = DG(L,M) = DL(L,M) = xE`
(lines 293-298) and for k = M-1..1 `mgc = dgc + MD(k)`,
`mlc = flogsum(xE, dlc + MD(k))` (lines 305-306) with the D chains above;
I cells are `-inf` (lines 295-296, 314-315). -/
def bRowL (gm : Profile) : Row where
  ML := fun k =>
    if k = 0 ∨ gm.M < k then 0
    else if k = gm.M then gm.xCmove * gm.xEmove
    else gm.xCmove * gm.xEmove +
      bDLLaux gm (gm.xCmove * gm.xEmove) (gm.M - (k+1)) * gm.tMD k
  MG := fun k =>
    if k = 0 ∨ gm.M < k then 0
    else if k = gm.M then gm.xCmove * gm.xEmove
    else bDGLaux gm (gm.xCmove * gm.xEmove) (gm.M - (k+1)) * gm.tMD k
  IL := fun _ => 0
  IG := fun _ => 0
  DL := fun k =>
    if 1 ≤ k ∧ k ≤ gm.M then bDLLaux gm (gm.xCmove * gm.xEmove) (gm.M - k) else 0
  DG := fun k =>
    if 1 ≤ k ∧ k ≤ gm.M then bDGLaux gm (gm.xCmove * gm.xEmove) (gm.M - k) else 0
  E := gm.xCmove * gm.xEmove
  N := 0
  J := 0
  B := 0
  L := 0
  G := 0
  C := gm.xCmove

/-- The Backward matrix rows, indexed from the bottom: `bRowsAux gm dsq L j`
is row L - j; j = 0 is the initialization row L, and each step applies
`bPrev` with residue `x_{(L-j-1)+1} = dsq (L-j)`. -/
def bRowsAux (gm : Profile) (dsq : ℕ → ℕ) (L : ℕ) : ℕ → Row
  | 0 => bRowL gm
  | j + 1 => bPrev gm (bRowsAux gm dsq L j) (dsq (L - j))

/-- Row i of the Backward matrix (valid for L ≥ 1; the C function reads
`dsq[0]` -- the sequence sentinel -- and DP row 1 when L = 0, so its result
is not defined by its inputs there). -/
def bRows (gm : Profile) (dsq : ℕ → ℕ) (L i : ℕ) : Row :=
  bRowsAux gm dsq L (L - i)

/-- Raw Backward score of `p7_ReferenceBackward` (line 459):
`*opt_sc = N(0)`. -/
def p7_ReferenceBackward (gm : Profile) (dsq : ℕ → ℕ) (L : ℕ) : ℚ≥0 :=
  (bRows gm dsq L 0).N

/-! ### Support lemmas: cell recurrences in position form -/

theorem bDL_M (gm : Profile) (n : Row) (x : ℕ) (e : ℚ≥0) (hM : 1 ≤ gm.M) :
    bDL gm n x e gm.M = e := by
  simp [bDL, hM, bDLaux]

theorem bDL_lt (gm : Profile) (n : Row) (x : ℕ) (e : ℚ≥0) {k : ℕ}
    (h1 : 1 ≤ k) (h2 : k < gm.M) :
    bDL gm n x e k =
      (gm.msc (k+1) x * n.ML (k+1) * gm.tDM k + bDL gm n x e (k+1) * gm.tDD k) + e := by
  have hj : gm.M - k = (gm.M - (k+1)) + 1 := by omega
  have h3 : gm.M - (gm.M - (k + 1)) = k + 1 := by omega
  have h4 : gm.M - (gm.M - (k + 1)) - 1 = k := by omega
  simp only [bDL, h1, h2.le, and_self, if_pos, true_and, hj]
  rw [if_pos (by omega : 1 ≤ k + 1 ∧ k + 1 ≤ gm.M)]
  rw [show bDLaux gm n x e ((gm.M - (k+1)) + 1) =
      (gm.msc (gm.M - (gm.M - (k+1))) x * n.ML (gm.M - (gm.M - (k+1))) *
        gm.tDM (gm.M - (gm.M - (k+1)) - 1) +
        bDLaux gm n x e (gm.M - (k+1)) * gm.tDD (gm.M - (gm.M - (k+1)) - 1)) + e from rfl]
  rw [h3]
  norm_num

theorem bDG_M (gm : Profile) (n : Row) (x : ℕ) (e : ℚ≥0) (hM : 1 ≤ gm.M) :
    bDG gm n x e gm.M = e := by
  simp [bDG, hM, bDGaux]

theorem bDG_lt (gm : Profile) (n : Row) (x : ℕ) (e : ℚ≥0) {k : ℕ}
    (h1 : 1 ≤ k) (h2 : k < gm.M) :
    bDG gm n x e k =
      gm.msc (k+1) x * n.MG (k+1) * gm.tDM k + bDG gm n x e (k+1) * gm.tDD k := by
  have hj : gm.M - k = (gm.M - (k+1)) + 1 := by omega
  have h3 : gm.M - (gm.M - (k + 1)) = k + 1 := by omega
  have h4 : gm.M - (gm.M - (k + 1)) - 1 = k := by omega
  simp only [bDG, h1, h2.le, and_self, if_pos, true_and, hj]
  rw [if_pos (by omega : 1 ≤ k + 1 ∧ k + 1 ≤ gm.M)]
  rw [show bDGaux gm n x e ((gm.M - (k+1)) + 1) =
      gm.msc (gm.M - (gm.M - (k+1))) x * n.MG (gm.M - (gm.M - (k+1))) *
        gm.tDM (gm.M - (gm.M - (k+1)) - 1) +
        bDGaux gm n x e (gm.M - (k+1)) * gm.tDD (gm.M - (gm.M - (k+1)) - 1) from rfl]
  rw [h3]
  norm_num

theorem bML_M (gm : Profile) (n : Row) (x : ℕ) (e : ℚ≥0) (hM : 1 ≤ gm.M) :
    bML gm n x e gm.M = e := by
  simp [bML]
  omega

theorem bML_lt (gm : Profile) (n : Row) (x : ℕ) (e : ℚ≥0) {k : ℕ}
    (h1 : 1 ≤ k) (h2 : k < gm.M) :
    bML gm n x e k =
      (gm.msc (k+1) x * n.ML (k+1) * gm.tMM k + n.IL k * gm.tMI k) +
        (bDL gm n x e (k+1) * gm.tMD k + e) := by
  unfold bML
  rw [if_neg (by omega), if_neg (by omega)]

theorem bMG_M (gm : Profile) (n : Row) (x : ℕ) (e : ℚ≥0) (hM : 1 ≤ gm.M) :
    bMG gm n x e gm.M = e := by
  simp [bMG]
  omega

theorem bMG_lt (gm : Profile) (n : Row) (x : ℕ) (e : ℚ≥0) {k : ℕ}
    (h1 : 1 ≤ k) (h2 : k < gm.M) :
    bMG gm n x e k =
      (gm.msc (k+1) x * n.MG (k+1) * gm.tMM k + n.IG k * gm.tMI k) +
        bDG gm n x e (k+1) * gm.tMD k := by
  unfold bMG
  rw [if_neg (by omega), if_neg (by omega)]

theorem bIL_M (gm : Profile) (n : Row) (x : ℕ) : bIL gm n x gm.M = 0 := by
  simp [bIL]

theorem bIL_lt (gm : Profile) (n : Row) (x : ℕ) {k : ℕ} (h1 : 1 ≤ k) (h2 : k < gm.M) :
    bIL gm n x k = gm.msc (k+1) x * n.ML (k+1) * gm.tIM k + n.IL k * gm.tII k := by
  unfold bIL
  rw [if_neg (by omega)]

theorem bIG_M (gm : Profile) (n : Row) (x : ℕ) : bIG gm n x gm.M = 0 := by
  simp [bIG]

theorem bIG_lt (gm : Profile) (n : Row) (x : ℕ) {k : ℕ} (h1 : 1 ≤ k) (h2 : k < gm.M) :
    bIG gm n x k = gm.msc (k+1) x * n.MG (k+1) * gm.tIM k + n.IG k * gm.tII k := by
  unfold bIG
  rw [if_neg (by omega)]

/-- A row produced by the Forward fill satisfies the deferred-storage D-chain
recurrences, has `-inf` k = 0 cells and I cells at k = M, and its E special
is the row's own exit accumulation.  These facts are definitional for
`fNext`-rows and trivial for row 0. -/
def chainOK (gm : Profile) (p : Row) : Prop :=
  (∀ k, p.DL (k+1) = p.ML k * gm.tMD k + p.DL k * gm.tDD k) ∧
  (∀ k, p.DG (k+1) = p.MG k * gm.tMD k + p.DG k * gm.tDD k) ∧
  p.ML 0 = 0 ∧ p.MG 0 = 0 ∧ p.IL 0 = 0 ∧ p.IG 0 = 0 ∧ p.DL 0 = 0 ∧ p.DG 0 = 0 ∧
  p.IL gm.M = 0 ∧ p.IG gm.M = 0 ∧
  p.E = (∑ k in Finset.range gm.M, (p.ML (k+1) + p.DL (k+1))) + (p.MG gm.M + p.DG gm.M)

theorem chainOK_row0 (gm : Profile) : chainOK gm (row0 gm) := by
  refine ⟨fun k => ?_, fun k => ?_, rfl, rfl, rfl, rfl, rfl, rfl, rfl, rfl, ?_⟩ <;>
    simp [row0]

theorem chainOK_fNext (gm : Profile) (p : Row) (x : ℕ) : chainOK gm (fNext gm p x) := by
  refine ⟨fun k => rfl, fun k => rfl, rfl, rfl, ?_, ?_, rfl, rfl, ?_, ?_, rfl⟩ <;>
    simp [fNext, fIL, fIG]

theorem chainOK_fRows (gm : Profile) (dsq : ℕ → ℕ) (i : ℕ) :
    chainOK gm (fRows gm dsq i) := by
  cases i with
  | zero => exact chainOK_row0 gm
  | succ i => exact chainOK_fNext gm (fRows gm dsq i) (dsq (i+1))

/-- Bilinear chain-exchange invariant: if `u` runs a forward accumulator
chain `u (k+1) = a k + u k * t k` and `v` a backward chain
`v k = c k + v (k+1) * t k`, then pushing the cross terms through the chain
telescopes. -/
theorem chain_aux (a t c u v : ℕ → ℚ≥0) (m : ℕ)
    (hu : ∀ k, k < m → u (k+2) = a (k+1) + u (k+1) * t (k+1))
    (hv : ∀ k, k < m → v (k+1) = c (k+1) + v (k+2) * t (k+1)) :
    (∑ k in Finset.range m, a (k+1) * v (k+2)) + u 1 * v 1
      = u (m+1) * v (m+1) + ∑ k in Finset.range m, u (k+1) * c (k+1) := by
  induction m with
  | zero => simp [add_comm]
  | succ m ih =>
    rw [Finset.sum_range_succ, Finset.sum_range_succ]
    have ih2 := ih (fun k hk => hu k (by omega)) (fun k hk => hv k (by omega))
    have h1 := hu m (by omega)
    have h2 := hv m (by omega)
    calc (∑ k in Finset.range m, a (k+1) * v (k+2)) + a (m+1) * v (m+2) + u 1 * v 1
        = ((∑ k in Finset.range m, a (k+1) * v (k+2)) + u 1 * v 1) + a (m+1) * v (m+2) := by
          ring
      _ = (u (m+1) * v (m+1) + ∑ k in Finset.range m, u (k+1) * c (k+1))
            + a (m+1) * v (m+2) := by rw [ih2]
      _ = (u (m+1) * (c (m+1) + v (m+2) * t (m+1)) + ∑ k in Finset.range m, u (k+1) * c (k+1))
            + a (m+1) * v (m+2) := by rw [← h2]
      _ = (a (m+1) + u (m+1) * t (m+1)) * v (m+2)
            + ((∑ k in Finset.range m, u (k+1) * c (k+1)) + u (m+1) * c (m+1)) := by ring
      _ = u (m+2) * v (m+2) + ((∑ k in Finset.range m, u (k+1) * c (k+1)) + u (m+1) * c (m+1)) := by
          rw [← h1]

/-- Local-column exchange across one row boundary: pairing row i Forward
values with row i Backward cells (computed by `bPrev` from row i+1 = `n`)
equals pairing row i+1 Forward cells with row i+1 Backward values, after
routing the within-row DL chain (via `chain_aux`) and collecting the local
exits against the row's Backward E. -/
theorem stepL (gm : Profile) (p n : Row) (x : ℕ)
    (hisc : ∀ k y, gm.isc k y = 1) (hM : 1 ≤ gm.M) (hp : chainOK gm p) :
    (∑ k in Finset.range gm.M, p.ML (k+1) * bML gm n x (bkE gm n x) (k+1))
      + ((∑ k in Finset.range gm.M, p.IL (k+1) * bIL gm n x (k+1)) + p.L * lSum gm n x)
    = (∑ k in Finset.range gm.M, fML gm p x (k+1) * n.ML (k+1))
      + ((∑ k in Finset.range gm.M, fIL gm p x (k+1) * n.IL (k+1))
        + bkE gm n x * (∑ k in Finset.range gm.M, (p.ML (k+1) + p.DL (k+1)))) := by
  obtain ⟨hDL, hDG, hML0, hMG0, hIL0, hIG0, hDL0, hDG0, hILM, hIGM, hE⟩ := hp
  set e := bkE gm n x with he
  obtain ⟨m, hm⟩ : ∃ m, gm.M = m + 1 := ⟨gm.M - 1, by omega⟩
  have hbMLlast : bML gm n x e (m+1) = e := by rw [← hm]; exact bML_M gm n x e hM
  have hbILlast : bIL gm n x (m+1) = 0 := by rw [← hm]; exact bIL_M gm n x
  have hfILlast : fIL gm p x (m+1) = 0 := by rw [← hm]; simp [fIL]
  have h1 : ∑ k in Finset.range (m+1), p.ML (k+1) * bML gm n x e (k+1)
      = ((∑ k in Finset.range m, p.ML (k+1) * gm.tMM (k+1) * (gm.msc (k+2) x * n.ML (k+2)))
        + (∑ k in Finset.range m, p.ML (k+1) * gm.tMI (k+1) * n.IL (k+1)))
        + ((∑ k in Finset.range m, p.ML (k+1) * gm.tMD (k+1) * bDL gm n x e (k+2))
        + (∑ k in Finset.range (m+1), p.ML (k+1) * e)) := by
    rw [Finset.sum_range_succ, hbMLlast]
    rw [show (∑ k in Finset.range m, p.ML (k+1) * bML gm n x e (k+1))
        = ∑ k in Finset.range m,
            (p.ML (k+1) * gm.tMM (k+1) * (gm.msc (k+2) x * n.ML (k+2))
              + p.ML (k+1) * gm.tMI (k+1) * n.IL (k+1)
              + (p.ML (k+1) * gm.tMD (k+1) * bDL gm n x e (k+2) + p.ML (k+1) * e))
      from Finset.sum_congr rfl (fun k hk => by
        rw [bML_lt gm n x e (by omega) (by have := Finset.mem_range.mp hk; omega)]
        ring)]
    simp only [Finset.sum_add_distrib]
    rw [Finset.sum_range_succ (fun k => p.ML (k+1) * e)]
    ring
  have hchain : ∑ k in Finset.range m, p.ML (k+1) * gm.tMD (k+1) * bDL gm n x e (k+2)
      = p.DL (m+1) * e
        + ((∑ k in Finset.range m, p.DL (k+1) * gm.tDM (k+1) * (gm.msc (k+2) x * n.ML (k+2)))
          + (∑ k in Finset.range m, p.DL (k+1) * e)) := by
    have happ := chain_aux (fun k => p.ML k * gm.tMD k) gm.tDD
      (fun k => gm.msc (k+1) x * n.ML (k+1) * gm.tDM k + e)
      p.DL (fun k => bDL gm n x e k) m
      (fun k _ => hDL (k+1))
      (fun k hk => by
        show bDL gm n x e (k+1)
            = (gm.msc (k+2) x * n.ML (k+2) * gm.tDM (k+1) + e)
              + bDL gm n x e (k+2) * gm.tDD (k+1)
        rw [bDL_lt gm n x e (by omega) (by omega)]
        ring)
    have happ2 : (∑ k in Finset.range m, p.ML (k+1) * gm.tMD (k+1) * bDL gm n x e (k+2))
        + p.DL 1 * bDL gm n x e 1
        = p.DL (m+1) * bDL gm n x e (m+1)
          + ∑ k in Finset.range m,
              p.DL (k+1) * (gm.msc (k+2) x * n.ML (k+2) * gm.tDM (k+1) + e) := happ
    have hz : p.DL 1 = 0 := by
      have h01 : p.DL 1 = p.ML 0 * gm.tMD 0 + p.DL 0 * gm.tDD 0 := hDL 0
      rw [h01, hML0, hDL0]
      simp
    have hbm : bDL gm n x e (m+1) = e := by rw [← hm]; exact bDL_M gm n x e hM
    rw [hz, zero_mul, add_zero, hbm] at happ2
    rw [happ2]
    rw [show (∑ k in Finset.range m,
          p.DL (k+1) * (gm.msc (k+2) x * n.ML (k+2) * gm.tDM (k+1) + e))
        = ∑ k in Finset.range m,
            (p.DL (k+1) * gm.tDM (k+1) * (gm.msc (k+2) x * n.ML (k+2)) + p.DL (k+1) * e)
      from Finset.sum_congr rfl (fun k _ => by ring)]
    simp only [Finset.sum_add_distrib]
  have h2 : ∑ k in Finset.range (m+1), p.IL (k+1) * bIL gm n x (k+1)
      = (∑ k in Finset.range m, p.IL (k+1) * gm.tIM (k+1) * (gm.msc (k+2) x * n.ML (k+2)))
        + (∑ k in Finset.range m, p.IL (k+1) * gm.tII (k+1) * n.IL (k+1)) := by
    rw [Finset.sum_range_succ, hbILlast, mul_zero, add_zero]
    rw [show (∑ k in Finset.range m, p.IL (k+1) * bIL gm n x (k+1))
        = ∑ k in Finset.range m,
            (p.IL (k+1) * gm.tIM (k+1) * (gm.msc (k+2) x * n.ML (k+2))
              + p.IL (k+1) * gm.tII (k+1) * n.IL (k+1))
      from Finset.sum_congr rfl (fun k hk => by
        rw [bIL_lt gm n x (by omega) (by have := Finset.mem_range.mp hk; omega)]
        ring)]
    simp only [Finset.sum_add_distrib]
  have h3 : ∑ k in Finset.range (m+1), fML gm p x (k+1) * n.ML (k+1)
      = (∑ k in Finset.range m, p.ML (k+1) * gm.tMM (k+1) * (gm.msc (k+2) x * n.ML (k+2)))
        + ((∑ k in Finset.range m, p.IL (k+1) * gm.tIM (k+1) * (gm.msc (k+2) x * n.ML (k+2)))
        + ((∑ k in Finset.range m, p.DL (k+1) * gm.tDM (k+1) * (gm.msc (k+2) x * n.ML (k+2)))
        + (∑ k in Finset.range (m+1), p.L * gm.tLM k * (gm.msc (k+1) x * n.ML (k+1))))) := by
    rw [show (∑ k in Finset.range (m+1), fML gm p x (k+1) * n.ML (k+1))
        = ∑ k in Finset.range (m+1),
            (p.ML k * gm.tMM k * (gm.msc (k+1) x * n.ML (k+1))
              + (p.IL k * gm.tIM k * (gm.msc (k+1) x * n.ML (k+1))
              + (p.DL k * gm.tDM k * (gm.msc (k+1) x * n.ML (k+1))
              + p.L * gm.tLM k * (gm.msc (k+1) x * n.ML (k+1)))))
      from Finset.sum_congr rfl (fun k _ => by simp only [fML]; ring)]
    simp only [Finset.sum_add_distrib]
    rw [Finset.sum_range_succ' (fun k => p.ML k * gm.tMM k * (gm.msc (k+1) x * n.ML (k+1)))]
    rw [Finset.sum_range_succ' (fun k => p.IL k * gm.tIM k * (gm.msc (k+1) x * n.ML (k+1)))]
    rw [Finset.sum_range_succ' (fun k => p.DL k * gm.tDM k * (gm.msc (k+1) x * n.ML (k+1)))]
    rw [hML0, hIL0, hDL0]
    ring
  have h4 : ∑ k in Finset.range (m+1), fIL gm p x (k+1) * n.IL (k+1)
      = (∑ k in Finset.range m, p.ML (k+1) * gm.tMI (k+1) * n.IL (k+1))
        + (∑ k in Finset.range m, p.IL (k+1) * gm.tII (k+1) * n.IL (k+1)) := by
    rw [Finset.sum_range_succ, hfILlast, zero_mul, add_zero]
    rw [show (∑ k in Finset.range m, fIL gm p x (k+1) * n.IL (k+1))
        = ∑ k in Finset.range m,
            (p.ML (k+1) * gm.tMI (k+1) * n.IL (k+1) + p.IL (k+1) * gm.tII (k+1) * n.IL (k+1))
      from Finset.sum_congr rfl (fun k hk => by
        have hne : ¬(k+1 = 0 ∨ k+1 = gm.M) := by
          have := Finset.mem_range.mp hk; omega
        rw [show fIL gm p x (k+1)
            = gm.isc (k+1) x * (p.ML (k+1) * gm.tMI (k+1) + p.IL (k+1) * gm.tII (k+1))
          from by unfold fIL; rw [if_neg hne]]
        rw [hisc]
        ring)]
    simp only [Finset.sum_add_distrib]
  have h5 : e * (∑ k in Finset.range (m+1), (p.ML (k+1) + p.DL (k+1)))
      = (∑ k in Finset.range (m+1), p.ML (k+1) * e)
        + ((∑ k in Finset.range m, p.DL (k+1) * e) + p.DL (m+1) * e) := by
    rw [Finset.mul_sum]
    rw [show (∑ k in Finset.range (m+1), e * (p.ML (k+1) + p.DL (k+1)))
        = ∑ k in Finset.range (m+1), (p.ML (k+1) * e + p.DL (k+1) * e)
      from Finset.sum_congr rfl (fun k _ => by ring)]
    simp only [Finset.sum_add_distrib]
    rw [Finset.sum_range_succ (fun k => p.DL (k+1) * e)]
  have h7 : p.L * lSum gm n x
      = ∑ k in Finset.range (m+1), p.L * gm.tLM k * (gm.msc (k+1) x * n.ML (k+1)) := by
    rw [lSum, hm, Finset.mul_sum]
    exact Finset.sum_congr rfl (fun k _ => by ring)
  rw [hm, h1, hchain, h2, h3, h4, h5, h7]
  ring
/-- Glocal-column exchange across one row boundary, the `stepL` analog for
MG/IG/DG: no within-row local exits, the only E contributions being the
glocal MG_M/DG_M exits. -/
theorem stepG (gm : Profile) (p n : Row) (x : ℕ)
    (hisc : ∀ k y, gm.isc k y = 1) (hM : 1 ≤ gm.M) (hp : chainOK gm p) :
    (∑ k in Finset.range gm.M, p.MG (k+1) * bMG gm n x (bkE gm n x) (k+1))
      + ((∑ k in Finset.range gm.M, p.IG (k+1) * bIG gm n x (k+1)) + p.G * gSum gm n x)
    = (∑ k in Finset.range gm.M, fMG gm p x (k+1) * n.MG (k+1))
      + ((∑ k in Finset.range gm.M, fIG gm p x (k+1) * n.IG (k+1))
        + bkE gm n x * (p.MG gm.M + p.DG gm.M)) := by
  obtain ⟨hDL, hDG, hML0, hMG0, hIL0, hIG0, hDL0, hDG0, hILM, hIGM, hE⟩ := hp
  set e := bkE gm n x with he
  obtain ⟨m, hm⟩ : ∃ m, gm.M = m + 1 := ⟨gm.M - 1, by omega⟩
  have hbMGlast : bMG gm n x e (m+1) = e := by rw [← hm]; exact bMG_M gm n x e hM
  have hbIGlast : bIG gm n x (m+1) = 0 := by rw [← hm]; exact bIG_M gm n x
  have hfIGlast : fIG gm p x (m+1) = 0 := by rw [← hm]; simp [fIG]
  have h1 : ∑ k in Finset.range (m+1), p.MG (k+1) * bMG gm n x e (k+1)
      = ((∑ k in Finset.range m, p.MG (k+1) * gm.tMM (k+1) * (gm.msc (k+2) x * n.MG (k+2)))
        + (∑ k in Finset.range m, p.MG (k+1) * gm.tMI (k+1) * n.IG (k+1)))
        + ((∑ k in Finset.range m, p.MG (k+1) * gm.tMD (k+1) * bDG gm n x e (k+2))
        + p.MG (m+1) * e) := by
    rw [Finset.sum_range_succ, hbMGlast]
    rw [show (∑ k in Finset.range m, p.MG (k+1) * bMG gm n x e (k+1))
        = ∑ k in Finset.range m,
            (p.MG (k+1) * gm.tMM (k+1) * (gm.msc (k+2) x * n.MG (k+2))
              + p.MG (k+1) * gm.tMI (k+1) * n.IG (k+1)
              + p.MG (k+1) * gm.tMD (k+1) * bDG gm n x e (k+2))
      from Finset.sum_congr rfl (fun k hk => by
        rw [bMG_lt gm n x e (by omega) (by have := Finset.mem_range.mp hk; omega)]
        ring)]
    simp only [Finset.sum_add_distrib]
    ring
  have hchain : ∑ k in Finset.range m, p.MG (k+1) * gm.tMD (k+1) * bDG gm n x e (k+2)
      = p.DG (m+1) * e
        + (∑ k in Finset.range m, p.DG (k+1) * gm.tDM (k+1) * (gm.msc (k+2) x * n.MG (k+2))) := by
    have happ := chain_aux (fun k => p.MG k * gm.tMD k) gm.tDD
      (fun k => gm.msc (k+1) x * n.MG (k+1) * gm.tDM k)
      p.DG (fun k => bDG gm n x e k) m
      (fun k _ => hDG (k+1))
      (fun k hk => by
        show bDG gm n x e (k+1)
            = gm.msc (k+2) x * n.MG (k+2) * gm.tDM (k+1)
              + bDG gm n x e (k+2) * gm.tDD (k+1)
        rw [bDG_lt gm n x e (by omega) (by omega)])
    have happ2 : (∑ k in Finset.range m, p.MG (k+1) * gm.tMD (k+1) * bDG gm n x e (k+2))
        + p.DG 1 * bDG gm n x e 1
        = p.DG (m+1) * bDG gm n x e (m+1)
          + ∑ k in Finset.range m,
              p.DG (k+1) * (gm.msc (k+2) x * n.MG (k+2) * gm.tDM (k+1)) := happ
    have hz : p.DG 1 = 0 := by
      have h01 : p.DG 1 = p.MG 0 * gm.tMD 0 + p.DG 0 * gm.tDD 0 := hDG 0
      rw [h01, hMG0, hDG0]
      simp
    have hbm : bDG gm n x e (m+1) = e := by rw [← hm]; exact bDG_M gm n x e hM
    rw [hz, zero_mul, add_zero, hbm] at happ2
    rw [happ2]
    rw [show (∑ k in Finset.range m,
          p.DG (k+1) * (gm.msc (k+2) x * n.MG (k+2) * gm.tDM (k+1)))
        = ∑ k in Finset.range m,
            p.DG (k+1) * gm.tDM (k+1) * (gm.msc (k+2) x * n.MG (k+2))
      from Finset.sum_congr rfl (fun k _ => by ring)]
  have h2 : ∑ k in Finset.range (m+1), p.IG (k+1) * bIG gm n x (k+1)
      = (∑ k in Finset.range m, p.IG (k+1) * gm.tIM (k+1) * (gm.msc (k+2) x * n.MG (k+2)))
        + (∑ k in Finset.range m, p.IG (k+1) * gm.tII (k+1) * n.IG (k+1)) := by
    rw [Finset.sum_range_succ, hbIGlast, mul_zero, add_zero]
    rw [show (∑ k in Finset.range m, p.IG (k+1) * bIG gm n x (k+1))
        = ∑ k in Finset.range m,
            (p.IG (k+1) * gm.tIM (k+1) * (gm.msc (k+2) x * n.MG (k+2))
              + p.IG (k+1) * gm.tII (k+1) * n.IG (k+1))
      from Finset.sum_congr rfl (fun k hk => by
        rw [bIG_lt gm n x (by omega) (by have := Finset.mem_range.mp hk; omega)]
        ring)]
    simp only [Finset.sum_add_distrib]
  have h3 : ∑ k in Finset.range (m+1), fMG gm p x (k+1) * n.MG (k+1)
      = (∑ k in Finset.range m, p.MG (k+1) * gm.tMM (k+1) * (gm.msc (k+2) x * n.MG (k+2)))
        + ((∑ k in Finset.range m, p.IG (k+1) * gm.tIM (k+1) * (gm.msc (k+2) x * n.MG (k+2)))
        + ((∑ k in Finset.range m, p.DG (k+1) * gm.tDM (k+1) * (gm.msc (k+2) x * n.MG (k+2)))
        + (∑ k in Finset.range (m+1), p.G * gm.tGM k * (gm.msc (k+1) x * n.MG (k+1))))) := by
    rw [show (∑ k in Finset.range (m+1), fMG gm p x (k+1) * n.MG (k+1))
        = ∑ k in Finset.range (m+1),
            (p.MG k * gm.tMM k * (gm.msc (k+1) x * n.MG (k+1))
              + (p.IG k * gm.tIM k * (gm.msc (k+1) x * n.MG (k+1))
              + (p.DG k * gm.tDM k * (gm.msc (k+1) x * n.MG (k+1))
              + p.G * gm.tGM k * (gm.msc (k+1) x * n.MG (k+1)))))
      from Finset.sum_congr rfl (fun k _ => by simp only [fMG]; ring)]
    simp only [Finset.sum_add_distrib]
    rw [Finset.sum_range_succ' (fun k => p.MG k * gm.tMM k * (gm.msc (k+1) x * n.MG (k+1)))]
    rw [Finset.sum_range_succ' (fun k => p.IG k * gm.tIM k * (gm.msc (k+1) x * n.MG (k+1)))]
    rw [Finset.sum_range_succ' (fun k => p.DG k * gm.tDM k * (gm.msc (k+1) x * n.MG (k+1)))]
    rw [hMG0, hIG0, hDG0]
    ring
  have h4 : ∑ k in Finset.range (m+1), fIG gm p x (k+1) * n.IG (k+1)
      = (∑ k in Finset.range m, p.MG (k+1) * gm.tMI (k+1) * n.IG (k+1))
        + (∑ k in Finset.range m, p.IG (k+1) * gm.tII (k+1) * n.IG (k+1)) := by
    rw [Finset.sum_range_succ, hfIGlast, zero_mul, add_zero]
    rw [show (∑ k in Finset.range m, fIG gm p x (k+1) * n.IG (k+1))
        = ∑ k in Finset.range m,
            (p.MG (k+1) * gm.tMI (k+1) * n.IG (k+1) + p.IG (k+1) * gm.tII (k+1) * n.IG (k+1))
      from Finset.sum_congr rfl (fun k hk => by
        have hne : ¬(k+1 = 0 ∨ k+1 = gm.M) := by
          have := Finset.mem_range.mp hk; omega
        rw [show fIG gm p x (k+1)
            = gm.isc (k+1) x * (p.MG (k+1) * gm.tMI (k+1) + p.IG (k+1) * gm.tII (k+1))
          from by unfold fIG; rw [if_neg hne]]
        rw [hisc]
        ring)]
    simp only [Finset.sum_add_distrib]
  have h7 : p.G * gSum gm n x
      = ∑ k in Finset.range (m+1), p.G * gm.tGM k * (gm.msc (k+1) x * n.MG (k+1)) := by
    rw [gSum, hm, Finset.mul_sum]
    exact Finset.sum_congr rfl (fun k _ => by ring)
  rw [hm, h1, hchain, h2, h3, h4, h7]
  ring
/-! ### Row L cell recurrences for the Backward initialization -/

theorem bRowL_DL_M (gm : Profile) (hM : 1 ≤ gm.M) :
    (bRowL gm).DL gm.M = gm.xCmove * gm.xEmove := by
  simp [bRowL, hM, bDLLaux]

theorem bRowL_DL_lt (gm : Profile) {k : ℕ} (h1 : 1 ≤ k) (h2 : k < gm.M) :
    (bRowL gm).DL k = gm.xCmove * gm.xEmove + (bRowL gm).DL (k+1) * gm.tDD k := by
  have hj : gm.M - k = (gm.M - (k+1)) + 1 := by omega
  have h4 : gm.M - (gm.M - (k + 1)) - 1 = k := by omega
  show (if 1 ≤ k ∧ k ≤ gm.M then bDLLaux gm (gm.xCmove * gm.xEmove) (gm.M - k) else 0) = _
  rw [if_pos ⟨h1, h2.le⟩, hj]
  show gm.xCmove * gm.xEmove
      + bDLLaux gm (gm.xCmove * gm.xEmove) (gm.M - (k+1)) * gm.tDD (gm.M - (gm.M - (k+1)) - 1)
    = _
  rw [h4]
  show _ = gm.xCmove * gm.xEmove
      + (if 1 ≤ k+1 ∧ k+1 ≤ gm.M then bDLLaux gm (gm.xCmove * gm.xEmove) (gm.M - (k+1)) else 0)
        * gm.tDD k
  rw [if_pos (by omega : 1 ≤ k+1 ∧ k+1 ≤ gm.M)]

theorem bRowL_DG_M (gm : Profile) (hM : 1 ≤ gm.M) :
    (bRowL gm).DG gm.M = gm.xCmove * gm.xEmove := by
  simp [bRowL, hM, bDGLaux]

theorem bRowL_DG_lt (gm : Profile) {k : ℕ} (h1 : 1 ≤ k) (h2 : k < gm.M) :
    (bRowL gm).DG k = (bRowL gm).DG (k+1) * gm.tDD k := by
  have hj : gm.M - k = (gm.M - (k+1)) + 1 := by omega
  have h4 : gm.M - (gm.M - (k + 1)) - 1 = k := by omega
  show (if 1 ≤ k ∧ k ≤ gm.M then bDGLaux gm (gm.xCmove * gm.xEmove) (gm.M - k) else 0) = _
  rw [if_pos ⟨h1, h2.le⟩, hj]
  show bDGLaux gm (gm.xCmove * gm.xEmove) (gm.M - (k+1)) * gm.tDD (gm.M - (gm.M - (k+1)) - 1)
    = _
  rw [h4]
  show _ = (if 1 ≤ k+1 ∧ k+1 ≤ gm.M then bDGLaux gm (gm.xCmove * gm.xEmove) (gm.M - (k+1)) else 0)
        * gm.tDD k
  rw [if_pos (by omega : 1 ≤ k+1 ∧ k+1 ≤ gm.M)]

theorem bRowL_ML_M (gm : Profile) (hM : 1 ≤ gm.M) :
    (bRowL gm).ML gm.M = gm.xCmove * gm.xEmove := by
  show (if gm.M = 0 ∨ gm.M < gm.M then 0 else if gm.M = gm.M then gm.xCmove * gm.xEmove else _)
    = _
  rw [if_neg (by omega), if_pos rfl]

theorem bRowL_ML_lt (gm : Profile) {k : ℕ} (h1 : 1 ≤ k) (h2 : k < gm.M) :
    (bRowL gm).ML k = gm.xCmove * gm.xEmove + (bRowL gm).DL (k+1) * gm.tMD k := by
  show (if k = 0 ∨ gm.M < k then 0 else if k = gm.M then _ else
      gm.xCmove * gm.xEmove + bDLLaux gm (gm.xCmove * gm.xEmove) (gm.M - (k+1)) * gm.tMD k)
    = _
  rw [if_neg (by omega), if_neg (by omega)]
  show _ = gm.xCmove * gm.xEmove
    + (if 1 ≤ k+1 ∧ k+1 ≤ gm.M then bDLLaux gm (gm.xCmove * gm.xEmove) (gm.M - (k+1)) else 0)
      * gm.tMD k
  rw [if_pos (by omega : 1 ≤ k+1 ∧ k+1 ≤ gm.M)]

theorem bRowL_MG_M (gm : Profile) (hM : 1 ≤ gm.M) :
    (bRowL gm).MG gm.M = gm.xCmove * gm.xEmove := by
  show (if gm.M = 0 ∨ gm.M < gm.M then 0 else if gm.M = gm.M then gm.xCmove * gm.xEmove else _)
    = _
  rw [if_neg (by omega), if_pos rfl]

theorem bRowL_MG_lt (gm : Profile) {k : ℕ} (h1 : 1 ≤ k) (h2 : k < gm.M) :
    (bRowL gm).MG k = (bRowL gm).DG (k+1) * gm.tMD k := by
  show (if k = 0 ∨ gm.M < k then 0 else if k = gm.M then _ else
      bDGLaux gm (gm.xCmove * gm.xEmove) (gm.M - (k+1)) * gm.tMD k)
    = _
  rw [if_neg (by omega), if_neg (by omega)]
  show _ = (if 1 ≤ k+1 ∧ k+1 ≤ gm.M then bDGLaux gm (gm.xCmove * gm.xEmove) (gm.M - (k+1)) else 0)
      * gm.tMD k
  rw [if_pos (by omega : 1 ≤ k+1 ∧ k+1 ≤ gm.M)]
/-- How the Forward specials of a filled row relate to the previous row:
these are the definitional equations of `fNext` restated about an opaque
row `p` (with `pm1` the row before it). -/
theorem fNext_J (gm : Profile) (p : Row) (x : ℕ) :
    (fNext gm p x).J = p.J * gm.xJloop + (fNext gm p x).E * gm.xEloop := rfl

theorem fNext_C (gm : Profile) (p : Row) (x : ℕ) :
    (fNext gm p x).C = p.C * gm.xCloop + (fNext gm p x).E * gm.xEmove := rfl

theorem fNext_L (gm : Profile) (p : Row) (x : ℕ) :
    (fNext gm p x).L
      = ((fNext gm p x).N * gm.xNmove + (fNext gm p x).J * gm.xJmove) * gm.xB0 := rfl

theorem fNext_G (gm : Profile) (p : Row) (x : ℕ) :
    (fNext gm p x).G
      = ((fNext gm p x).N * gm.xNmove + (fNext gm p x).J * gm.xJmove) * gm.xB1 := rfl

/-- One full row-boundary step of the cut invariant: the cut sum over the
emitting states of row i (paired with Backward row i, built by `bPrev` from
row i+1 = `n`) equals the cut sum over the emitting states of row i+1.
`p` is Forward row i, `pm1` Forward row i-1, `x = dsq[i+1]`. -/
theorem stepRow (gm : Profile) (pm1 p n : Row) (x : ℕ)
    (hisc : ∀ k y, gm.isc k y = 1) (hM : 1 ≤ gm.M) (hp : chainOK gm p)
    (hJ : p.J = pm1.J * gm.xJloop + p.E * gm.xEloop)
    (hC : p.C = pm1.C * gm.xCloop + p.E * gm.xEmove)
    (hL : p.L = (p.N * gm.xNmove + p.J * gm.xJmove) * gm.xB0)
    (hG : p.G = (p.N * gm.xNmove + p.J * gm.xJmove) * gm.xB1) :
    (∑ k in Finset.range gm.M,
      (p.ML (k+1) * (bPrev gm n x).ML (k+1) + p.MG (k+1) * (bPrev gm n x).MG (k+1)
        + p.IL (k+1) * (bPrev gm n x).IL (k+1) + p.IG (k+1) * (bPrev gm n x).IG (k+1)))
      + (p.N * (bPrev gm n x).N
        + (pm1.J * gm.xJloop * (bPrev gm n x).J + pm1.C * gm.xCloop * (bPrev gm n x).C))
    = (∑ k in Finset.range gm.M,
      ((fNext gm p x).ML (k+1) * n.ML (k+1) + (fNext gm p x).MG (k+1) * n.MG (k+1)
        + (fNext gm p x).IL (k+1) * n.IL (k+1) + (fNext gm p x).IG (k+1) * n.IG (k+1)))
      + ((fNext gm p x).N * n.N + (p.J * gm.xJloop * n.J + p.C * gm.xCloop * n.C)) := by
  have hstepL := stepL gm p n x hisc hM hp
  have hstepG := stepG gm p n x hisc hM hp
  have hE2 : p.E = (∑ k in Finset.range gm.M, (p.ML (k+1) + p.DL (k+1)))
      + (p.MG gm.M + p.DG gm.M) := hp.2.2.2.2.2.2.2.2.2.2
  have hkey :
      ((∑ k in Finset.range gm.M,
        (p.ML (k+1) * (bPrev gm n x).ML (k+1) + p.MG (k+1) * (bPrev gm n x).MG (k+1)
          + p.IL (k+1) * (bPrev gm n x).IL (k+1) + p.IG (k+1) * (bPrev gm n x).IG (k+1)))
        + (p.N * (bPrev gm n x).N
          + (pm1.J * gm.xJloop * (bPrev gm n x).J + pm1.C * gm.xCloop * (bPrev gm n x).C)))
        + (p.L * lSum gm n x + p.G * gSum gm n x)
      = ((∑ k in Finset.range gm.M,
        ((fNext gm p x).ML (k+1) * n.ML (k+1) + (fNext gm p x).MG (k+1) * n.MG (k+1)
          + (fNext gm p x).IL (k+1) * n.IL (k+1) + (fNext gm p x).IG (k+1) * n.IG (k+1)))
        + ((fNext gm p x).N * n.N + (p.J * gm.xJloop * n.J + p.C * gm.xCloop * n.C)))
        + (p.L * lSum gm n x + p.G * gSum gm n x) := by
    calc ((∑ k in Finset.range gm.M,
        (p.ML (k+1) * (bPrev gm n x).ML (k+1) + p.MG (k+1) * (bPrev gm n x).MG (k+1)
          + p.IL (k+1) * (bPrev gm n x).IL (k+1) + p.IG (k+1) * (bPrev gm n x).IG (k+1)))
        + (p.N * (bPrev gm n x).N
          + (pm1.J * gm.xJloop * (bPrev gm n x).J + pm1.C * gm.xCloop * (bPrev gm n x).C)))
        + (p.L * lSum gm n x + p.G * gSum gm n x)
        = ((∑ k in Finset.range gm.M, p.ML (k+1) * bML gm n x (bkE gm n x) (k+1))
            + ((∑ k in Finset.range gm.M, p.IL (k+1) * bIL gm n x (k+1))
              + p.L * lSum gm n x))
          + (((∑ k in Finset.range gm.M, p.MG (k+1) * bMG gm n x (bkE gm n x) (k+1))
            + ((∑ k in Finset.range gm.M, p.IG (k+1) * bIG gm n x (k+1))
              + p.G * gSum gm n x))
          + (p.N * bkN gm n x
            + (pm1.J * gm.xJloop * bkJ gm n x + pm1.C * gm.xCloop * bkC gm n))) := by
          simp only [bPrev]
          simp only [Finset.sum_add_distrib]
          ring
      _ = ((∑ k in Finset.range gm.M, fML gm p x (k+1) * n.ML (k+1))
            + ((∑ k in Finset.range gm.M, fIL gm p x (k+1) * n.IL (k+1))
              + bkE gm n x * (∑ k in Finset.range gm.M, (p.ML (k+1) + p.DL (k+1)))))
          + (((∑ k in Finset.range gm.M, fMG gm p x (k+1) * n.MG (k+1))
            + ((∑ k in Finset.range gm.M, fIG gm p x (k+1) * n.IG (k+1))
              + bkE gm n x * (p.MG gm.M + p.DG gm.M)))
          + (p.N * bkN gm n x
            + (pm1.J * gm.xJloop * bkJ gm n x + pm1.C * gm.xCloop * bkC gm n))) := by
          rw [hstepL, hstepG]
      _ = ((∑ k in Finset.range gm.M,
          ((fNext gm p x).ML (k+1) * n.ML (k+1) + (fNext gm p x).MG (k+1) * n.MG (k+1)
            + (fNext gm p x).IL (k+1) * n.IL (k+1) + (fNext gm p x).IG (k+1) * n.IG (k+1)))
          + ((fNext gm p x).N * n.N + (p.J * gm.xJloop * n.J + p.C * gm.xCloop * n.C)))
          + (p.L * lSum gm n x + p.G * gSum gm n x) := by
          simp only [fNext, fwN]
          rw [hL, hG, hJ, hC, hE2]
          simp only [bkE, bkJ, bkN, bkC, bkB]
          simp only [Finset.sum_add_distrib]
          ring
  exact add_right_cancel hkey
/-- Termination of the cut invariant at row L: pairing Forward row L with the
Backward initialization row gives the Forward score `C(L) + C_MOVE`. -/
theorem stepRowL (gm : Profile) (pm1 p : Row) (hM : 1 ≤ gm.M) (hp : chainOK gm p)
    (hC : p.C = pm1.C * gm.xCloop + p.E * gm.xEmove) :
    (∑ k in Finset.range gm.M,
      (p.ML (k+1) * (bRowL gm).ML (k+1) + p.MG (k+1) * (bRowL gm).MG (k+1)
        + p.IL (k+1) * (bRowL gm).IL (k+1) + p.IG (k+1) * (bRowL gm).IG (k+1)))
      + (p.N * (bRowL gm).N
        + (pm1.J * gm.xJloop * (bRowL gm).J + pm1.C * gm.xCloop * (bRowL gm).C))
    = p.C * gm.xCmove := by
  obtain ⟨hDL, hDG, hML0, hMG0, hIL0, hIG0, hDL0, hDG0, hILM, hIGM, hE⟩ := hp
  obtain ⟨m, hm⟩ : ∃ m, gm.M = m + 1 := ⟨gm.M - 1, by omega⟩
  set cE := gm.xCmove * gm.xEmove with hcE
  have hIL : ∀ k, (bRowL gm).IL k = 0 := fun k => rfl
  have hIG : ∀ k, (bRowL gm).IG k = 0 := fun k => rfl
  have h1 : ∑ k in Finset.range (m+1), p.ML (k+1) * (bRowL gm).ML (k+1)
      = ((∑ k in Finset.range m, p.ML (k+1) * gm.tMD (k+1) * (bRowL gm).DL (k+2))
          + (∑ k in Finset.range m, p.ML (k+1) * cE))
        + p.ML (m+1) * cE := by
    rw [Finset.sum_range_succ]
    rw [show (bRowL gm).ML (m+1) = cE from by rw [← hm]; exact bRowL_ML_M gm hM]
    rw [show (∑ k in Finset.range m, p.ML (k+1) * (bRowL gm).ML (k+1))
        = ∑ k in Finset.range m,
            (p.ML (k+1) * gm.tMD (k+1) * (bRowL gm).DL (k+2) + p.ML (k+1) * cE)
      from Finset.sum_congr rfl (fun k hk => by
        rw [bRowL_ML_lt gm (by omega) (by have := Finset.mem_range.mp hk; omega)]
        ring)]
    simp only [Finset.sum_add_distrib]
  have hchain : ∑ k in Finset.range m, p.ML (k+1) * gm.tMD (k+1) * (bRowL gm).DL (k+2)
      = p.DL (m+1) * cE + ∑ k in Finset.range m, p.DL (k+1) * cE := by
    have happ := chain_aux (fun k => p.ML k * gm.tMD k) gm.tDD
      (fun _ => cE) p.DL (fun k => (bRowL gm).DL k) m
      (fun k _ => hDL (k+1))
      (fun k hk => by
        show (bRowL gm).DL (k+1) = cE + (bRowL gm).DL (k+2) * gm.tDD (k+1)
        rw [bRowL_DL_lt gm (by omega) (by omega)])
    have happ2 : (∑ k in Finset.range m, p.ML (k+1) * gm.tMD (k+1) * (bRowL gm).DL (k+2))
        + p.DL 1 * (bRowL gm).DL 1
        = p.DL (m+1) * (bRowL gm).DL (m+1) + ∑ k in Finset.range m, p.DL (k+1) * cE := happ
    have hz : p.DL 1 = 0 := by
      have h01 : p.DL 1 = p.ML 0 * gm.tMD 0 + p.DL 0 * gm.tDD 0 := hDL 0
      rw [h01, hML0, hDL0]
      simp
    have hbm : (bRowL gm).DL (m+1) = cE := by rw [← hm]; exact bRowL_DL_M gm hM
    rw [hz, zero_mul, add_zero, hbm] at happ2
    exact happ2
  have h2 : ∑ k in Finset.range (m+1), p.MG (k+1) * (bRowL gm).MG (k+1)
      = (∑ k in Finset.range m, p.MG (k+1) * gm.tMD (k+1) * (bRowL gm).DG (k+2))
        + p.MG (m+1) * cE := by
    rw [Finset.sum_range_succ]
    rw [show (bRowL gm).MG (m+1) = cE from by rw [← hm]; exact bRowL_MG_M gm hM]
    rw [show (∑ k in Finset.range m, p.MG (k+1) * (bRowL gm).MG (k+1))
        = ∑ k in Finset.range m, p.MG (k+1) * gm.tMD (k+1) * (bRowL gm).DG (k+2)
      from Finset.sum_congr rfl (fun k hk => by
        rw [bRowL_MG_lt gm (by omega) (by have := Finset.mem_range.mp hk; omega)]
        ring)]
  have hchainG : ∑ k in Finset.range m, p.MG (k+1) * gm.tMD (k+1) * (bRowL gm).DG (k+2)
      = p.DG (m+1) * cE := by
    have happ := chain_aux (fun k => p.MG k * gm.tMD k) gm.tDD
      (fun _ => (0 : ℚ≥0)) p.DG (fun k => (bRowL gm).DG k) m
      (fun k _ => hDG (k+1))
      (fun k hk => by
        show (bRowL gm).DG (k+1) = 0 + (bRowL gm).DG (k+2) * gm.tDD (k+1)
        rw [bRowL_DG_lt gm (by omega) (by omega), zero_add])
    have happ2 : (∑ k in Finset.range m, p.MG (k+1) * gm.tMD (k+1) * (bRowL gm).DG (k+2))
        + p.DG 1 * (bRowL gm).DG 1
        = p.DG (m+1) * (bRowL gm).DG (m+1)
          + ∑ k in Finset.range m, p.DG (k+1) * (0 : ℚ≥0) := happ
    have hz : p.DG 1 = 0 := by
      have h01 : p.DG 1 = p.MG 0 * gm.tMD 0 + p.DG 0 * gm.tDD 0 := hDG 0
      rw [h01, hMG0, hDG0]
      simp
    have hbm : (bRowL gm).DG (m+1) = cE := by rw [← hm]; exact bRowL_DG_M gm hM
    rw [hz, zero_mul, add_zero, hbm] at happ2
    simpa using happ2
  have hEm : p.E = (∑ k in Finset.range (m+1), (p.ML (k+1) + p.DL (k+1)))
      + (p.MG (m+1) + p.DG (m+1)) := by rw [← hm]; exact hE
  have hsplit : ∑ k in Finset.range (m+1), (p.ML (k+1) + p.DL (k+1))
      = ((∑ k in Finset.range m, p.ML (k+1)) + p.ML (m+1))
        + ((∑ k in Finset.range m, p.DL (k+1)) + p.DL (m+1)) := by
    simp only [Finset.sum_add_distrib]
    rw [Finset.sum_range_succ, Finset.sum_range_succ]
  have hmulML : ∀ q : ℚ≥0, (∑ k in Finset.range m, p.ML (k+1) * q)
      = (∑ k in Finset.range m, p.ML (k+1)) * q := fun q => by
    rw [Finset.sum_mul]
  have hmulDL : (∑ k in Finset.range m, p.DL (k+1) * cE)
      = (∑ k in Finset.range m, p.DL (k+1)) * cE := by
    rw [Finset.sum_mul]
  rw [hm]
  simp only [Finset.sum_add_distrib, hIL, hIG, mul_zero, Finset.sum_const_zero, add_zero]
  rw [h1, hchain, h2, hchainG, hmulML, hmulDL]
  rw [show (bRowL gm).N = 0 from rfl, show (bRowL gm).J = 0 from rfl,
    show (bRowL gm).C = gm.xCmove from rfl]
  rw [hC, hEm, hsplit, hcE]
  ring

/-- Start of the cut invariant at row 1: pairing Forward row 1 (built from
row 0) with Backward row 1 = `n` gives the Backward N special of row 0,
i.e. the Backward score. -/
theorem stepRow1 (gm : Profile) (n : Row) (x : ℕ) :
    (∑ k in Finset.range gm.M,
      ((fNext gm (row0 gm) x).ML (k+1) * n.ML (k+1)
        + (fNext gm (row0 gm) x).MG (k+1) * n.MG (k+1)
        + (fNext gm (row0 gm) x).IL (k+1) * n.IL (k+1)
        + (fNext gm (row0 gm) x).IG (k+1) * n.IG (k+1)))
      + ((fNext gm (row0 gm) x).N * n.N
        + ((row0 gm).J * gm.xJloop * n.J + (row0 gm).C * gm.xCloop * n.C))
    = bkN gm n x := by
  have hML : ∀ k, (fNext gm (row0 gm) x).ML (k+1)
      = gm.xNmove * gm.xB0 * gm.tLM k * gm.msc (k+1) x := fun k => by
    show fML gm (row0 gm) x (k+1) = _
    simp only [fML, row0]
    ring
  have hMG : ∀ k, (fNext gm (row0 gm) x).MG (k+1)
      = gm.xNmove * gm.xB1 * gm.tGM k * gm.msc (k+1) x := fun k => by
    show fMG gm (row0 gm) x (k+1) = _
    simp only [fMG, row0]
    ring
  have hIL : ∀ k, (fNext gm (row0 gm) x).IL (k+1) = 0 := fun k => by
    show fIL gm (row0 gm) x (k+1) = 0
    unfold fIL
    split
    · rfl
    · show gm.isc (k+1) x * ((row0 gm).ML (k+1) * gm.tMI (k+1)
          + (row0 gm).IL (k+1) * gm.tII (k+1)) = 0
      show gm.isc (k+1) x * ((0 : ℚ≥0) * gm.tMI (k+1) + (0 : ℚ≥0) * gm.tII (k+1)) = 0
      ring
  have hIG : ∀ k, (fNext gm (row0 gm) x).IG (k+1) = 0 := fun k => by
    show fIG gm (row0 gm) x (k+1) = 0
    unfold fIG
    split
    · rfl
    · show gm.isc (k+1) x * ((row0 gm).MG (k+1) * gm.tMI (k+1)
          + (row0 gm).IG (k+1) * gm.tII (k+1)) = 0
      show gm.isc (k+1) x * ((0 : ℚ≥0) * gm.tMI (k+1) + (0 : ℚ≥0) * gm.tII (k+1)) = 0
      ring
  rw [show (∑ k in Finset.range gm.M,
      ((fNext gm (row0 gm) x).ML (k+1) * n.ML (k+1)
        + (fNext gm (row0 gm) x).MG (k+1) * n.MG (k+1)
        + (fNext gm (row0 gm) x).IL (k+1) * n.IL (k+1)
        + (fNext gm (row0 gm) x).IG (k+1) * n.IG (k+1)))
      = ∑ k in Finset.range gm.M,
        (gm.xNmove * gm.xB0 * (n.ML (k+1) * gm.msc (k+1) x * gm.tLM k)
          + gm.xNmove * gm.xB1 * (n.MG (k+1) * gm.msc (k+1) x * gm.tGM k))
    from Finset.sum_congr rfl (fun k _ => by
      rw [hML k, hMG k, hIL k, hIG k]
      ring)]
  simp only [Finset.sum_add_distrib]
  rw [← Finset.mul_sum, ← Finset.mul_sum]
  rw [show (fNext gm (row0 gm) x).N = 1 * gm.xNloop from rfl,
    show (row0 gm).J = 0 from rfl, show (row0 gm).C = 0 from rfl]
  rw [bkN, bkB, gSum, lSum]
  ring
/-- The cut sum at row i (1 ≤ i ≤ L): the Forward/Backward pairing over the
states that emit residue x_i -- the four emitting main states of row i, the
N self-loop (`N(i)` Forward arrives by emitting x_i), and the JJ/CC
self-loops (`J(i-1)+J_LOOP` / `C(i-1)+C_LOOP` are the Forward weights of
being at J/C having just emitted x_i).  Every source-to-T path crosses this
cut exactly once, which is the content of `stepRow`. -/
def cutX (gm : Profile) (dsq : ℕ → ℕ) (L i : ℕ) : ℚ≥0 :=
  (∑ k in Finset.range gm.M,
    ((fRows gm dsq i).ML (k+1) * (bRows gm dsq L i).ML (k+1)
      + (fRows gm dsq i).MG (k+1) * (bRows gm dsq L i).MG (k+1)
      + (fRows gm dsq i).IL (k+1) * (bRows gm dsq L i).IL (k+1)
      + (fRows gm dsq i).IG (k+1) * (bRows gm dsq L i).IG (k+1)))
    + ((fRows gm dsq i).N * (bRows gm dsq L i).N
      + ((fRows gm dsq (i-1)).J * gm.xJloop * (bRows gm dsq L i).J
        + (fRows gm dsq (i-1)).C * gm.xCloop * (bRows gm dsq L i).C))

theorem bRows_self (gm : Profile) (dsq : ℕ → ℕ) (L : ℕ) :
    bRows gm dsq L L = bRowL gm := by
  unfold bRows
  rw [Nat.sub_self]
  rfl

theorem bRows_step (gm : Profile) (dsq : ℕ → ℕ) {L i : ℕ} (h : i < L) :
    bRows gm dsq L i = bPrev gm (bRows gm dsq L (i+1)) (dsq (i+1)) := by
  unfold bRows
  rw [show L - i = (L - (i+1)) + 1 from by omega]
  show bPrev gm (bRowsAux gm dsq L (L - (i+1))) (dsq (L - (L - (i+1)))) = _
  rw [show L - (L - (i+1)) = i + 1 from by omega]

theorem fRows_unfold (gm : Profile) (dsq : ℕ → ℕ) {i : ℕ} (h : 1 ≤ i) :
    fRows gm dsq i = fNext gm (fRows gm dsq (i-1)) (dsq i) := by
  calc fRows gm dsq i = fRows gm dsq ((i-1)+1) := by rw [show (i-1)+1 = i from by omega]
    _ = fNext gm (fRows gm dsq (i-1)) (dsq ((i-1)+1)) := rfl
    _ = fNext gm (fRows gm dsq (i-1)) (dsq i) := by rw [show (i-1)+1 = i from by omega]

theorem cut_step (gm : Profile) (dsq : ℕ → ℕ) {L i : ℕ}
    (hisc : ∀ k y, gm.isc k y = 1) (hM : 1 ≤ gm.M) (h1 : 1 ≤ i) (h2 : i < L) :
    cutX gm dsq L i = cutX gm dsq L (i+1) := by
  have hp := chainOK_fRows gm dsq i
  have hup := fRows_unfold gm dsq h1
  have hJ : (fRows gm dsq i).J
      = (fRows gm dsq (i-1)).J * gm.xJloop + (fRows gm dsq i).E * gm.xEloop := by
    rw [hup]
    exact fNext_J gm (fRows gm dsq (i-1)) (dsq i)
  have hC : (fRows gm dsq i).C
      = (fRows gm dsq (i-1)).C * gm.xCloop + (fRows gm dsq i).E * gm.xEmove := by
    rw [hup]
    exact fNext_C gm (fRows gm dsq (i-1)) (dsq i)
  have hL : (fRows gm dsq i).L
      = ((fRows gm dsq i).N * gm.xNmove + (fRows gm dsq i).J * gm.xJmove) * gm.xB0 := by
    rw [hup]
    exact fNext_L gm (fRows gm dsq (i-1)) (dsq i)
  have hG : (fRows gm dsq i).G
      = ((fRows gm dsq i).N * gm.xNmove + (fRows gm dsq i).J * gm.xJmove) * gm.xB1 := by
    rw [hup]
    exact fNext_G gm (fRows gm dsq (i-1)) (dsq i)
  have hmain := stepRow gm (fRows gm dsq (i-1)) (fRows gm dsq i) (bRows gm dsq L (i+1))
    (dsq (i+1)) hisc hM hp hJ hC hL hG
  unfold cutX
  rw [bRows_step gm dsq h2]
  rw [show i + 1 - 1 = i from by omega]
  exact hmain

theorem cut_end (gm : Profile) (dsq : ℕ → ℕ) {L : ℕ} (hM : 1 ≤ gm.M) (hL : 1 ≤ L) :
    cutX gm dsq L L = p7_ReferenceForward gm dsq L := by
  have hp := chainOK_fRows gm dsq L
  have hup := fRows_unfold gm dsq hL
  have hC : (fRows gm dsq L).C
      = (fRows gm dsq (L-1)).C * gm.xCloop + (fRows gm dsq L).E * gm.xEmove := by
    rw [hup]
    exact fNext_C gm (fRows gm dsq (L-1)) (dsq L)
  unfold cutX
  rw [bRows_self]
  exact stepRowL gm (fRows gm dsq (L-1)) (fRows gm dsq L) hM hp hC

theorem cut_start (gm : Profile) (dsq : ℕ → ℕ) {L : ℕ} (hL : 1 ≤ L) :
    cutX gm dsq L 1 = p7_ReferenceBackward gm dsq L := by
  have h2 : cutX gm dsq L 1 = bkN gm (bRows gm dsq L 1) (dsq 1) :=
    stepRow1 gm (bRows gm dsq L 1) (dsq 1)
  rw [h2]
  unfold p7_ReferenceBackward
  rw [bRows_step gm dsq (show (0:ℕ) < L from by omega)]
  norm_num
  rfl
/-- C1 (amended): for every profile with the length model set (M ≥ 1), every
digital sequence of length L ≥ 1, and zero insert emission scores (weight 1,
the invariant `p7_ReferenceBackward` hardwires -- reference_fwdback.c lines
378-380 pick up I values with no residue score, "skip residue score for I
(zero)"), the raw Forward score equals the raw Backward score exactly, under
exact log-sum-exp arithmetic. -/
theorem C1_forward_eq_backward (gm : Profile) (dsq : ℕ → ℕ) (L : ℕ)
    (hL : 1 ≤ L) (hM : 1 ≤ gm.M) (hisc : ∀ k y, gm.isc k y = 1) :
    p7_ReferenceForward gm dsq L = p7_ReferenceBackward gm dsq L := by
  have hinv : ∀ i, 1 ≤ i → i ≤ L → cutX gm dsq L 1 = cutX gm dsq L i := by
    intro i
    induction i with
    | zero => intro h1 _; omega
    | succ i ih =>
      intro _ h2
      by_cases hi : i = 0
      · subst hi; rfl
      · rw [ih (by omega) (by omega)]
        exact cut_step gm dsq hisc hM (by omega) (by omega)
  rw [← cut_end gm dsq hM hL, ← cut_start gm dsq hL]
  exact (hinv L hL le_rfl).symm

/-- Profile used for the C1 witness: every weight 1 (all log scores 0),
insert emission scores zero (weight 1). -/
def c1wGm : Profile where
  M := 2
  msc := fun _ _ => 1
  isc := fun _ _ => 1
  tMM := fun _ => 1
  tIM := fun _ => 1
  tDM := fun _ => 1
  tLM := fun _ => 1
  tGM := fun _ => 1
  tMI := fun _ => 1
  tII := fun _ => 1
  tMD := fun _ => 1
  tDD := fun _ => 1
  xNloop := 1
  xNmove := 1
  xJloop := 1
  xJmove := 1
  xCloop := 1
  xCmove := 1
  xEloop := 1
  xEmove := 1
  xB0 := 1
  xB1 := 1

/-- C1 witness: the amended equality instantiated at a concrete profile and
sequence, each hypothesis discharged. -/
theorem C1_forward_eq_backward_witness :
    (1 ≤ 2 ∧ 1 ≤ c1wGm.M ∧ ∀ k y, c1wGm.isc k y = 1)
      ∧ p7_ReferenceForward c1wGm (fun _ => 0) 2
        = p7_ReferenceBackward c1wGm (fun _ => 0) 2 :=
  ⟨⟨by decide, by decide, fun k y => rfl⟩,
    C1_forward_eq_backward c1wGm (fun _ => 0) 2 (by decide) (by decide) (fun k y => rfl)⟩
/-- Profile refuting C1 as stated: all weights 1 except insert emission
weight 2 (a nonzero insert log-odds score).  `p7_ReferenceForward` adds the
insert emission score (reference_fwdback.c line 144, `*rsc + ...`), while
`p7_ReferenceBackward` deliberately omits it (lines 378-380), so the two raw
scores differ whenever an insert state is reachable. -/
def c1cGm : Profile where
  M := 2
  msc := fun _ _ => 1
  isc := fun _ _ => 2
  tMM := fun _ => 1
  tIM := fun _ => 1
  tDM := fun _ => 1
  tLM := fun _ => 1
  tGM := fun _ => 1
  tMI := fun _ => 1
  tII := fun _ => 1
  tMD := fun _ => 1
  tDD := fun _ => 1
  xNloop := 1
  xNmove := 1
  xJloop := 1
  xJmove := 1
  xCloop := 1
  xCmove := 1
  xEloop := 1
  xEmove := 1
  xB0 := 1
  xB1 := 1

/-- C1 counterexample: for the profile `c1cGm` (nonzero insert emission
score) and the all-zeros sequence of length 3, the Forward weight is 243
but the Backward weight is 241: the scores are not equal, refuting the
claim as stated for arbitrary profiles. -/
theorem C1_counterexample :
    p7_ReferenceForward c1cGm (fun _ => 0) 3 = 243
      ∧ p7_ReferenceBackward c1cGm (fun _ => 0) 3 = 241
      ∧ p7_ReferenceForward c1cGm (fun _ => 0) 3
          ≠ p7_ReferenceBackward c1cGm (fun _ => 0) 3 := by
  refine ⟨?_, ?_, ?_⟩ <;>
    norm_num [p7_ReferenceForward, p7_ReferenceBackward, fRows, bRows, bRowsAux, fNext,
      bPrev, row0, bRowL, fML, fMG, fIL, fIG, fDL, fDG, fXE, fwN, fwJ, fwB, fwC,
      bML, bMG, bIL, bIG, bDL, bDG, bDLaux, bDGaux, bDLLaux, bDGLaux, bkN, bkJ, bkB, bkC,
      bkE, gSum, lSum, c1cGm, Finset.sum_range_succ, Finset.sum_range_zero]
/-! ### Viterbi vs Forward: cellwise domination -/

/-- In the nonnegative weight semiring, a max of dominated terms is bounded
by the sum of the dominating terms (max-plus vs sum-plus). -/
theorem max_le_add {a b c d : ℚ≥0} (h1 : a ≤ c) (h2 : b ≤ d) : max a b ≤ c + d :=
  max_le (h1.trans le_self_add) (h2.trans le_add_self)

/-- Pointwise domination of a Viterbi row by a Forward row. -/
def rowLE (p q : Row) : Prop :=
  (∀ k, p.ML k ≤ q.ML k) ∧ (∀ k, p.MG k ≤ q.MG k) ∧
  (∀ k, p.IL k ≤ q.IL k) ∧ (∀ k, p.IG k ≤ q.IG k) ∧
  (∀ k, p.DL k ≤ q.DL k) ∧ (∀ k, p.DG k ≤ q.DG k) ∧
  p.E ≤ q.E ∧ p.N ≤ q.N ∧ p.J ≤ q.J ∧ p.B ≤ q.B ∧ p.L ≤ q.L ∧ p.G ≤ q.G ∧ p.C ≤ q.C

theorem vML_le_fML (gm : Profile) (p q : Row) (x : ℕ) (h : rowLE p q) (k : ℕ) :
    vML gm p x k ≤ fML gm q x k := by
  obtain ⟨hML, hMG, hIL, hIG, hDL, hDG, hE, hN, hJ, hB, hL, hG, hC⟩ := h
  cases k with
  | zero => exact le_refl 0
  | succ k =>
    exact mul_le_mul_left'
      (max_le_add
        (max_le_add (mul_le_mul_right' (hML k) _) (mul_le_mul_right' (hIL k) _))
        (max_le_add (mul_le_mul_right' (hDL k) _) (mul_le_mul_right' hL _))) _

theorem vMG_le_fMG (gm : Profile) (p q : Row) (x : ℕ) (h : rowLE p q) (k : ℕ) :
    vMG gm p x k ≤ fMG gm q x k := by
  obtain ⟨hML, hMG, hIL, hIG, hDL, hDG, hE, hN, hJ, hB, hL, hG, hC⟩ := h
  cases k with
  | zero => exact le_refl 0
  | succ k =>
    exact mul_le_mul_left'
      (max_le_add
        (max_le_add (mul_le_mul_right' (hMG k) _) (mul_le_mul_right' (hIG k) _))
        (max_le_add (mul_le_mul_right' (hDG k) _) (mul_le_mul_right' hG _))) _

theorem vIL_le_fIL (gm : Profile) (p q : Row) (x : ℕ) (h : rowLE p q) (k : ℕ) :
    vIL gm p x k ≤ fIL gm q x k := by
  obtain ⟨hML, hMG, hIL, hIG, hDL, hDG, hE, hN, hJ, hB, hL, hG, hC⟩ := h
  unfold vIL fIL
  split
  · exact le_refl 0
  · exact mul_le_mul_left'
      (max_le_add (mul_le_mul_right' (hML k) _) (mul_le_mul_right' (hIL k) _)) _

theorem vIG_le_fIG (gm : Profile) (p q : Row) (x : ℕ) (h : rowLE p q) (k : ℕ) :
    vIG gm p x k ≤ fIG gm q x k := by
  obtain ⟨hML, hMG, hIL, hIG, hDL, hDG, hE, hN, hJ, hB, hL, hG, hC⟩ := h
  unfold vIG fIG
  split
  · exact le_refl 0
  · exact mul_le_mul_left'
      (max_le_add (mul_le_mul_right' (hMG k) _) (mul_le_mul_right' (hIG k) _)) _

theorem vDL_le_fDL (gm : Profile) (p q : Row) (x : ℕ) (h : rowLE p q) (k : ℕ) :
    vDL gm p x k ≤ fDL gm q x k := by
  induction k with
  | zero => exact le_refl 0
  | succ k ih =>
    exact max_le_add (mul_le_mul_right' (vML_le_fML gm p q x h k) _)
      (mul_le_mul_right' ih _)

theorem vDG_le_fDG (gm : Profile) (p q : Row) (x : ℕ) (h : rowLE p q) (k : ℕ) :
    vDG gm p x k ≤ fDG gm q x k := by
  induction k with
  | zero => exact le_refl 0
  | succ k ih =>
    exact max_le_add (mul_le_mul_right' (vMG_le_fMG gm p q x h k) _)
      (mul_le_mul_right' ih _)

theorem fML_le_fXE (gm : Profile) (q : Row) (x : ℕ) {k : ℕ} (hk : k < gm.M) :
    fML gm q x (k+1) ≤ fXE gm q x := by
  have h1 : fML gm q x (k+1) ≤ fML gm q x (k+1) + fDL gm q x (k+1) := le_self_add
  have h2 : (fun j => fML gm q x (j+1) + fDL gm q x (j+1)) k
      ≤ ∑ j in Finset.range gm.M, (fun j => fML gm q x (j+1) + fDL gm q x (j+1)) j :=
    @Finset.single_le_sum ℕ ℚ≥0 _ (fun j => fML gm q x (j+1) + fDL gm q x (j+1))
      (Finset.range gm.M) (fun j _ => zero_le _) k (Finset.mem_range.mpr hk)
  exact (h1.trans h2).trans le_self_add

theorem vXEacc_le_fXE (gm : Profile) (p q : Row) (x : ℕ) (h : rowLE p q) :
    ∀ m, m ≤ gm.M → vXEacc gm p x m ≤ fXE gm q x := by
  intro m
  induction m with
  | zero => intro _; exact zero_le _
  | succ m ih =>
    intro hm
    refine max_le ?_ (ih (by omega))
    exact (vML_le_fML gm p q x h (m+1)).trans (fML_le_fXE gm q x (by omega))

theorem vXE_le_fXE (gm : Profile) (p q : Row) (x : ℕ) (h : rowLE p q) :
    vXE gm p x ≤ fXE gm q x := by
  unfold vXE
  cases Nat.eq_zero_or_pos gm.M with
  | inl h0 =>
    rw [h0]
    show max (max (vMG gm p x 0) (vDG gm p x 0)) (max (vXEacc gm p x (0-1)) (vML gm p x 0))
      ≤ _
    show max (max 0 0) (max (vXEacc gm p x (0-1)) 0) ≤ _
    show max (max 0 0) (max 0 0) ≤ _
    simp
  | inr hM =>
    have hMG : fMG gm q x gm.M ≤ fXE gm q x :=
      le_self_add.trans le_add_self
    have hDG : fDG gm q x gm.M ≤ fXE gm q x :=
      le_add_self.trans le_add_self
    refine max_le (max_le ((vMG_le_fMG gm p q x h gm.M).trans hMG)
      ((vDG_le_fDG gm p q x h gm.M).trans hDG)) (max_le ?_ ?_)
    · exact (vXEacc_le_fXE gm p q x h (gm.M - 1) (by omega))
    · refine (vML_le_fML gm p q x h gm.M).trans ?_
      have : fML gm q x ((gm.M - 1) + 1) ≤ fXE gm q x := fML_le_fXE gm q x (by omega)
      rwa [show gm.M - 1 + 1 = gm.M from by omega] at this

theorem rowLE_next (gm : Profile) (p q : Row) (x : ℕ) (h : rowLE p q) :
    rowLE (vNext gm p x) (fNext gm q x) := by
  have hE := vXE_le_fXE gm p q x h
  have hcopy := h
  obtain ⟨hML, hMG, hIL, hIG, hDL, hDG, _, hN, hJ, hB, hL, hG, hC⟩ := hcopy
  have hJ2 : max (p.J * gm.xJloop) (vXE gm p x * gm.xEloop) ≤ fwJ gm q x :=
    max_le_add (mul_le_mul_right' hJ _) (mul_le_mul_right' hE _)
  have hN2 : p.N * gm.xNloop ≤ fwN gm q := mul_le_mul_right' hN _
  have hB2 : max ((p.N * gm.xNloop) * gm.xNmove)
      (max (p.J * gm.xJloop) (vXE gm p x * gm.xEloop) * gm.xJmove) ≤ fwB gm q x :=
    max_le_add (mul_le_mul_right' hN2 _) (mul_le_mul_right' hJ2 _)
  exact ⟨vML_le_fML gm p q x h, vMG_le_fMG gm p q x h, vIL_le_fIL gm p q x h,
    vIG_le_fIG gm p q x h, vDL_le_fDL gm p q x h, vDG_le_fDG gm p q x h,
    hE, hN2, hJ2, hB2, mul_le_mul_right' hB2 _, mul_le_mul_right' hB2 _,
    max_le_add (mul_le_mul_right' hC _) (mul_le_mul_right' hE _)⟩

theorem rowLE_rows (gm : Profile) (dsq : ℕ → ℕ) (i : ℕ) :
    rowLE (vRows gm dsq i) (fRows gm dsq i) := by
  induction i with
  | zero =>
    exact ⟨fun _ => le_refl 0, fun _ => le_refl 0, fun _ => le_refl 0, fun _ => le_refl 0,
      fun _ => le_refl 0, fun _ => le_refl 0, le_refl _, le_refl _, le_refl _, le_refl _,
      le_refl _, le_refl _, le_refl _⟩
  | succ i ih => exact rowLE_next gm (vRows gm dsq i) (fRows gm dsq i) (dsq (i+1)) ih

/-- C2: for every profile and target sequence, the raw Viterbi score of
`p7_ReferenceViterbi` is at most the raw Forward score of
`p7_ReferenceForward`: every Viterbi cell is a max over a subset of the
nonnegative terms the Forward cell sums (the Viterbi E update even omits the
DL→E terms, reference_viterbi.c lines 116-117, 142-144). -/
theorem C2_viterbi_le_forward (gm : Profile) (dsq : ℕ → ℕ) (L : ℕ) :
    p7_ReferenceViterbi gm dsq L ≤ p7_ReferenceForward gm dsq L :=
  mul_le_mul_right' (rowLE_rows gm dsq L).2.2.2.2.2.2.2.2.2.2.2.2 _


/-! ### C5: the omitted local D->E exit never changes the Viterbi score

`reference_viterbi.c` line 116: "E state update; local paths only, transition
prob 1.0 in implicit probability model, Dk->E can never be optimal" -- only
`mlv` enters `xE` for k < M (line 117).  The spec-side model below also allows
the local DL -> E exits with probability 1 (weight 1). -/

/-- Spec-side model (from the spec's words, to compare with `vXEacc`): the
running E maximum when local DL -> E exits (weight 1) are also accumulated. -/
def vXEDacc (gm : Profile) (p : Row) (x : ℕ) : ℕ → ℚ≥0
  | 0 => 0
  | k + 1 => max (max (vML gm p x (k+1)) (vDL gm p x (k+1))) (vXEDacc gm p x k)

/-- Spec-side model: the full-row Viterbi E when local DL -> E exits are
allowed, including at the unrolled k = M node. -/
def vXED (gm : Profile) (p : Row) (x : ℕ) : ℚ≥0 :=
  max (max (vMG gm p x gm.M) (vDG gm p x gm.M))
      (max (vXEDacc gm p x (gm.M - 1)) (max (vML gm p x gm.M) (vDL gm p x gm.M)))

/-- Spec-side model: one Viterbi row step with DL -> E exits allowed;
identical to `vNext` except that `vXED` replaces `vXE`. -/
def vNextD (gm : Profile) (p : Row) (x : ℕ) : Row where
  ML := vML gm p x
  MG := vMG gm p x
  IL := vIL gm p x
  IG := vIG gm p x
  DL := vDL gm p x
  DG := vDG gm p x
  E := vXED gm p x
  N := p.N * gm.xNloop
  J := max (p.J * gm.xJloop) (vXED gm p x * gm.xEloop)
  B := max ((p.N * gm.xNloop) * gm.xNmove)
           (max (p.J * gm.xJloop) (vXED gm p x * gm.xEloop) * gm.xJmove)
  L := max ((p.N * gm.xNloop) * gm.xNmove)
           (max (p.J * gm.xJloop) (vXED gm p x * gm.xEloop) * gm.xJmove) * gm.xB0
  G := max ((p.N * gm.xNloop) * gm.xNmove)
           (max (p.J * gm.xJloop) (vXED gm p x * gm.xEloop) * gm.xJmove) * gm.xB1
  C := max (p.C * gm.xCloop) (vXED gm p x * gm.xEmove)

/-- Spec-side model: Viterbi matrix rows with DL -> E exits allowed. -/
def vRowsD (gm : Profile) (dsq : ℕ → ℕ) : ℕ → Row
  | 0 => row0 gm
  | i + 1 => vNextD gm (vRowsD gm dsq i) (dsq (i+1))

/-- Spec-side model: the max-path score of the model in which local DL -> E
transitions (probability 1) are also allowed. -/
def viterbiDLE (gm : Profile) (dsq : ℕ → ℕ) (L : ℕ) : ℚ≥0 :=
  (vRowsD gm dsq L).C * gm.xCmove

/-- When the delete transitions are genuine probabilities (weight at most 1),
every within-row DL value is dominated by the running E maximum over the
previous ML values: the local D path to E merely discounts a local M cell
already accumulated into E. -/
theorem vDL_le_vXEacc (gm : Profile) (p : Row) (x : ℕ)
    (hMD : ∀ k, gm.tMD k ≤ 1) (hDD : ∀ k, gm.tDD k ≤ 1) :
    ∀ k, vDL gm p x (k+1) ≤ vXEacc gm p x k := by
  intro k
  induction k with
  | zero =>
    show max (vML gm p x 0 * gm.tMD 0) (vDL gm p x 0 * gm.tDD 0) ≤ 0
    simp [vML, vDL]
  | succ k ih =>
    have h1 : vML gm p x (k+1) * gm.tMD (k+1) ≤ vML gm p x (k+1) :=
      mul_le_of_le_one_right (zero_le _) (hMD _)
    have h2 : vDL gm p x (k+1) * gm.tDD (k+1) ≤ vXEacc gm p x k :=
      (mul_le_of_le_one_right (zero_le _) (hDD _)).trans ih
    show max (vML gm p x (k+1) * gm.tMD (k+1)) (vDL gm p x (k+1) * gm.tDD (k+1))
        ≤ max (vML gm p x (k+1)) (vXEacc gm p x k)
    exact max_le (h1.trans (le_max_left _ _)) (h2.trans (le_max_right _ _))

theorem vXEDacc_eq (gm : Profile) (p : Row) (x : ℕ)
    (hMD : ∀ k, gm.tMD k ≤ 1) (hDD : ∀ k, gm.tDD k ≤ 1) :
    ∀ k, vXEDacc gm p x k = vXEacc gm p x k := by
  intro k
  induction k with
  | zero => rfl
  | succ k ih =>
    show max (max (vML gm p x (k+1)) (vDL gm p x (k+1))) (vXEDacc gm p x k)
        = max (vML gm p x (k+1)) (vXEacc gm p x k)
    rw [ih, max_assoc, max_eq_right (vDL_le_vXEacc gm p x hMD hDD k)]

theorem vXED_eq (gm : Profile) (p : Row) (x : ℕ) (hM : 1 ≤ gm.M)
    (hMD : ∀ k, gm.tMD k ≤ 1) (hDD : ∀ k, gm.tDD k ≤ 1) :
    vXED gm p x = vXE gm p x := by
  obtain ⟨m, hm⟩ : ∃ m, gm.M = m + 1 := ⟨gm.M - 1, by omega⟩
  unfold vXED vXE
  rw [vXEDacc_eq gm p x hMD hDD, hm]
  simp only [Nat.add_sub_cancel]
  have h3 : max (vXEacc gm p x m) (max (vML gm p x (m+1)) (vDL gm p x (m+1)))
      = max (vXEacc gm p x m) (vML gm p x (m+1)) := by
    rw [← max_assoc]
    exact max_eq_left ((vDL_le_vXEacc gm p x hMD hDD m).trans (le_max_left _ _))
  rw [h3]

theorem vNextD_eq (gm : Profile) (p : Row) (x : ℕ) (hM : 1 ≤ gm.M)
    (hMD : ∀ k, gm.tMD k ≤ 1) (hDD : ∀ k, gm.tDD k ≤ 1) :
    vNextD gm p x = vNext gm p x := by
  unfold vNextD vNext
  rw [vXED_eq gm p x hM hMD hDD]

theorem vRowsD_eq (gm : Profile) (dsq : ℕ → ℕ) (hM : 1 ≤ gm.M)
    (hMD : ∀ k, gm.tMD k ≤ 1) (hDD : ∀ k, gm.tDD k ≤ 1) :
    ∀ i, vRowsD gm dsq i = vRows gm dsq i := by
  intro i
  induction i with
  | zero => rfl
  | succ i ih =>
    show vNextD gm (vRowsD gm dsq i) (dsq (i+1)) = vNext gm (vRows gm dsq i) (dsq (i+1))
    rw [ih, vNextD_eq gm _ _ hM hMD hDD]

/-- C5: for every profile with M ≥ 1 whose delete transitions are genuine
probabilities (weights tMD, tDD at most 1, i.e. log scores at most 0, as in
every configured HMMER profile) and every sequence, the Viterbi recurrence
that accumulates only ML(i,k) into E for k < M (reference_viterbi.c line 117)
computes exactly the max-path score of the model in which local DL -> E
transitions with probability 1 are also allowed: omitting the local
delete-to-E exit never changes the result. -/
theorem C5_local_DE_exit_suboptimal (gm : Profile) (dsq : ℕ → ℕ) (L : ℕ)
    (hM : 1 ≤ gm.M) (hMD : ∀ k, gm.tMD k ≤ 1) (hDD : ∀ k, gm.tDD k ≤ 1) :
    viterbiDLE gm dsq L = p7_ReferenceViterbi gm dsq L := by
  unfold viterbiDLE p7_ReferenceViterbi
  rw [vRowsD_eq gm dsq hM hMD hDD L]

/-- C5 witness: the equality instantiated at a concrete profile (all weights
1) and the all-zeros sequence of length 2, each hypothesis discharged. -/
theorem C5_local_DE_exit_suboptimal_witness :
    (1 ≤ c1wGm.M ∧ (∀ k, c1wGm.tMD k ≤ 1) ∧ (∀ k, c1wGm.tDD k ≤ 1))
      ∧ viterbiDLE c1wGm (fun _ => 0) 2 = p7_ReferenceViterbi c1wGm (fun _ => 0) 2 :=
  ⟨⟨by decide, fun k => le_refl 1, fun k => le_refl 1⟩,
    C5_local_DE_exit_suboptimal c1wGm (fun _ => 0) 2 (by decide)
      (fun k => le_refl 1) (fun k => le_refl 1)⟩


/-! ### ASC Forward: `p7_ReferenceASCForward`, src/src/dp_reference/reference_asc_fwdback.c lines 77-362

The anchor-set-constrained matrices are split into an UP sector and a DOWN
sector per domain.  We embed the algorithm in weight space exactly as the
unconstrained Forward: `-eslINFINITY` is weight 0, `p7_FLogsum` is `+`, score
addition is `*`.  A main-matrix supercell holds the six cell values, a
specials record the nine per-row special values (E N J B L G C JJ CC).
Anchors are a list of (i, k) pairs sorted by increasing i, as the C contract
requires.  Cells the C code leaves unwritten (and never reads) are given
weight 0 in the row functions. -/

/-- One main-matrix supercell: the six states of node k on a row. -/
structure Cells where
  ML : ℚ≥0
  MG : ℚ≥0
  IL : ℚ≥0
  IG : ℚ≥0
  DL : ℚ≥0
  DG : ℚ≥0

/-- The nine special values of a row (stored after column M+1 in the C
matrices). -/
structure Specials where
  E : ℚ≥0
  N : ℚ≥0
  J : ℚ≥0
  B : ℚ≥0
  L : ℚ≥0
  G : ℚ≥0
  C : ℚ≥0
  JJ : ℚ≥0
  CC : ℚ≥0

/-- The all-zero supercell (`-eslINFINITY` everywhere). -/
def zeroCells : Cells where
  ML := 0
  MG := 0
  IL := 0
  IG := 0
  DL := 0
  DG := 0

/-- Specials of the rows before the first anchor (lines 115-128):
N accumulates i N-loops (`xsc[N][LOOP] * i` in log space is weight
`xNloop ^ i`), B/L/G follow, E, J, C are unreachable. -/
def ascInitSpec (gm : Profile) (i : ℕ) : Specials where
  E := 0
  N := gm.xNloop ^ i
  J := 0
  B := gm.xNloop ^ i * gm.xNmove
  L := gm.xNloop ^ i * gm.xNmove * gm.xB0
  G := gm.xNloop ^ i * gm.xNmove * gm.xB1
  C := 0
  JJ := 0
  CC := 0

/-- ML cell of an UP-sector row (lines 173-176): as the unconstrained `fML`,
with the L entry taken from the previous row's specials `xp[p7R_L]`. -/
def uML (gm : Profile) (p : ℕ → Cells) (xpL : ℚ≥0) (x : ℕ) : ℕ → ℚ≥0
  | 0 => 0
  | k + 1 =>
    gm.msc (k+1) x *
      (((p k).ML * gm.tMM k + (p k).IL * gm.tIM k) +
       ((p k).DL * gm.tDM k + xpL * gm.tLM k))

/-- MG cell of an UP-sector row (lines 177-180). -/
def uMG (gm : Profile) (p : ℕ → Cells) (xpG : ℚ≥0) (x : ℕ) : ℕ → ℚ≥0
  | 0 => 0
  | k + 1 =>
    gm.msc (k+1) x *
      (((p k).MG * gm.tMM k + (p k).IG * gm.tIM k) +
       ((p k).DG * gm.tDM k + xpG * gm.tGM k))

/-- IL cell of an UP-sector row (line 186); the loop never reaches k = M, so
there is no unrolled-M exception. -/
def uIL (gm : Profile) (p : ℕ → Cells) (x : ℕ) (k : ℕ) : ℚ≥0 :=
  if k = 0 then 0
  else gm.isc k x * ((p k).ML * gm.tMI k + (p k).IL * gm.tII k)

/-- IG cell of an UP-sector row (line 187). -/
def uIG (gm : Profile) (p : ℕ → Cells) (x : ℕ) (k : ℕ) : ℚ≥0 :=
  if k = 0 then 0
  else gm.isc k x * ((p k).MG * gm.tMI k + (p k).IG * gm.tII k)

/-- DL accumulator `dlv` of an UP-sector row (lines 169, 190, 192). -/
def uDL (gm : Profile) (p : ℕ → Cells) (xpL : ℚ≥0) (x : ℕ) : ℕ → ℚ≥0
  | 0 => 0
  | k + 1 => uML gm p xpL x k * gm.tMD k + uDL gm p xpL x k * gm.tDD k

/-- DG accumulator `dgv` of an UP-sector row (lines 169, 191, 193). -/
def uDG (gm : Profile) (p : ℕ → Cells) (xpG : ℚ≥0) (x : ℕ) : ℕ → ℚ≥0
  | 0 => 0
  | k + 1 => uMG gm p xpG x k * gm.tMD k + uDG gm p xpG x k * gm.tDD k

/-- One UP-sector row (lines 161-194), from the previous UP row `p`, the
previous row's specials `xp` (read from the DOWN matrix), and residue `x`.
Only columns k < anch.k are computed and read by the C code. -/
def upNext (gm : Profile) (p : ℕ → Cells) (xp : Specials) (x : ℕ) : ℕ → Cells :=
  fun k =>
    { ML := uML gm p xp.L x k
      MG := uMG gm p xp.G x k
      IL := uIL gm p x k
      IG := uIG gm p x k
      DL := uDL gm p xp.L x k
      DG := uDG gm p xp.G x k }

/-- The UP-sector rows of a domain: offset j stands for absolute row
prevI + j.  Row prevI (offset 0) is the -inf-initialized previous row
(lines 151-153); each later row is an `upNext` step reading the specials of
the row above (line 165). -/
def upRowsAux (gm : Profile) (dsq : ℕ → ℕ) (xs : ℕ → Specials) (prevI : ℕ) :
    ℕ → (ℕ → Cells)
  | 0 => fun _ => zeroCells
  | j + 1 => upNext gm (upRowsAux gm dsq xs prevI j) (xs (prevI + j)) (dsq (prevI + j + 1))

/-- The supercell diagonal from the anchor, `dpp` at line 203: cell
(anch.i - 1, anch.k - 1) of the UP sector (the -inf init row when the UP
sector has no rows). -/
def ascUpDiag (gm : Profile) (dsq : ℕ → ℕ) (xs : ℕ → Specials)
    (prevI i0 kA : ℕ) : Cells :=
  upRowsAux gm dsq xs prevI (i0 - 1 - prevI) (kA - 1)

/-- ML of the anchor cell (lines 237-240): one final UP-style calculation
from the diagonal supercell, with transitions indexed anch.k - 1. -/
def dTopML (gm : Profile) (diag : Cells) (xp : Specials) (x kA : ℕ) : ℚ≥0 :=
  gm.msc kA x *
    ((diag.ML * gm.tMM (kA-1) + diag.IL * gm.tIM (kA-1)) +
     (diag.DL * gm.tDM (kA-1) + xp.L * gm.tLM (kA-1)))

/-- MG of the anchor cell (lines 241-244). -/
def dTopMG (gm : Profile) (diag : Cells) (xp : Specials) (x kA : ℕ) : ℚ≥0 :=
  gm.msc kA x *
    ((diag.MG * gm.tMM (kA-1) + diag.IG * gm.tIM (kA-1)) +
     (diag.DG * gm.tDM (kA-1) + xp.G * gm.tGM (kA-1)))

/-- DL values along the top DOWN row (lines 251, 271, 280): offset j stands
for column anch.k + 1 + j; the column anch.k + 1 value is mlv * tMD(anch.k),
and each further column multiplies by tDD. -/
def dTopDLaux (gm : Profile) (mlv : ℚ≥0) (kA : ℕ) : ℕ → ℚ≥0
  | 0 => mlv * gm.tMD kA
  | j + 1 => dTopDLaux gm mlv kA j * gm.tDD (kA + 1 + j)

/-- DG values along the top DOWN row (lines 252, 272, 281). -/
def dTopDGaux (gm : Profile) (mgv : ℚ≥0) (kA : ℕ) : ℕ → ℚ≥0
  | 0 => mgv * gm.tMD kA
  | j + 1 => dTopDGaux gm mgv kA j * gm.tDD (kA + 1 + j)

/-- The top row of a DOWN sector (row anch.i): the anchor cell at column
anch.k, delete-path cells to its right (lines 265-282), zero weight
(-inf / unwritten-unread) elsewhere. -/
def dTopRow (gm : Profile) (diag : Cells) (xp : Specials) (x kA : ℕ) : ℕ → Cells :=
  fun k =>
    if k = kA then
      { ML := dTopML gm diag xp x kA, MG := dTopMG gm diag xp x kA
        IL := 0, IG := 0, DL := 0, DG := 0 }
    else if kA < k then
      { ML := 0, MG := 0, IL := 0, IG := 0
        DL := dTopDLaux gm (dTopML gm diag xp x kA) kA (k - kA - 1)
        DG := dTopDGaux gm (dTopMG gm diag xp x kA) kA (k - kA - 1) }
    else zeroCells

/-- E accumulated on the top DOWN row (lines 260, 276-278): exits from the
anchor cell (both ML and MG when anch.k = M), plus the DL delete path at each
k > anch.k, plus the glocal DL/DG exits at k = M. -/
def dTopXE (gm : Profile) (diag : Cells) (xp : Specials) (x kA : ℕ) : ℚ≥0 :=
  if kA = gm.M then dTopML gm diag xp x kA + dTopMG gm diag xp x kA
  else
    dTopML gm diag xp x kA
      + (∑ j in Finset.range (gm.M - kA), dTopDLaux gm (dTopML gm diag xp x kA) kA j)
      + dTopDGaux gm (dTopMG gm diag xp x kA) kA (gm.M - kA - 1)

/-- Specials of the top DOWN row (lines 285-294).  N and (for a non-last
domain) C are unreachable; as in the C code, the E -> J and E -> C
transitions BOTH use `gm->xsc[p7P_E][p7P_LOOP]` (lines 288 and 292) -- an
exact transcription; the unconstrained Forward uses E_MOVE for E -> C. -/
def dTopSpec (gm : Profile) (xE : ℚ≥0) (last : Bool) : Specials where
  E := xE
  N := 0
  J := if last then 0 else xE * gm.xEloop
  B := (if last then 0 else xE * gm.xEloop) * gm.xJmove
  L := (if last then 0 else xE * gm.xEloop) * gm.xJmove * gm.xB0
  G := (if last then 0 else xE * gm.xEloop) * gm.xJmove * gm.xB1
  C := if last then xE * gm.xEloop else 0
  JJ := 0
  CC := 0

/-- ML cell of a non-top DOWN row (lines 310-312): no L entry (the DOWN
sector cannot enter the model); columns below anch.k are never written. -/
def dML (gm : Profile) (p : ℕ → Cells) (x kA : ℕ) : ℕ → ℚ≥0
  | 0 => 0
  | k + 1 =>
    if k + 1 < kA then 0 else
    gm.msc (k+1) x *
      (((p k).ML * gm.tMM k + (p k).IL * gm.tIM k) + (p k).DL * gm.tDM k)

/-- MG cell of a non-top DOWN row (lines 313-315). -/
def dMG (gm : Profile) (p : ℕ → Cells) (x kA : ℕ) : ℕ → ℚ≥0
  | 0 => 0
  | k + 1 =>
    if k + 1 < kA then 0 else
    gm.msc (k+1) x *
      (((p k).MG * gm.tMM k + (p k).IG * gm.tIM k) + (p k).DG * gm.tDM k)

/-- IL cell of a non-top DOWN row (line 321); computed for every
k = anch.k..M, including k = M (the profile's tMI at M is -inf in real
profiles, but the code computes the cell). -/
def dIL (gm : Profile) (p : ℕ → Cells) (x kA : ℕ) (k : ℕ) : ℚ≥0 :=
  if k = 0 ∨ k < kA then 0
  else gm.isc k x * ((p k).ML * gm.tMI k + (p k).IL * gm.tII k)

/-- IG cell of a non-top DOWN row (line 322). -/
def dIG (gm : Profile) (p : ℕ → Cells) (x kA : ℕ) (k : ℕ) : ℚ≥0 :=
  if k = 0 ∨ k < kA then 0
  else gm.isc k x * ((p k).MG * gm.tMI k + (p k).IG * gm.tII k)

/-- DL accumulator of a non-top DOWN row (lines 306, 329, 331): starts -inf
at the anchor column. -/
def dDL (gm : Profile) (p : ℕ → Cells) (x kA : ℕ) : ℕ → ℚ≥0
  | 0 => 0
  | k + 1 =>
    if k + 1 ≤ kA then 0 else
    dML gm p x kA k * gm.tMD k + dDL gm p x kA k * gm.tDD k

/-- DG accumulator of a non-top DOWN row (lines 306, 330, 332). -/
def dDG (gm : Profile) (p : ℕ → Cells) (x kA : ℕ) : ℕ → ℚ≥0
  | 0 => 0
  | k + 1 =>
    if k + 1 ≤ kA then 0 else
    dMG gm p x kA k * gm.tMD k + dDG gm p x kA k * gm.tDD k

/-- One non-top DOWN row (lines 298-333). -/
def dNextRow (gm : Profile) (p : ℕ → Cells) (x kA : ℕ) : ℕ → Cells :=
  fun k =>
    { ML := dML gm p x kA k
      MG := dMG gm p x kA k
      IL := dIL gm p x kA k
      IG := dIG gm p x kA k
      DL := dDL gm p x kA k
      DG := dDG gm p x kA k }

/-- E accumulated on a non-top DOWN row (lines 325-327): local ML + DL exits
at every k, glocal MG + DG exits at k = M; terms below the anchor column
vanish, so the range-M sum equals the C loop from anch.k. -/
def dXE (gm : Profile) (p : ℕ → Cells) (x kA : ℕ) : ℚ≥0 :=
  (∑ k in Finset.range gm.M, (dML gm p x kA (k+1) + dDL gm p x kA (k+1)))
    + (dMG gm p x kA gm.M + dDG gm p x kA gm.M)

/-- Specials of a non-top DOWN row (lines 341-351).  As in the C code, both
the E -> J transition (line 345) and the E -> C transition (line 349) use
`gm->xsc[p7P_E][p7P_LOOP]` -- exact transcription. -/
def dSpec (gm : Profile) (xp : Specials) (xE : ℚ≥0) (last : Bool) : Specials where
  E := xE
  N := 0
  J := if last then 0 else xp.J * gm.xJloop + xE * gm.xEloop
  B := (if last then 0 else xp.J * gm.xJloop + xE * gm.xEloop) * gm.xJmove
  L := (if last then 0 else xp.J * gm.xJloop + xE * gm.xEloop) * gm.xJmove * gm.xB0
  G := (if last then 0 else xp.J * gm.xJloop + xE * gm.xEloop) * gm.xJmove * gm.xB1
  C := if last then xp.C * gm.xCloop + xE * gm.xEloop else 0
  JJ := 0
  CC := 0

/-- The cell rows of a DOWN sector: offset j stands for absolute row
anch.i + j; offset 0 is the top row. -/
def downRowsAux (gm : Profile) (dsq : ℕ → ℕ) (topRow : ℕ → Cells) (i0 kA : ℕ) :
    ℕ → (ℕ → Cells)
  | 0 => topRow
  | j + 1 => dNextRow gm (downRowsAux gm dsq topRow i0 kA j) (dsq (i0 + j + 1)) kA

/-- The specials of a DOWN sector's rows: offset j stands for absolute row
anch.i + j. -/
def downSpecAux (gm : Profile) (dsq : ℕ → ℕ) (topRow : ℕ → Cells)
    (topSpec : Specials) (i0 kA : ℕ) (last : Bool) : ℕ → Specials
  | 0 => topSpec
  | j + 1 =>
    dSpec gm (downSpecAux gm dsq topRow topSpec i0 kA last j)
      (dXE gm (downRowsAux gm dsq topRow i0 kA j) (dsq (i0 + j + 1)) kA) last

/-- The DOWN-sector specials of one domain, as a function of row offset from
anch.i: assembles the anchor-cell top row and the remaining rows. -/
def ascDomainSpec (gm : Profile) (dsq : ℕ → ℕ) (xs : ℕ → Specials)
    (prevI i0 kA : ℕ) (last : Bool) : ℕ → Specials :=
  downSpecAux gm dsq
    (dTopRow gm (ascUpDiag gm dsq xs prevI i0 kA) (xs (i0 - 1)) (dsq i0) kA)
    (dTopSpec gm (dTopXE gm (ascUpDiag gm dsq xs prevI i0 kA) (xs (i0 - 1)) (dsq i0) kA) last)
    i0 kA last

/-- The domain loop of ASC Forward (lines 131-354): processes the anchor
list in order, overwriting the specials of rows anch[d].i .. iend - 1 with
the DOWN-sector specials of domain d (iend = next anchor's i, or L + 1 for
the last domain). -/
def ascFwdDomains (gm : Profile) (dsq : ℕ → ℕ) (L : ℕ) :
    List (ℕ × ℕ) → ℕ → (ℕ → Specials) → (ℕ → Specials)
  | [], _, xs => xs
  | (i0, kA) :: rest, prevI, xs =>
    ascFwdDomains gm dsq L rest i0 (fun i =>
      if i0 ≤ i ∧ i < (match rest with | [] => L + 1 | (i1, _) :: _ => i1)
      then ascDomainSpec gm dsq xs prevI i0 kA rest.isEmpty (i - i0)
      else xs i)

/-- Raw ASC Forward score (line 360): the C special of the last row, times
the C -> T move. -/
def p7_ReferenceASCForward (gm : Profile) (dsq : ℕ → ℕ) (L : ℕ)
    (anch : List (ℕ × ℕ)) : ℚ≥0 :=
  (ascFwdDomains gm dsq L anch 0 (ascInitSpec gm) L).C * gm.xCmove


/-! ### ASC Backward: `p7_ReferenceASCBackward`, src/src/dp_reference/reference_asc_fwdback.c lines 412-619

Rows are walked L down to 0; a cell holds the weight of all path suffixes
from that state to T.  Insert pick-ups add no emission score (line 490: "if
insert scores were non-zero, we would add rsn[p7R_I] here"), exactly as in
the unconstrained Backward. -/

/-- Specials of the rows from the last anchor to L (lines 446-459):
C(i) = cMove * cLoop^(L-i), E(i) = C(i) * eMove, everything else
unreachable. -/
def bkdInitSpec (gm : Profile) (L i : ℕ) : Specials where
  E := gm.xCmove * gm.xCloop ^ (L - i) * gm.xEmove
  N := 0
  J := 0
  B := 0
  L := 0
  G := 0
  C := gm.xCmove * gm.xCloop ^ (L - i)
  JJ := 0
  CC := 0

/-- Pick-up of a next-row M value with its emission (lines 510-511,
587-588): `dpn[p7R_MG] + *rsn`. -/
def pickMG (gm : Profile) (n : ℕ → Cells) (x' k : ℕ) : ℚ≥0 :=
  (n k).MG * gm.msc k x'

/-- Pick-up of a next-row ML value with its emission. -/
def pickML (gm : Profile) (n : ℕ → Cells) (x' k : ℕ) : ℚ≥0 :=
  (n k).ML * gm.msc k x'

/-- DG of a DOWN backward row at column k = M - j (line 503): DG(i,M) = xE;
DG(i,k) = MG(i+1,k+1)*tDM(k) + DG(i,k+1)*tDD(k). -/
def abDGaux (gm : Profile) (n : ℕ → Cells) (x' : ℕ) (xE : ℚ≥0) : ℕ → ℚ≥0
  | 0 => xE
  | j + 1 =>
    pickMG gm n x' (gm.M - j) * gm.tDM (gm.M - (j+1))
      + abDGaux gm n x' xE j * gm.tDD (gm.M - (j+1))

/-- DL of a DOWN backward row at column k = M - j (line 504): the local
D -> E exit contributes xE at every k. -/
def abDLaux (gm : Profile) (n : ℕ → Cells) (x' : ℕ) (xE : ℚ≥0) : ℕ → ℚ≥0
  | 0 => xE
  | j + 1 =>
    xE + (pickML gm n x' (gm.M - j) * gm.tDM (gm.M - (j+1))
      + abDLaux gm n x' xE j * gm.tDD (gm.M - (j+1)))

/-- MG of a DOWN backward row at column k = M - j (lines 494-497):
MG(i,M) = xE (the only transition), else
MG(i,k) = MG(i+1,k+1)*tMM(k) + IG(i+1,k)*tMI(k) + DG(i,k+1)*tMD(k). -/
def abMGaux (gm : Profile) (n : ℕ → Cells) (x' : ℕ) (xE : ℚ≥0) : ℕ → ℚ≥0
  | 0 => xE
  | j + 1 =>
    pickMG gm n x' (gm.M - j) * gm.tMM (gm.M - (j+1))
      + (n (gm.M - (j+1))).IG * gm.tMI (gm.M - (j+1))
      + abDGaux gm n x' xE j * gm.tMD (gm.M - (j+1))

/-- ML of a DOWN backward row at column k = M - j (lines 498-501): the local
M -> E exit contributes xE at every k; at k = M the next-row IL pick-up is
still read (mln and dln are -inf there). -/
def abMLaux (gm : Profile) (n : ℕ → Cells) (x' : ℕ) (xE : ℚ≥0) : ℕ → ℚ≥0
  | 0 => (n gm.M).IL * gm.tMI gm.M + xE
  | j + 1 =>
    pickML gm n x' (gm.M - j) * gm.tMM (gm.M - (j+1))
      + (n (gm.M - (j+1))).IL * gm.tMI (gm.M - (j+1))
      + (abDLaux gm n x' xE j * gm.tMD (gm.M - (j+1)) + xE)

/-- IG of a backward row at column k (line 506):
IG(i,k) = MG(i+1,k+1)*tIM(k) + IG(i+1,k)*tII(k); the next-row function is
zero past the written columns, so the k = M case (mgn = -inf) is the same
formula. -/
def abIG (gm : Profile) (n : ℕ → Cells) (x' k : ℕ) : ℚ≥0 :=
  pickMG gm n x' (k+1) * gm.tIM k + (n k).IG * gm.tII k

/-- IL of a backward row at column k (line 507). -/
def abIL (gm : Profile) (n : ℕ → Cells) (x' k : ℕ) : ℚ≥0 :=
  pickML gm n x' (k+1) * gm.tIM k + (n k).IL * gm.tII k

/-- One DOWN backward row (lines 473-521), columns anch.k..M; `n` is the
next row (the zero function for the sector's bottom row, where no pick-ups
happen), `x'` the next row's residue, xE this row's stored E special. -/
def abDownRow (gm : Profile) (n : ℕ → Cells) (x' : ℕ) (xE : ℚ≥0) (kA : ℕ) :
    ℕ → Cells :=
  fun k =>
    if k < kA ∨ gm.M < k then zeroCells
    else
      { ML := abMLaux gm n x' xE (gm.M - k)
        MG := abMGaux gm n x' xE (gm.M - k)
        IL := abIL gm n x' k
        IG := abIG gm n x' k
        DL := abDLaux gm n x' xE (gm.M - k)
        DG := abDGaux gm n x' xE (gm.M - k) }

/-- The DOWN backward rows of a domain: offset t stands for absolute row
iendD - t (iendD = L for the last domain, else next anchor's i minus 1);
each row reads its own E special from `xs`. -/
def abDownRows (gm : Profile) (dsq : ℕ → ℕ) (xs : ℕ → Specials)
    (iendD kA : ℕ) : ℕ → (ℕ → Cells)
  | 0 => abDownRow gm (fun _ => zeroCells) 0 ((xs iendD).E) kA
  | t + 1 =>
    abDownRow gm (abDownRows gm dsq xs iendD kA t) (dsq (iendD - t))
      ((xs (iendD - t - 1)).E) kA

/-- DG of an UP backward row at column k = kA - 1 - j (line 580): no D -> E
exits in the UP sector; at the top column kA - 1 the same-row DG(kA) term is
-inf, leaving only the next-row MG pick-up at column kA. -/
def auDGaux (gm : Profile) (n : ℕ → Cells) (x' kA : ℕ) : ℕ → ℚ≥0
  | 0 => pickMG gm n x' kA * gm.tDM (kA - 1)
  | j + 1 =>
    pickMG gm n x' (kA - 1 - j) * gm.tDM (kA - (j+2))
      + auDGaux gm n x' kA j * gm.tDD (kA - (j+2))

/-- DL of an UP backward row at column k = kA - 1 - j (line 581). -/
def auDLaux (gm : Profile) (n : ℕ → Cells) (x' kA : ℕ) : ℕ → ℚ≥0
  | 0 => pickML gm n x' kA * gm.tDM (kA - 1)
  | j + 1 =>
    pickML gm n x' (kA - 1 - j) * gm.tDM (kA - (j+2))
      + auDLaux gm n x' kA j * gm.tDD (kA - (j+2))

/-- MG of an UP backward row at column k = kA - 1 - j (lines 568-570): no E
contributions in the UP sector. -/
def auMGaux (gm : Profile) (n : ℕ → Cells) (x' kA : ℕ) : ℕ → ℚ≥0
  | 0 => pickMG gm n x' kA * gm.tMM (kA - 1) + (n (kA - 1)).IG * gm.tMI (kA - 1)
  | j + 1 =>
    pickMG gm n x' (kA - 1 - j) * gm.tMM (kA - (j+2))
      + (n (kA - (j+2))).IG * gm.tMI (kA - (j+2))
      + auDGaux gm n x' kA j * gm.tMD (kA - (j+2))

/-- ML of an UP backward row at column k = kA - 1 - j (lines 571-573). -/
def auMLaux (gm : Profile) (n : ℕ → Cells) (x' kA : ℕ) : ℕ → ℚ≥0
  | 0 => pickML gm n x' kA * gm.tMM (kA - 1) + (n (kA - 1)).IL * gm.tMI (kA - 1)
  | j + 1 =>
    pickML gm n x' (kA - 1 - j) * gm.tMM (kA - (j+2))
      + (n (kA - (j+2))).IL * gm.tMI (kA - (j+2))
      + auDLaux gm n x' kA j * gm.tMD (kA - (j+2))

/-- One UP backward row (lines 560-598), columns 1..anch.k - 1.  For the
first UP row (just above the anchor) the next-row function is the
anchor-cell singleton, so the first pick-up at column kA carries the anchor
cell over (line 557); for lower rows the UP row function is zero at column
kA, exactly as mgn/mln start at -inf there. -/
def abUpRow (gm : Profile) (n : ℕ → Cells) (x' kA : ℕ) : ℕ → Cells :=
  fun k =>
    if k = 0 ∨ kA ≤ k then zeroCells
    else
      { ML := auMLaux gm n x' kA (kA - 1 - k)
        MG := auMGaux gm n x' kA (kA - 1 - k)
        IL := abIL gm n x' k
        IG := abIG gm n x' k
        DL := auDLaux gm n x' kA (kA - 1 - k)
        DG := auDGaux gm n x' kA (kA - 1 - k) }

/-- The UP backward rows of a domain: offset u stands for absolute row
anch.i - 1 - u; aML/aMG are the anchor cell's ML/MG values from the DOWN
pass. -/
def abUpRows (gm : Profile) (dsq : ℕ → ℕ) (i0 kA : ℕ) (aML aMG : ℚ≥0) :
    ℕ → (ℕ → Cells)
  | 0 =>
    abUpRow gm
      (fun k => if k = kA then
          { ML := aML, MG := aMG, IL := 0, IG := 0, DL := 0, DG := 0 }
        else zeroCells)
      (dsq i0) kA
  | u + 1 => abUpRow gm (abUpRows gm dsq i0 kA aML aMG u) (dsq (i0 - 1 - u)) kA

/-- xG accumulated while computing an UP row (line 575):
sum over k = 1..kA-1 of MG(i,k) * msc(k, x_i) * tGM(k-1). -/
def abUpXG (gm : Profile) (r : ℕ → Cells) (x kA : ℕ) : ℚ≥0 :=
  ∑ j in Finset.range (kA - 1), (r (j+1)).MG * gm.msc (j+1) x * gm.tGM j

/-- xL accumulated while computing an UP row (line 576). -/
def abUpXL (gm : Profile) (r : ℕ → Cells) (x kA : ℕ) : ℚ≥0 :=
  ∑ j in Finset.range (kA - 1), (r (j+1)).ML * gm.msc (j+1) x * gm.tLM j

/-- The xG value used for the specials of row anch.i - 1 - u: for u = 0 the
anchor-cell exit (lines 526-528), afterwards the accumulation of the row
above (line 575). -/
def abUpXGat (gm : Profile) (dsq : ℕ → ℕ) (i0 kA : ℕ) (aML aMG : ℚ≥0) :
    ℕ → ℚ≥0
  | 0 => aMG * gm.msc kA (dsq i0) * gm.tGM (kA - 1)
  | u + 1 => abUpXG gm (abUpRows gm dsq i0 kA aML aMG u) (dsq (i0 - 1 - u)) kA

/-- The xL value used for the specials of row anch.i - 1 - u (lines 527,
529, 576). -/
def abUpXLat (gm : Profile) (dsq : ℕ → ℕ) (i0 kA : ℕ) (aML aMG : ℚ≥0) :
    ℕ → ℚ≥0
  | 0 => aML * gm.msc kA (dsq i0) * gm.tLM (kA - 1)
  | u + 1 => abUpXL gm (abUpRows gm dsq i0 kA aML aMG u) (dsq (i0 - 1 - u)) kA

/-- The B special of row anch.i - 1 - u (lines 543, 610):
B = xG * b1 + xL * b0. -/
def abUpB (gm : Profile) (dsq : ℕ → ℕ) (i0 kA : ℕ) (aML aMG : ℚ≥0) (u : ℕ) :
    ℚ≥0 :=
  abUpXGat gm dsq i0 kA aML aMG u * gm.xB1 + abUpXLat gm dsq i0 kA aML aMG u * gm.xB0

/-- The J special of row anch.i - 1 - u (lines 544, 611): -inf for domain 0,
else xJ(row below... above) * jLoop + B * jMove, accumulated downward from
-inf at the anchor row. -/
def abUpXJ (gm : Profile) (dsq : ℕ → ℕ) (i0 kA : ℕ) (aML aMG : ℚ≥0)
    (d0 : Bool) : ℕ → ℚ≥0
  | 0 => if d0 then 0 else abUpB gm dsq i0 kA aML aMG 0 * gm.xJmove
  | u + 1 =>
    if d0 then 0
    else abUpXJ gm dsq i0 kA aML aMG d0 u * gm.xJloop
      + abUpB gm dsq i0 kA aML aMG (u+1) * gm.xJmove

/-- The N special of row anch.i - 1 - u (lines 545, 612): -inf except for
domain 0. -/
def abUpXN (gm : Profile) (dsq : ℕ → ℕ) (i0 kA : ℕ) (aML aMG : ℚ≥0)
    (d0 : Bool) : ℕ → ℚ≥0
  | 0 => if d0 then abUpB gm dsq i0 kA aML aMG 0 * gm.xNmove else 0
  | u + 1 =>
    if d0 then abUpXN gm dsq i0 kA aML aMG d0 u * gm.xNloop
      + abUpB gm dsq i0 kA aML aMG (u+1) * gm.xNmove
    else 0

/-- Specials written for row anch.i - 1 - u during the UP pass (lines
537-546 and the final write 604-613): C is unreachable, E = J * eLoop. -/
def abUpSpecAt (gm : Profile) (dsq : ℕ → ℕ) (i0 kA : ℕ) (aML aMG : ℚ≥0)
    (d0 : Bool) (u : ℕ) : Specials where
  E := abUpXJ gm dsq i0 kA aML aMG d0 u * gm.xEloop
  N := abUpXN gm dsq i0 kA aML aMG d0 u
  J := abUpXJ gm dsq i0 kA aML aMG d0 u
  B := abUpB gm dsq i0 kA aML aMG u
  L := abUpXLat gm dsq i0 kA aML aMG u
  G := abUpXGat gm dsq i0 kA aML aMG u
  C := 0
  JJ := 0
  CC := 0

/-- The domain loop of ASC Backward (lines 462-615), processing the anchors
last to first (the list argument is the reversed anchor list); the second
argument is the current domain's DOWN-sector end row iendD (L for the last
domain, next anchor's i minus 1 otherwise).  Each domain overwrites the
specials of rows iendU - 1 .. anch.i - 1 from its UP pass. -/
def ascBwdDomains (gm : Profile) (dsq : ℕ → ℕ) (L : ℕ) :
    List (ℕ × ℕ) → ℕ → (ℕ → Specials) → (ℕ → Specials)
  | [], _, xs => xs
  | (i0, kA) :: rest, iendD, xs =>
    ascBwdDomains gm dsq L rest (i0 - 1) (fun i =>
      if (match rest with | [] => 1 | (ip, _) :: _ => ip + 1) - 1 ≤ i ∧ i ≤ i0 - 1
      then
        abUpSpecAt gm dsq i0 kA
          ((abDownRows gm dsq xs iendD kA (iendD - i0) kA).ML)
          ((abDownRows gm dsq xs iendD kA (iendD - i0) kA).MG)
          rest.isEmpty (i0 - 1 - i)
      else xs i)

/-- Raw ASC Backward score (line 617): the final xN, i.e. the N special
written for row 0 by domain 0's UP pass (the C code leaves xN unassigned
when D = 0, so the score is defined only for D >= 1). -/
def p7_ReferenceASCBackward (gm : Profile) (dsq : ℕ → ℕ) (L : ℕ)
    (anch : List (ℕ × ℕ)) : ℚ≥0 :=
  (ascBwdDomains gm dsq L anch.reverse L (fun i => bkdInitSpec gm L i) 0).N


/-! ### C3, C4: the E -> C transition bug in ASC Forward

`p7_ReferenceASCForward` uses `gm->xsc[p7P_E][p7P_LOOP]` for the E -> C
update on every DOWN row of the last domain (lines 292 and 349), where the
unconstrained Forward (reference_fwdback.c line 193) and `p7_ReferenceASCBackward`
(lines 452, 458) use `xsc[p7P_E][p7P_MOVE]`.  The two scores therefore
disagree whenever eLoop differs from eMove (e.g. unihit mode, where
eLoop = -inf). -/

/-- Profile exhibiting the ASC E -> C bug: all weights 1 except
eLoop = 2 and eMove = 3. -/
def c34gm : Profile where
  M := 1
  msc := fun _ _ => 1
  isc := fun _ _ => 1
  tMM := fun _ => 1
  tIM := fun _ => 1
  tDM := fun _ => 1
  tLM := fun _ => 1
  tGM := fun _ => 1
  tMI := fun _ => 1
  tII := fun _ => 1
  tMD := fun _ => 1
  tDD := fun _ => 1
  xNloop := 1
  xNmove := 1
  xJloop := 1
  xJmove := 1
  xCloop := 1
  xCmove := 1
  xEloop := 2
  xEmove := 3
  xB0 := 1
  xB1 := 1

/-- C3: the ASC Forward and ASC Backward scores are NOT equal on a valid
input: profile `c34gm`, the all-zeros sequence of length 1, one anchor
(1,1).  Forward yields weight 4 (it routes E -> C through
`xsc[E][LOOP]` = 2, reference_asc_fwdback.c line 292), Backward yields the
correct weight 6 (it routes E -> C through `xsc[E][MOVE]` = 3, line 452);
under exact log-sum-exp arithmetic the difference is log(6/4) = 0.58 bits,
far beyond the documented tolerance. -/
theorem C3_asc_forward_ne_backward :
    p7_ReferenceASCForward c34gm (fun _ => 0) 1 [(1, 1)] = 4
      ∧ p7_ReferenceASCBackward c34gm (fun _ => 0) 1 [(1, 1)] = 6
      ∧ p7_ReferenceASCForward c34gm (fun _ => 0) 1 [(1, 1)]
          ≠ p7_ReferenceASCBackward c34gm (fun _ => 0) 1 [(1, 1)] := by
  refine ⟨?_, ?_, ?_⟩ <;>
    norm_num [p7_ReferenceASCForward, p7_ReferenceASCBackward, ascFwdDomains,
      ascBwdDomains, ascDomainSpec, ascUpDiag, ascInitSpec, upRowsAux, downSpecAux,
      downRowsAux, dTopSpec, dTopXE, dTopML, dTopMG, dTopRow, dTopDLaux, dTopDGaux,
      bkdInitSpec, abDownRows, abDownRow, abMLaux, abMGaux, abDLaux, abDGaux,
      abIL, abIG, pickML, pickMG, abUpSpecAt, abUpXJ, abUpXN, abUpB, abUpXGat,
      abUpXLat, abUpRows, abUpRow, zeroCells, List.isEmpty, c34gm,
      Finset.sum_range_succ, Finset.sum_range_zero]

/-- C4: on the last domain's DOWN sector, the C special of ASC Forward is
NOT updated with the E -> C MOVE transition.  At profile `c34gm`, sequence
of zeros, L = 1, anchor (1,1), the row-1 specials actually computed satisfy
C(1) = E(1) * eLoop (= 4, transcribing lines 286-292), whereas the claimed
unconstrained-style update C(1) = C(0) * cLoop + E(1) * eMove would give 6:
the code's C special differs from the claimed formula. -/
theorem C4_asc_forward_EC_uses_loop :
    (ascFwdDomains c34gm (fun _ => 0) 1 [(1, 1)] 0 (ascInitSpec c34gm) 1).C
        = (ascFwdDomains c34gm (fun _ => 0) 1 [(1, 1)] 0 (ascInitSpec c34gm) 1).E
            * c34gm.xEloop
      ∧ (ascFwdDomains c34gm (fun _ => 0) 1 [(1, 1)] 0 (ascInitSpec c34gm) 1).C
          ≠ (ascFwdDomains c34gm (fun _ => 0) 1 [(1, 1)] 0 (ascInitSpec c34gm) 0).C
              * c34gm.xCloop
            + (ascFwdDomains c34gm (fun _ => 0) 1 [(1, 1)] 0 (ascInitSpec c34gm) 1).E
              * c34gm.xEmove := by
  constructor <;>
    norm_num [ascFwdDomains, ascDomainSpec, ascUpDiag, ascInitSpec, upRowsAux,
      downSpecAux, downRowsAux, dTopSpec, dTopXE, dTopML, dTopMG, dTopRow,
      dTopDLaux, dTopDGaux, zeroCells, List.isEmpty, c34gm,
      Finset.sum_range_succ, Finset.sum_range_zero]


/-! ### Viterbi traceback: `p7_GTrace`, src/src/dp_generic.c lines 553-682

The generic (H3-style) traceback walks a Viterbi matrix back from C(L).
Float near-equality (`esl_FCompare` with tol = 1e-5) becomes exact equality
in the exact weight semantics; `-eslINFINITY` (and the `p7_IMPOSSIBLE`
threshold in the N case) become weight 0.  `ESL_XEXCEPTION(eslFAIL, ...)`
throws through the Easel exception handler and returns through the ERROR
label with the trace in whatever state it had reached -- the embedding
records that state in the `fail` result. -/

/-- Trace state types of P7_TRACE as `p7_GTrace` uses them. -/
inductive TrSt where
  | S
  | N
  | B
  | M
  | D
  | I
  | E
  | C
  | J
  | T
  deriving DecidableEq

/-- One P7_TRACE entry (st, k, i) as `p7_trace_Append` stores it. -/
structure TrEntry where
  st : TrSt
  k : ℕ
  i : ℕ
  deriving DecidableEq

/-- The generic profile as `p7_GTrace` reads it: transitions indexed as the
TSC macro does (entry B->M_k and the k-1 transitions at index k-1), `esc`
the local exit score (weight 1 for a local model, 0 for glocal). -/
structure GProfile where
  M : ℕ
  msc : ℕ → ℕ → ℚ≥0
  isc : ℕ → ℕ → ℚ≥0
  tMM : ℕ → ℚ≥0
  tIM : ℕ → ℚ≥0
  tDM : ℕ → ℚ≥0
  tBM : ℕ → ℚ≥0
  tMD : ℕ → ℚ≥0
  tDD : ℕ → ℚ≥0
  tMI : ℕ → ℚ≥0
  tII : ℕ → ℚ≥0
  xNloop : ℚ≥0
  xNmove : ℚ≥0
  xJloop : ℚ≥0
  xJmove : ℚ≥0
  xCloop : ℚ≥0
  xCmove : ℚ≥0
  xEloop : ℚ≥0
  xEmove : ℚ≥0
  esc : ℚ≥0

/-- The generic Viterbi matrix (P7_GMX) as weights: MMX/IMX/DMX and the five
special rows. -/
structure GMX where
  MX : ℕ → ℕ → ℚ≥0
  IX : ℕ → ℕ → ℚ≥0
  DX : ℕ → ℕ → ℚ≥0
  XN : ℕ → ℚ≥0
  XB : ℕ → ℚ≥0
  XE : ℕ → ℚ≥0
  XJ : ℕ → ℚ≥0
  XC : ℕ → ℚ≥0

/-- Result of a `p7_GTrace` run: `ok` carries the reversed trace
(`p7_trace_Reverse`, line 677); `fail` carries the trace as the ERROR path
leaves it when `ESL_XEXCEPTION(eslFAIL, ...)` fires; `outOfFuel` is the
embedding's artifact for a run longer than the supplied bound (the C loop
has no such bound). -/
inductive GTraceResult where
  | ok : List TrEntry → GTraceResult
  | fail : List TrEntry → GTraceResult
  | outOfFuel : GTraceResult
  deriving DecidableEq

/-- The E-case search loop (lines 598-601): try k, k-1, .., 1 for a local
match exitXMX(i,E) = MMX(i,k) + esc. -/
def eSearch (gm : GProfile) (mx : GMX) (i : ℕ) : ℕ → Option ℕ
  | 0 => none
  | k + 1 => if mx.XE i = mx.MX i (k+1) * gm.esc then some (k+1) else eSearch gm mx i k

/-- The traceback loop of `p7_GTrace` (lines 578-675), one constructor per
switch case, transcribed comparison by comparison; the trace list is kept
most-recent-first (the C code appends and indexes tr->st[tr->N-1]).  In the
E case, when no match state compares equal the C loop leaves k = 0 and the
`if (k < 0)` guard (line 601) can never fire, so the while loop re-enters
the E case unchanged: the embedding transcribes that too (such a run ends
in `outOfFuel`). -/
def gtraceLoop (gm : GProfile) (mx : GMX) (dsq : ℕ → ℕ) :
    ℕ → List TrEntry → ℕ → ℕ → GTraceResult
  | 0, _, _, _ => GTraceResult.outOfFuel
  | fuel + 1, tr, i, k =>
    match tr with
    | [] => GTraceResult.fail tr
    | ⟨TrSt.S, _, _⟩ :: _ => GTraceResult.ok tr.reverse
    | ⟨TrSt.C, k0, _⟩ :: rest =>
      if mx.XC i = 0 then GTraceResult.fail tr
      else if mx.XC i = mx.XC (i-1) * gm.xCloop then
        gtraceLoop gm mx dsq fuel (⟨TrSt.C, 0, 0⟩ :: ⟨TrSt.C, k0, i⟩ :: rest) (i-1) k
      else if mx.XC i = mx.XE i * gm.xEmove then
        gtraceLoop gm mx dsq fuel (⟨TrSt.E, 0, 0⟩ :: tr) i k
      else GTraceResult.fail tr
    | ⟨TrSt.E, _, _⟩ :: _ =>
      if mx.XE i = 0 then GTraceResult.fail tr
      else if mx.XE i = mx.MX i gm.M then
        gtraceLoop gm mx dsq fuel (⟨TrSt.M, gm.M, i⟩ :: tr) i gm.M
      else
        match eSearch gm mx i (gm.M - 1) with
        | some kf => gtraceLoop gm mx dsq fuel (⟨TrSt.M, kf, i⟩ :: tr) i kf
        | none => gtraceLoop gm mx dsq fuel tr i 0
    | ⟨TrSt.M, _, _⟩ :: _ =>
      if mx.MX i k = 0 then GTraceResult.fail tr
      else if mx.MX i k = mx.XB (i-1) * gm.tBM (k-1) * gm.msc k (dsq i) then
        gtraceLoop gm mx dsq fuel (⟨TrSt.B, 0, 0⟩ :: tr) (i-1) (k-1)
      else if mx.MX i k = mx.MX (i-1) (k-1) * gm.tMM (k-1) * gm.msc k (dsq i) then
        gtraceLoop gm mx dsq fuel (⟨TrSt.M, k-1, i-1⟩ :: tr) (i-1) (k-1)
      else if mx.MX i k = mx.IX (i-1) (k-1) * gm.tIM (k-1) * gm.msc k (dsq i) then
        gtraceLoop gm mx dsq fuel (⟨TrSt.I, k-1, i-1⟩ :: tr) (i-1) (k-1)
      else if mx.MX i k = mx.DX (i-1) (k-1) * gm.tDM (k-1) * gm.msc k (dsq i) then
        gtraceLoop gm mx dsq fuel (⟨TrSt.D, k-1, 0⟩ :: tr) (i-1) (k-1)
      else GTraceResult.fail tr
    | ⟨TrSt.D, _, _⟩ :: _ =>
      if mx.DX i k = 0 then GTraceResult.fail tr
      else if mx.DX i k = mx.MX i (k-1) * gm.tMD (k-1) then
        gtraceLoop gm mx dsq fuel (⟨TrSt.M, k-1, i⟩ :: tr) i (k-1)
      else if mx.DX i k = mx.DX i (k-1) * gm.tDD (k-1) then
        gtraceLoop gm mx dsq fuel (⟨TrSt.D, k-1, 0⟩ :: tr) i (k-1)
      else GTraceResult.fail tr
    | ⟨TrSt.I, _, _⟩ :: _ =>
      if mx.IX i k = 0 then GTraceResult.fail tr
      else if mx.IX i k = mx.MX (i-1) k * gm.tMI k * gm.isc k (dsq i) then
        gtraceLoop gm mx dsq fuel (⟨TrSt.M, k, i-1⟩ :: tr) (i-1) k
      else if mx.IX i k = mx.IX (i-1) k * gm.tII k * gm.isc k (dsq i) then
        gtraceLoop gm mx dsq fuel (⟨TrSt.I, k, i-1⟩ :: tr) (i-1) k
      else GTraceResult.fail tr
    | ⟨TrSt.N, k0, _⟩ :: rest =>
      if mx.XN i = 0 then GTraceResult.fail tr
      else if i = 0 then
        gtraceLoop gm mx dsq fuel (⟨TrSt.S, 0, 0⟩ :: tr) i k
      else if mx.XN i = mx.XN (i-1) * gm.xNloop then
        gtraceLoop gm mx dsq fuel (⟨TrSt.N, 0, 0⟩ :: ⟨TrSt.N, k0, i⟩ :: rest) (i-1) k
      else GTraceResult.fail tr
    | ⟨TrSt.B, _, _⟩ :: _ =>
      if mx.XB i = 0 then GTraceResult.fail tr
      else if mx.XB i = mx.XN i * gm.xNmove then
        gtraceLoop gm mx dsq fuel (⟨TrSt.N, 0, 0⟩ :: tr) i k
      else if mx.XB i = mx.XJ i * gm.xJmove then
        gtraceLoop gm mx dsq fuel (⟨TrSt.J, 0, 0⟩ :: tr) i k
      else GTraceResult.fail tr
    | ⟨TrSt.J, k0, _⟩ :: rest =>
      if mx.XJ i = 0 then GTraceResult.fail tr
      else if mx.XJ i = mx.XJ (i-1) * gm.xJloop then
        gtraceLoop gm mx dsq fuel (⟨TrSt.J, 0, 0⟩ :: ⟨TrSt.J, k0, i⟩ :: rest) (i-1) k
      else if mx.XJ i = mx.XE i * gm.xEloop then
        gtraceLoop gm mx dsq fuel (⟨TrSt.E, 0, 0⟩ :: tr) i k
      else GTraceResult.fail tr
    | ⟨TrSt.T, _, _⟩ :: _ => GTraceResult.fail tr

/-- `p7_GTrace` (lines 553-682): append T and C (lines 572-573), set i = L,
run the traceback loop. -/
def p7_GTrace (gm : GProfile) (mx : GMX) (dsq : ℕ → ℕ) (L fuel : ℕ) :
    GTraceResult :=
  gtraceLoop gm mx dsq fuel [⟨TrSt.C, 0, 0⟩, ⟨TrSt.T, 0, 0⟩] L 0

/-- A generic profile and Viterbi matrix on which no path exists:
C(i) = -infinity everywhere (weight 0). -/
def c6gm : GProfile where
  M := 1
  msc := fun _ _ => 1
  isc := fun _ _ => 1
  tMM := fun _ => 1
  tIM := fun _ => 1
  tDM := fun _ => 1
  tBM := fun _ => 1
  tMD := fun _ => 1
  tDD := fun _ => 1
  tMI := fun _ => 1
  tII := fun _ => 1
  xNloop := 1
  xNmove := 1
  xJloop := 1
  xJmove := 1
  xCloop := 1
  xCmove := 1
  xEloop := 1
  xEmove := 1
  esc := 1

/-- The all-zero (all -infinity) Viterbi matrix. -/
def c6mx : GMX where
  MX := fun _ _ => 0
  IX := fun _ _ => 0
  DX := fun _ _ => 0
  XN := fun _ => 0
  XB := fun _ => 0
  XE := fun _ => 0
  XJ := fun _ => 0
  XC := fun _ => 0

/-- C6: on a Viterbi matrix with C(L) = -infinity, `p7_GTrace` does NOT
return a blank trace: it takes the `ESL_XEXCEPTION(eslFAIL, ...)` path at
line 583 -- an exception throw, not the documented recoverable return --
after having already appended the T and C entries (lines 572-573), so the
trace it leaves behind has tr->N = 2, not the documented tr->N = 0. -/
theorem C6_gtrace_impossible_C_not_blank :
    p7_GTrace c6gm c6mx (fun _ => 0) 5 100
        = GTraceResult.fail [⟨TrSt.C, 0, 0⟩, ⟨TrSt.T, 0, 0⟩]
      ∧ ([(⟨TrSt.C, 0, 0⟩ : TrEntry), ⟨TrSt.T, 0, 0⟩] : List TrEntry).length ≠ 0 := by
  constructor
  · show gtraceLoop c6gm c6mx (fun _ => 0) 100 [⟨TrSt.C, 0, 0⟩, ⟨TrSt.T, 0, 0⟩] 5 0
        = GTraceResult.fail [⟨TrSt.C, 0, 0⟩, ⟨TrSt.T, 0, 0⟩]
    simp [gtraceLoop, c6mx]
  · simp

/-! ### ASC Decoding renormalization, src/src/dp_reference/reference_asc_fwdback.c lines 797-804, 842-850 -/

/-- Multiply every cell of a supercell by c. -/
def scaleCells (c : ℚ≥0) (v : Cells) : Cells where
  ML := c * v.ML
  MG := c * v.MG
  IL := c * v.IL
  IG := c * v.IG
  DL := c * v.DL
  DG := c * v.DG

/-- Multiply every special of a row by c. -/
def scaleSpecials (c : ℚ≥0) (x : Specials) : Specials where
  E := c * x.E
  N := c * x.N
  J := c * x.J
  B := c * x.B
  L := c * x.L
  G := c * x.G
  C := c * x.C
  JJ := c * x.JJ
  CC := c * x.CC

/-- The renormalization block in the UP loop of `p7_ReferenceASCDecoding`
(lines 797-804): with `denom = 1.0 / denom`, multiply the UP supercells
k = 1..k0-1 (line 800), the DOWN supercells k = k0..M (line 802), and then
ALL `p7R_NXCELLS` specials of the row -- E, N, J, B, L, G, C, JJ, CC alike
(line 803) -- by 1/denom. -/
def ascRenormRow (k0 M : ℕ) (denom : ℚ≥0) (up dn : ℕ → Cells) (xs : Specials) :
    (ℕ → Cells) × (ℕ → Cells) × Specials :=
  (fun k => if 1 ≤ k ∧ k ≤ k0 - 1 then scaleCells denom⁻¹ (up k) else up k,
   fun k => if k0 ≤ k ∧ k ≤ M then scaleCells denom⁻¹ (dn k) else dn k,
   scaleSpecials denom⁻¹ xs)

/-- The renormalization block in the last DOWN chunk (lines 842-850): the
DOWN supercells k = k0..M (line 847) and all nine specials (line 848). -/
def ascRenormRowDown (k0 M : ℕ) (denom : ℚ≥0) (dn : ℕ → Cells) (xs : Specials) :
    (ℕ → Cells) × Specials :=
  (fun k => if k0 ≤ k ∧ k ≤ M then scaleCells denom⁻¹ (dn k) else dn k,
   scaleSpecials denom⁻¹ xs)

/-- The emitting-state posterior mass of a DOWN row as the decoding loop
accumulates `denom` (lines 821-824, 830-831): ML + MG + IL + IG over
k = k0..M, plus JJ and CC. -/
def emittingSum (k0 M : ℕ) (dn : ℕ → Cells) (xs : Specials) : ℚ≥0 :=
  (∑ j in Finset.range (M - k0 + 1),
      ((dn (k0 + j)).ML + (dn (k0 + j)).MG + (dn (k0 + j)).IL + (dn (k0 + j)).IG))
    + xs.JJ + xs.CC

/-- A row of specials with nonzero non-emitting states. -/
def c7xs : Specials where
  E := 1
  N := 0
  J := 0
  B := 1
  L := 1
  G := 1
  C := 0
  JJ := 0
  CC := 2

/-- A DOWN row whose emitting mass is 2 (with `c7xs`: JJ + CC = 2). -/
def c7dn : ℕ → Cells := fun _ => zeroCells

/-- C7 counterexample: renormalizing the row (k0 = 1, M = 1) with
denom = 2 changes the non-emitting specials: E becomes 1/2, not the 1 it
was assigned before renormalization (and B, L, G likewise), refuting the
claim that E, B, L, G keep their values. -/
theorem C7_counterexample :
    (ascRenormRowDown 1 1 (emittingSum 1 1 c7dn c7xs) c7dn c7xs).2.E ≠ c7xs.E
      ∧ (ascRenormRowDown 1 1 (emittingSum 1 1 c7dn c7xs) c7dn c7xs).2.E = 1/2 := by
  constructor <;>
    norm_num [ascRenormRowDown, scaleSpecials, emittingSum, c7dn, c7xs, zeroCells,
      Finset.sum_range_succ, Finset.sum_range_zero]

/-- C7 (amended): the row-wise renormalization divides EVERY stored value of
the row by denom -- the emitting supercells in the renormalized bands and
all nine specials including the non-emitting E, B, L, and G (lines 803,
848) -- and, when denom is the row's emitting mass and is nonzero, the
emitting mass after renormalization is exactly 1. -/
theorem C7_renorm_scales_all (k0 M : ℕ) (denom : ℚ≥0) (dn : ℕ → Cells)
    (xs : Specials) (hkM : k0 ≤ M)
    (hd : denom = emittingSum k0 M dn xs) (hd0 : denom ≠ 0) :
    emittingSum k0 M (ascRenormRowDown k0 M denom dn xs).1
        (ascRenormRowDown k0 M denom dn xs).2 = 1
      ∧ (ascRenormRowDown k0 M denom dn xs).2.E = denom⁻¹ * xs.E
      ∧ (ascRenormRowDown k0 M denom dn xs).2.B = denom⁻¹ * xs.B
      ∧ (ascRenormRowDown k0 M denom dn xs).2.L = denom⁻¹ * xs.L
      ∧ (ascRenormRowDown k0 M denom dn xs).2.G = denom⁻¹ * xs.G := by
  refine ⟨?_, rfl, rfl, rfl, rfl⟩
  have hcell : ∀ j ∈ Finset.range (M - k0 + 1),
      ((ascRenormRowDown k0 M denom dn xs).1 (k0 + j)).ML
        + ((ascRenormRowDown k0 M denom dn xs).1 (k0 + j)).MG
        + ((ascRenormRowDown k0 M denom dn xs).1 (k0 + j)).IL
        + ((ascRenormRowDown k0 M denom dn xs).1 (k0 + j)).IG
      = denom⁻¹ * ((dn (k0 + j)).ML + (dn (k0 + j)).MG + (dn (k0 + j)).IL + (dn (k0 + j)).IG) := by
    intro j hj
    have hcond : k0 ≤ k0 + j ∧ k0 + j ≤ M := by
      constructor
      · omega
      · have := Finset.mem_range.mp hj
        omega
    show (if k0 ≤ k0 + j ∧ k0 + j ≤ M then scaleCells denom⁻¹ (dn (k0+j)) else dn (k0+j)).ML
        + (if k0 ≤ k0 + j ∧ k0 + j ≤ M then scaleCells denom⁻¹ (dn (k0+j)) else dn (k0+j)).MG
        + (if k0 ≤ k0 + j ∧ k0 + j ≤ M then scaleCells denom⁻¹ (dn (k0+j)) else dn (k0+j)).IL
        + (if k0 ≤ k0 + j ∧ k0 + j ≤ M then scaleCells denom⁻¹ (dn (k0+j)) else dn (k0+j)).IG
        = denom⁻¹ * _
    rw [if_pos hcond]
    simp only [scaleCells]
    ring
  unfold emittingSum
  rw [Finset.sum_congr rfl hcell]
  show (∑ j in Finset.range (M - k0 + 1),
      denom⁻¹ * ((dn (k0 + j)).ML + (dn (k0 + j)).MG + (dn (k0 + j)).IL + (dn (k0 + j)).IG))
      + denom⁻¹ * xs.JJ + denom⁻¹ * xs.CC = 1
  rw [← Finset.mul_sum, ← mul_add, ← mul_add]
  show denom⁻¹ * emittingSum k0 M dn xs = 1
  rw [← hd]
  exact inv_mul_cancel₀ hd0

/-- C7 witness: the amended renormalization property at a concrete row
(k0 = M = 1, one match cell of posterior 2, denom = 2), each hypothesis
discharged. -/
theorem C7_renorm_scales_all_witness :
    ((1:ℕ) ≤ 1
      ∧ (4:ℚ≥0) = emittingSum 1 1 (fun _ => Cells.mk 2 0 0 0 0 0) c7xs ∧ (4:ℚ≥0) ≠ 0)
      ∧ (emittingSum 1 1
          (ascRenormRowDown 1 1 4 (fun _ => Cells.mk 2 0 0 0 0 0) c7xs).1
          (ascRenormRowDown 1 1 4 (fun _ => Cells.mk 2 0 0 0 0 0) c7xs).2 = 1
        ∧ (ascRenormRowDown 1 1 4 (fun _ => Cells.mk 2 0 0 0 0 0) c7xs).2.E = (4:ℚ≥0)⁻¹ * c7xs.E
        ∧ (ascRenormRowDown 1 1 4 (fun _ => Cells.mk 2 0 0 0 0 0) c7xs).2.B = (4:ℚ≥0)⁻¹ * c7xs.B
        ∧ (ascRenormRowDown 1 1 4 (fun _ => Cells.mk 2 0 0 0 0 0) c7xs).2.L = (4:ℚ≥0)⁻¹ * c7xs.L
        ∧ (ascRenormRowDown 1 1 4 (fun _ => Cells.mk 2 0 0 0 0 0) c7xs).2.G = (4:ℚ≥0)⁻¹ * c7xs.G) :=
  ⟨⟨le_refl 1,
      by norm_num [emittingSum, c7xs, Finset.sum_range_succ], by norm_num⟩,
    C7_renorm_scales_all 1 1 4 (fun _ => Cells.mk 2 0 0 0 0 0) c7xs
      (le_refl 1)
      (by norm_num [emittingSum, c7xs, Finset.sum_range_succ]) (by norm_num)⟩

/-! ### The ASC Decoding UP-sector start row, src/src/dp_reference/reference_asc_fwdback.c line 746 -/

/-- Exact C semantics of line 746, `iend = (d = 0 ? 1 : anch[d-1].n1 + 1);`.
Precedence parses the right-hand side as `d = ((0) ? 1 : (anch[d-1].n1 + 1))`:
the condition is the constant 0, so the else branch runs for EVERY d, the
anchor array is read at index d - 1 (an int, so -1 when d = 0), and the
result is assigned to the loop counter d itself before being copied to
iend.  Returns (index read, new value of d, iend). -/
def ascDecodingUpStart (anchN1 : ℤ → ℤ) (d : ℤ) : ℤ × ℤ × ℤ :=
  (d - 1, anchN1 (d - 1) + 1, anchN1 (d - 1) + 1)

/-- C8: in the first UP pass of ASC Decoding (d = 0) the anchor array is
read at index -1, outside the valid bounds 0..D-1 for every D; moreover
(taking, e.g., garbage value 5 in the out-of-bounds slot) the UP pass start
row becomes 6 instead of the claimed 1, and the domain counter d itself is
clobbered to 6 -- the pass does not iterate rows 1 .. i_1 - 1. -/
theorem C8_asc_decoding_up_start_out_of_bounds :
    (ascDecodingUpStart (fun _ => 5) 0).1 = -1
      ∧ (∀ D : ℕ, ¬(0 ≤ (ascDecodingUpStart (fun _ => 5) 0).1
          ∧ (ascDecodingUpStart (fun _ => 5) 0).1 < (D : ℤ)))
      ∧ (ascDecodingUpStart (fun _ => 5) 0).2.2 ≠ 1
      ∧ (ascDecodingUpStart (fun _ => 5) 0).2.1 ≠ 0 := by
  refine ⟨rfl, ?_, by decide, by decide⟩
  intro D
  simp [ascDecodingUpStart]


/-! ### Checkpointed row layout: `set_row_layout`, src/src/impl_sse/p7_filtermx.c lines 301-399

`minimum_rows(L) = (sqrt(9+8L)-3)/2` and
`checkpointed_rows(L,R) = (sqrt(1+8(L-R))-1)/2` are computed in IEEE double
arithmetic; at these magnitudes (integers below 2^52, correctly rounded
sqrt) floor and the `Rbc > Rc` fractionality test agree with the exact
real-number values, which we embed exactly: `floor((sqrt x - a)/2)`
becomes `(Nat.sqrt x - a)/2`, and `Rbc` is integral iff x is a perfect
square (x = 9+8L and 1+8(L-R) are odd, so their square roots, when exact,
are odd).  All row/length arithmetic is on `int`s that stay nonnegative on
the branch the theorems address. -/

/-- Layout fields set by `set_row_layout` (R{abc}, L{abc}). -/
structure Layout where
  Ra : ℕ
  Rb : ℕ
  Rc : ℕ
  La : ℕ
  Lb : ℕ
  Lc : ℕ

/-- floor of `minimum_rows(L)` (line 379): floor((sqrt(9+8L)-3)/2). -/
def minimum_rows_floor (L : ℕ) : ℕ := (Nat.sqrt (9 + 8*L) - 3) / 2

/-- 1 when `minimum_rows(L)` has a fractional part (iff 9+8L is not a
perfect square), else 0: the `Rbc > Rc` test of lines 355, 373. -/
def minimum_rows_frac (L : ℕ) : ℕ :=
  if Nat.sqrt (9 + 8*L) * Nat.sqrt (9 + 8*L) = 9 + 8*L then 0 else 1

/-- ceil of `minimum_rows(L)` (line 305): floor plus the fractional flag
(the code comment at line 374: `minR = (int) ceil(Rbc); // or, Rc+Rb`). -/
def minimum_rows_ceil (L : ℕ) : ℕ := minimum_rows_floor L + minimum_rows_frac L

/-- floor of `checkpointed_rows(L,R)` (line 398) as a function of
v = L - R: floor((sqrt(1+8v)-1)/2). -/
def checkpointed_rows_floor (v : ℕ) : ℕ := (Nat.sqrt (1 + 8*v) - 1) / 2

/-- 1 when `checkpointed_rows(L,R)` has a fractional part (iff 1+8v is not
a perfect square), else 0: the `Rbc > Rc` test of line 339. -/
def checkpointed_rows_frac (v : ℕ) : ℕ :=
  if Nat.sqrt (1 + 8*v) * Nat.sqrt (1 + 8*v) = 1 + 8*v then 0 else 1

/-- `set_full` (lines 314-323). -/
def set_full (L : ℕ) : Layout where
  Ra := L
  Rb := 0
  Rc := 0
  La := L
  Lb := 0
  Lc := 0

/-- `set_checkpointed` (lines 332-344): Rc = floor(checkpointed_rows(L, R-R0)),
Rb its fractional flag, Ra the remaining rows, La = Ra,
Lc = (Rc+2)(Rc+1)/2 - 1, Lb the leftover residues. -/
def set_checkpointed (L R R0 : ℕ) : Layout where
  Ra := R - checkpointed_rows_frac (L - (R - R0)) - checkpointed_rows_floor (L - (R - R0)) - R0
  Rb := checkpointed_rows_frac (L - (R - R0))
  Rc := checkpointed_rows_floor (L - (R - R0))
  La := R - checkpointed_rows_frac (L - (R - R0)) - checkpointed_rows_floor (L - (R - R0)) - R0
  Lb := L - (R - checkpointed_rows_frac (L - (R - R0)) - checkpointed_rows_floor (L - (R - R0)) - R0)
          - ((checkpointed_rows_floor (L - (R - R0)) + 2) * (checkpointed_rows_floor (L - (R - R0)) + 1) / 2 - 1)
  Lc := (checkpointed_rows_floor (L - (R - R0)) + 2) * (checkpointed_rows_floor (L - (R - R0)) + 1) / 2 - 1

/-- `set_redlined` (lines 349-360): fully checkpointed, Ra = La = 0. -/
def set_redlined (L : ℕ) : Layout where
  Ra := 0
  Rb := minimum_rows_frac L
  Rc := minimum_rows_floor L
  La := 0
  Lb := L - ((minimum_rows_floor L + 2) * (minimum_rows_floor L + 1) / 2 - 1)
  Lc := (minimum_rows_floor L + 2) * (minimum_rows_floor L + 1) / 2 - 1

/-- `set_row_layout` (lines 301-311): full if minR_all = R0 + L fits in
maxR, else checkpointed if minR_chk = R0 + ceil(minimum_rows L) fits, else
redlined. -/
def set_row_layout (allocL maxR R0 : ℕ) : Layout :=
  if R0 + allocL ≤ maxR then set_full allocL
  else if R0 + minimum_rows_ceil allocL ≤ maxR then set_checkpointed allocL maxR R0
  else set_redlined allocL

/-- A valid checkpointed layout for length L within maxR rows (R0 of them
reserved): the kept region is computed and kept (La = Ra), the regions
cover the sequence, the c region checkpoints Lc = (Rc+2)(Rc+1)/2 - 1
residues with Rc rows, the partial block b is absent (Rb = Lb = 0) or one
row covering at most Rc + 2 residues (one more than the widest c block),
and the rows fit the budget. -/
def ValidLayout (L maxR R0 : ℕ) (z : Layout) : Prop :=
  z.La = z.Ra
  ∧ z.La + z.Lb + z.Lc = L
  ∧ z.Lc = (z.Rc + 2) * (z.Rc + 1) / 2 - 1
  ∧ ((z.Rb = 0 ∧ z.Lb = 0) ∨ (z.Rb = 1 ∧ z.Lb ≤ z.Rc + 2))
  ∧ R0 + z.Ra + z.Rb + z.Rc ≤ maxR


/-- Characterization of `checkpointed_rows` floor and fractional flag, with
v = L - R: either the value is exact (1+8v a perfect square) and
v = Rc(Rc+1)/2, or it is fractional and Rc(Rc+1)/2 < v < (Rc+1)(Rc+2)/2. -/
theorem ckRows_char (v : ℕ) :
    (checkpointed_rows_frac v = 0
      ∧ 2*v = checkpointed_rows_floor v * (checkpointed_rows_floor v + 1))
    ∨ (checkpointed_rows_frac v = 1
      ∧ checkpointed_rows_floor v * (checkpointed_rows_floor v + 1) + 2 ≤ 2*v
      ∧ 2*v + 2 ≤ (checkpointed_rows_floor v + 1) * (checkpointed_rows_floor v + 2)) := by
  have h1 := Nat.sqrt_le (1 + 8*v)
  have h2 := Nat.lt_succ_sqrt (1 + 8*v)
  simp only [Nat.succ_eq_add_one] at h2
  by_cases hex : Nat.sqrt (1 + 8*v) * Nat.sqrt (1 + 8*v) = 1 + 8*v
  · left
    refine ⟨by unfold checkpointed_rows_frac; rw [if_pos hex], ?_⟩
    obtain ⟨c, hc⟩ : ∃ c, Nat.sqrt (1 + 8*v) = 2*c + 1 := by
      rcases Nat.even_or_odd (Nat.sqrt (1 + 8*v)) with he | ho
      · exfalso
        obtain ⟨t, ht⟩ := he
        rw [ht] at hex
        have he2 : (t + t) * (t + t) = 2 * (t * (t + t)) := by ring
        omega
      · exact ho
    unfold checkpointed_rows_floor
    rw [hc] at hex ⊢
    have hfl : (2*c + 1 - 1) / 2 = c := by omega
    rw [hfl]
    have e1 : (2*c + 1) * (2*c + 1) = 4*(c*c) + 4*c + 1 := by ring
    have e2 : c*(c + 1) = c*c + c := by ring
    omega
  · right
    refine ⟨by unfold checkpointed_rows_frac; rw [if_neg hex], ?_⟩
    have h1s : Nat.sqrt (1 + 8*v) * Nat.sqrt (1 + 8*v) < 1 + 8*v :=
      lt_of_le_of_ne h1 hex
    unfold checkpointed_rows_floor
    rcases Nat.even_or_odd (Nat.sqrt (1 + 8*v)) with he | ho
    · obtain ⟨t, ht⟩ := he
      rcases t with _ | u
      · rw [ht] at h2
        norm_num at h2
      · rw [ht] at h1s h2 ⊢
        have hfl : (u + 1 + (u + 1) - 1) / 2 = u := by omega
        rw [hfl]
        have e1 : (u + 1 + (u + 1)) * (u + 1 + (u + 1)) = 4*(u*u) + 8*u + 4 := by ring
        have e2 : (u + 1 + (u + 1) + 1) * (u + 1 + (u + 1) + 1) = 4*(u*u) + 12*u + 9 := by ring
        have e3 : u*(u + 1) = u*u + u := by ring
        have e4 : (u + 1)*(u + 2) = u*u + 3*u + 2 := by ring
        obtain ⟨p, hp⟩ : ∃ p, u*(u + 1) = p + p := Nat.even_mul_succ_self u
        omega
    · obtain ⟨c, hc⟩ := ho
      rw [hc] at h1s h2 ⊢
      have hfl : (2*c + 1 - 1) / 2 = c := by omega
      rw [hfl]
      have e1 : (2*c + 1) * (2*c + 1) = 4*(c*c) + 4*c + 1 := by ring
      have e2 : (2*c + 1 + 1) * (2*c + 1 + 1) = 4*(c*c) + 8*c + 4 := by ring
      have e3 : c*(c + 1) = c*c + c := by ring
      have e4 : (c + 1)*(c + 2) = c*c + 3*c + 2 := by ring
      obtain ⟨p, hp⟩ : ∃ p, c*(c + 1) = p + p := Nat.even_mul_succ_self c
      omega

/-- `minimum_rows` ceiling covers L: ceil(minimum_rows L) rows checkpoint at
least L residues (T(m) = m(m+3)/2 >= L). -/
theorem mrCeil_covers (L : ℕ) :
    2*L ≤ minimum_rows_ceil L * (minimum_rows_ceil L + 3) := by
  have h1 := Nat.sqrt_le (9 + 8*L)
  have h2 := Nat.lt_succ_sqrt (9 + 8*L)
  simp only [Nat.succ_eq_add_one] at h2
  unfold minimum_rows_ceil minimum_rows_floor minimum_rows_frac
  by_cases hex : Nat.sqrt (9 + 8*L) * Nat.sqrt (9 + 8*L) = 9 + 8*L
  · rw [if_pos hex]
    obtain ⟨c, hc⟩ : ∃ c, Nat.sqrt (9 + 8*L) = 2*c + 3 := by
      rcases Nat.even_or_odd (Nat.sqrt (9 + 8*L)) with he | ho
      · exfalso
        obtain ⟨t, ht⟩ := he
        rw [ht] at hex
        have he2 : (t + t) * (t + t) = 2 * (t * (t + t)) := by ring
        omega
      · obtain ⟨k, hk⟩ := ho
        rcases k with _ | c
        · exfalso
          rw [hk] at hex
          omega
        · exact ⟨c, by omega⟩
    rw [hc] at hex ⊢
    have hfl : (2*c + 3 - 3) / 2 = c := by omega
    rw [hfl]
    have e1 : (2*c + 3) * (2*c + 3) = 4*(c*c) + 12*c + 9 := by ring
    have e2 : (c + 0)*(c + 0 + 3) = c*c + 3*c := by ring
    omega
  · rw [if_neg hex]
    have h1s : Nat.sqrt (9 + 8*L) * Nat.sqrt (9 + 8*L) < 9 + 8*L :=
      lt_of_le_of_ne h1 hex
    rcases Nat.even_or_odd (Nat.sqrt (9 + 8*L)) with he | ho
    · obtain ⟨t, ht⟩ := he
      rcases Nat.lt_or_ge t 2 with ht2 | ht2
      · exfalso
        have hc : (t + t + 1) * (t + t + 1) ≤ 3 * 3 :=
          Nat.mul_le_mul (by omega) (by omega)
        rw [ht] at h2
        omega
      · obtain ⟨u, hu⟩ : ∃ u, t = u + 2 := ⟨t - 2, by omega⟩
        subst hu
        rw [ht] at h1s h2 ⊢
        have hfl : (u + 2 + (u + 2) - 3) / 2 + 1 = u + 1 := by omega
        rw [hfl]
        have e1 : (u + 2 + (u + 2)) * (u + 2 + (u + 2)) = 4*(u*u) + 16*u + 16 := by ring
        have e2 : (u + 2 + (u + 2) + 1) * (u + 2 + (u + 2) + 1) = 4*(u*u) + 20*u + 25 := by ring
        have e3 : (u + 1)*(u + 1 + 3) = u*u + 5*u + 4 := by ring
        omega
    · obtain ⟨k, hk⟩ := ho
      rcases k with _ | c
      · rw [hk] at h2
        norm_num at h2
        omega
      · have hc : Nat.sqrt (9 + 8*L) = 2*c + 3 := by omega
        rw [hc] at h1s h2 ⊢
        have hfl : (2*c + 3 - 3) / 2 + 1 = c + 1 := by omega
        rw [hfl]
        have e1 : (2*c + 3) * (2*c + 3) = 4*(c*c) + 12*c + 9 := by ring
        have e2 : (2*c + 3 + 1) * (2*c + 3 + 1) = 4*(c*c) + 16*c + 16 := by ring
        have e3 : (c + 1)*(c + 1 + 3) = c*c + 5*c + 4 := by ring
        omega


/-- C9: on the checkpointed branch (the full matrix does not fit, a
checkpointed one does), the layout chosen by `set_row_layout` keeps every
computed row (La = Ra), covers the sequence (La + Lb + Lc = L), checkpoints
Lc = (Rc+2)(Rc+1)/2 - 1 residues, has Rb in {0,1} with Rb = 0 forcing
Lb = 0, uses every row of the budget (R0 + Ra + Rb + Rc = maxR), and makes
Ra maximal among all valid checkpointed layouts. -/
theorem C9_set_row_layout_checkpointed (L maxR R0 : ℕ) (hL : 1 ≤ L)
    (hfull : maxR < R0 + L) (hchk : R0 + minimum_rows_ceil L ≤ maxR) :
    (set_row_layout L maxR R0).La = (set_row_layout L maxR R0).Ra
    ∧ (set_row_layout L maxR R0).La + (set_row_layout L maxR R0).Lb
        + (set_row_layout L maxR R0).Lc = L
    ∧ (set_row_layout L maxR R0).Lc
        = ((set_row_layout L maxR R0).Rc + 2) * ((set_row_layout L maxR R0).Rc + 1) / 2 - 1
    ∧ ((set_row_layout L maxR R0).Rb = 0 ∨ (set_row_layout L maxR R0).Rb = 1)
    ∧ ((set_row_layout L maxR R0).Rb = 0 → (set_row_layout L maxR R0).Lb = 0)
    ∧ R0 + (set_row_layout L maxR R0).Ra + (set_row_layout L maxR R0).Rb
        + (set_row_layout L maxR R0).Rc = maxR
    ∧ (∀ z : Layout, ValidLayout L maxR R0 z → z.Ra ≤ (set_row_layout L maxR R0).Ra) := by
  have hbr : set_row_layout L maxR R0 = set_checkpointed L maxR R0 := by
    unfold set_row_layout
    rw [if_neg (by omega), if_pos hchk]
  rw [hbr]
  simp only [set_checkpointed]
  have hmth := mrCeil_covers L
  have hch := ckRows_char (L - (maxR - R0))
  obtain ⟨v, hv⟩ : ∃ v, L - (maxR - R0) = v := ⟨_, rfl⟩
  obtain ⟨c, hc⟩ : ∃ c, checkpointed_rows_floor v = c := ⟨_, rfl⟩
  obtain ⟨b, hb⟩ : ∃ b, checkpointed_rows_frac v = b := ⟨_, rfl⟩
  obtain ⟨m, hm⟩ : ∃ m, minimum_rows_ceil L = m := ⟨_, rfl⟩
  rw [hv, hc, hb] at hch
  rw [hm] at hmth hchk
  rw [hv, hc, hb]
  have hvdef : v + (maxR - R0) = L := by omega
  have hvpos : 1 ≤ v := by omega
  have hmono : m * (m+1) + 2*m = m * (m+3) := by ring
  have hm2 : 2*v ≤ m * (m+1) := by omega
  rcases hch with ⟨hb0, hvc⟩ | ⟨hb1, hlow, hhigh⟩
  · -- exact case: Rb = 0, 2v = c(c+1); c ≥ 1 since v ≥ 1
    subst hb0
    have hc1 : 1 ≤ c := by
      rcases Nat.eq_zero_or_pos c with h0 | h1
      · subst h0; omega
      · exact h1
    obtain ⟨w, hw⟩ : ∃ w, c = w + 1 := ⟨c - 1, by omega⟩
    subst hw
    have r1 : (w+1) * (w+1+1) = w*(w+1) + 2*(w+1) := by ring
    have hnm : w + 1 ≤ m := by
      by_contra hcon
      push_neg at hcon
      have hle : m * (m+1) ≤ w * (w+1) :=
        Nat.mul_le_mul (by omega) (by omega)
      omega
    obtain ⟨q, hq⟩ : ∃ q, (w+1+1) * (w+1+1+1) = q + q := Nat.even_mul_succ_self (w+1+1)
    have r2 : (w+1+2) * (w+1+1) = (w+1+1) * (w+1+1+1) := by ring
    have r3 : (w+1+1) * (w+1+1+1) = (w+1) * (w+1+1) + 2*(w+1+1) := by ring
    refine ⟨trivial, by omega, trivial, Or.inl rfl, fun _ => by omega, by omega, ?_⟩
    intro z hz
    obtain ⟨hz1, hz2, hz3, hz4, hz5⟩ := hz
    by_contra hcon
    push_neg at hcon
    obtain ⟨q', hq'⟩ : ∃ q', (z.Rc+1) * (z.Rc+1+1) = q' + q' := Nat.even_mul_succ_self (z.Rc+1)
    have r4 : (z.Rc+2) * (z.Rc+1) = (z.Rc+1) * (z.Rc+1+1) := by ring
    have r5 : (z.Rc+1) * (z.Rc+1+1) = z.Rc * (z.Rc+1) + 2*(z.Rc+1) := by ring
    rcases hz4 with ⟨hzb, hzlb⟩ | ⟨hzb, hzlb⟩
    · have hmul : z.Rc * (z.Rc+1) ≤ w * (w+1) :=
        Nat.mul_le_mul (by omega) (by omega)
      omega
    · have hmul : (z.Rc+1) * (z.Rc+1+1) ≤ w * (w+1) :=
        Nat.mul_le_mul (by omega) (by omega)
      omega
  · -- fractional case: Rb = 1, c(c+1)+2 <= 2v <= (c+1)(c+2)-2
    subst hb1
    have hnm : 1 + c ≤ m := by
      by_contra hcon
      push_neg at hcon
      have hle : m * (m+1) ≤ c * (c+1) :=
        Nat.mul_le_mul (by omega) (by omega)
      omega
    obtain ⟨q, hq⟩ : ∃ q, (c+1) * (c+1+1) = q + q := Nat.even_mul_succ_self (c+1)
    have r2 : (c+2) * (c+1) = (c+1) * (c+1+1) := by ring
    have r3 : (c+1) * (c+1+1) = c * (c+1) + 2*(c+1) := by ring
    refine ⟨trivial, by omega, trivial, Or.inr rfl, fun h => by omega, by omega, ?_⟩
    intro z hz
    obtain ⟨hz1, hz2, hz3, hz4, hz5⟩ := hz
    by_contra hcon
    push_neg at hcon
    obtain ⟨q', hq'⟩ : ∃ q', (z.Rc+1) * (z.Rc+1+1) = q' + q' := Nat.even_mul_succ_self (z.Rc+1)
    have r4 : (z.Rc+2) * (z.Rc+1) = (z.Rc+1) * (z.Rc+1+1) := by ring
    have r5 : (z.Rc+1) * (z.Rc+1+1) = z.Rc * (z.Rc+1) + 2*(z.Rc+1) := by ring
    rcases hz4 with ⟨hzb, hzlb⟩ | ⟨hzb, hzlb⟩
    · have hmul : z.Rc * (z.Rc+1) ≤ c * (c+1) :=
        Nat.mul_le_mul (by omega) (by omega)
      omega
    · have hmul : (z.Rc+1) * (z.Rc+1+1) ≤ c * (c+1) :=
        Nat.mul_le_mul (by omega) (by omega)
      omega



/-- Compute `Nat.sqrt` on a literal from its defining bounds. -/
theorem sqrt_eq_exact (x t : ℕ) (h1 : t * t ≤ x) (h2 : x < (t+1)*(t+1)) :
    Nat.sqrt x = t := by
  have hlt : Nat.sqrt x < t + 1 := Nat.sqrt_lt.mpr h2
  have hge : t ≤ Nat.sqrt x := Nat.le_sqrt.mpr h1
  omega

/-- sqrt(9 + 8*10) = 9. -/
theorem sqrt89_eq : Nat.sqrt 89 = 9 := sqrt_eq_exact 89 9 (by norm_num) (by norm_num)

/-- C9 witness: the layout properties instantiated at L = 10, maxR = 10,
R0 = 3 (a checkpointed fit: minR_all = 13 > 10, minR_chk = 3 + 4 = 7 <= 10),
each hypothesis discharged by computation. -/
theorem C9_set_row_layout_checkpointed_witness :
    (1 ≤ 10 ∧ 10 < 3 + 10 ∧ 3 + minimum_rows_ceil 10 ≤ 10)
    ∧ ((set_row_layout 10 10 3).La = (set_row_layout 10 10 3).Ra
      ∧ (set_row_layout 10 10 3).La + (set_row_layout 10 10 3).Lb
          + (set_row_layout 10 10 3).Lc = 10
      ∧ (set_row_layout 10 10 3).Lc
          = ((set_row_layout 10 10 3).Rc + 2) * ((set_row_layout 10 10 3).Rc + 1) / 2 - 1
      ∧ ((set_row_layout 10 10 3).Rb = 0 ∨ (set_row_layout 10 10 3).Rb = 1)
      ∧ ((set_row_layout 10 10 3).Rb = 0 → (set_row_layout 10 10 3).Lb = 0)
      ∧ 3 + (set_row_layout 10 10 3).Ra + (set_row_layout 10 10 3).Rb
          + (set_row_layout 10 10 3).Rc = 10
      ∧ (∀ z : Layout, ValidLayout 10 10 3 z → z.Ra ≤ (set_row_layout 10 10 3).Ra)) :=
  ⟨⟨by decide, by decide,
      by simp [minimum_rows_ceil, minimum_rows_floor, minimum_rows_frac, sqrt89_eq]⟩,
    C9_set_row_layout_checkpointed 10 10 3 (by decide) (by decide)
      (by simp [minimum_rows_ceil, minimum_rows_floor, minimum_rows_frac, sqrt89_eq])⟩


/-! ### Sequence emitters: `p7_CoreEmit` and `p7_ProfileEmit`, src/h3/emit.c lines 71-182, 208-295

Both samplers are embedded as fuel-bounded state machines driven by a
choice stream `ch : ℕ → ℕ` (the outcomes of the successive
`esl_rnd_FChoose` calls; residue sampling does not affect control flow and
is not threaded through the stream).  `i` counts emitted residues -- the
length of the returned sequence.  `ESL_XEXCEPTION` paths give `err`; a run
longer than the fuel gives `outOfFuel` (an artifact of the embedding; the C
loops are unbounded). -/

/-- Core-emitter states of the inner loop (B M I D E). -/
inductive CoreSt where
  | B
  | M
  | I
  | D
  | E
  deriving DecidableEq

/-- Result of the inner core loop: final stream position and residue count. -/
inductive InnerRes where
  | done : ℕ → ℕ → InnerRes
  | err : InnerRes
  | outOfFuel : InnerRes
  deriving DecidableEq

/-- Result of an emitter run. -/
inductive EmResult where
  | ok : ℕ → EmResult
  | err : EmResult
  | outOfFuel : EmResult
  deriving DecidableEq

/-- The inner loop of `p7_CoreEmit` (lines 94-167): from B, sample
transitions until E; k++ on a new M or D, i++ on a new M or I (lines
142-143); B -> I (choice 1) and out-of-range choices are the
`ESL_XEXCEPTION` paths.  Arguments: fuel, state, k, i, stream position. -/
def coreInner (M : ℕ) (ch : ℕ → ℕ) : ℕ → CoreSt → ℕ → ℕ → ℕ → InnerRes
  | 0, _, _, _, _ => InnerRes.outOfFuel
  | _ + 1, CoreSt.E, _, i, t => InnerRes.done t i
  | fuel + 1, CoreSt.B, k, i, t =>
    match ch t with
    | 0 => coreInner M ch fuel CoreSt.M (k+1) (i+1) (t+1)
    | 2 => coreInner M ch fuel CoreSt.D (k+1) i (t+1)
    | _ => InnerRes.err
  | fuel + 1, CoreSt.M, k, i, t =>
    if k = M then coreInner M ch fuel CoreSt.E k i t
    else match ch t with
    | 0 => coreInner M ch fuel CoreSt.M (k+1) (i+1) (t+1)
    | 1 => coreInner M ch fuel CoreSt.I k (i+1) (t+1)
    | 2 => coreInner M ch fuel CoreSt.D (k+1) i (t+1)
    | _ => InnerRes.err
  | fuel + 1, CoreSt.I, k, i, t =>
    match ch t with
    | 0 => coreInner M ch fuel CoreSt.M (k+1) (i+1) (t+1)
    | 1 => coreInner M ch fuel CoreSt.I k (i+1) (t+1)
    | _ => InnerRes.err
  | fuel + 1, CoreSt.D, k, i, t =>
    if k = M then coreInner M ch fuel CoreSt.E k i t
    else match ch t with
    | 0 => coreInner M ch fuel CoreSt.M (k+1) (i+1) (t+1)
    | 1 => coreInner M ch fuel CoreSt.D (k+1) i (t+1)
    | _ => InnerRes.err

/-- `p7_CoreEmit` (lines 71-182): the inner loop wrapped in `do { ... }
while (i == 0)` (lines 83, 174) rejecting the empty sample; each round
restarts at B with k = i = 0. -/
def p7_CoreEmit (M : ℕ) (ch : ℕ → ℕ) : ℕ → ℕ → ℕ → EmResult
  | 0, _, _ => EmResult.outOfFuel
  | oFuel + 1, iFuel, t =>
    match coreInner M ch iFuel CoreSt.B 0 0 t with
    | InnerRes.done t' i =>
      if i = 0 then p7_CoreEmit M ch oFuel iFuel t' else EmResult.ok i
    | InnerRes.err => EmResult.err
    | InnerRes.outOfFuel => EmResult.outOfFuel

/-- Profile-emitter states (N B M I D E J C T). -/
inductive ProfSt where
  | N
  | B
  | M
  | I
  | D
  | E
  | J
  | C
  | T
  deriving DecidableEq

/-- The loop of `p7_ProfileEmit` (lines 227-288).  B consumes
`sample_endpoints` (line 235), modelled as reading (kstart, kend) from the
stream, and always continues B -> M_kstart ("must be, because left wing is
retracted", line 236), which emits a residue (line 270); N -> N, J -> J and
C -> C emit background residues (line 272); M -> E / D -> E happen when
k = kend, resetting k to 0 (line 265); k++ on M (except from B) and on D
(lines 266-267). -/
def profLoop (ch : ℕ → ℕ) : ℕ → ProfSt → ℕ → ℕ → ℕ → ℕ → EmResult
  | 0, _, _, _, _, _ => EmResult.outOfFuel
  | _ + 1, ProfSt.T, _, _, i, _ => EmResult.ok i
  | fuel + 1, ProfSt.N, k, kend, i, t =>
    if ch t = 0 then profLoop ch fuel ProfSt.B k kend i (t+1)
    else profLoop ch fuel ProfSt.N k kend (i+1) (t+1)
  | fuel + 1, ProfSt.B, _, _, i, t =>
    profLoop ch fuel ProfSt.M (ch t) (ch (t+1)) (i+1) (t+2)
  | fuel + 1, ProfSt.M, k, kend, i, t =>
    if k = kend then profLoop ch fuel ProfSt.E 0 kend i t
    else match ch t with
    | 0 => profLoop ch fuel ProfSt.M (k+1) kend (i+1) (t+1)
    | 1 => profLoop ch fuel ProfSt.I k kend (i+1) (t+1)
    | 2 => profLoop ch fuel ProfSt.D (k+1) kend i (t+1)
    | _ => EmResult.err
  | fuel + 1, ProfSt.I, k, kend, i, t =>
    if ch t = 0 then profLoop ch fuel ProfSt.M (k+1) kend (i+1) (t+1)
    else profLoop ch fuel ProfSt.I k kend (i+1) (t+1)
  | fuel + 1, ProfSt.D, k, kend, i, t =>
    if k = kend then profLoop ch fuel ProfSt.E 0 kend i t
    else if ch t = 0 then profLoop ch fuel ProfSt.M (k+1) kend (i+1) (t+1)
    else profLoop ch fuel ProfSt.D (k+1) kend i (t+1)
  | fuel + 1, ProfSt.E, k, kend, i, t =>
    if ch t = 0 then profLoop ch fuel ProfSt.C k kend i (t+1)
    else profLoop ch fuel ProfSt.J k kend i (t+1)
  | fuel + 1, ProfSt.J, k, kend, i, t =>
    if ch t = 0 then profLoop ch fuel ProfSt.B k kend i (t+1)
    else profLoop ch fuel ProfSt.J k kend (i+1) (t+1)
  | fuel + 1, ProfSt.C, k, kend, i, t =>
    if ch t = 0 then profLoop ch fuel ProfSt.T k kend i (t+1)
    else profLoop ch fuel ProfSt.C k kend (i+1) (t+1)

/-- `p7_ProfileEmit` (lines 208-295): start at N with k = i = 0. -/
def p7_ProfileEmit (ch : ℕ → ℕ) (fuel : ℕ) : EmResult :=
  profLoop ch fuel ProfSt.N 0 0 0 0

/-- Residue count is monotone along a successful profile run, and a run
that is at N or B with nothing emitted yet still returns a nonempty
sequence (the forced B -> M entry emits). -/
theorem profLoop_ok (ch : ℕ → ℕ) :
    ∀ fuel st k kend i t L, profLoop ch fuel st k kend i t = EmResult.ok L →
      i ≤ L ∧ ((st = ProfSt.N ∨ st = ProfSt.B) ∧ i = 0 → 1 ≤ L) := by
  intro fuel
  induction fuel with
  | zero =>
    intro st k kend i t L h
    simp [profLoop] at h
  | succ f ih =>
    intro st k kend i t L h
    cases st
    case N =>
      rw [profLoop] at h
      split at h
      · have := ih _ _ _ _ _ _ h
        exact ⟨this.1, fun hh => this.2 ⟨Or.inr rfl, hh.2⟩⟩
      · have := ih _ _ _ _ _ _ h
        exact ⟨by omega, fun _ => by omega⟩
    case B =>
      rw [profLoop] at h
      have := ih _ _ _ _ _ _ h
      exact ⟨by omega, fun _ => by omega⟩
    case M =>
      rw [profLoop] at h
      split at h
      · have := ih _ _ _ _ _ _ h
        exact ⟨this.1, by simp⟩
      · split at h
        · have := ih _ _ _ _ _ _ h
          exact ⟨by omega, by simp⟩
        · have := ih _ _ _ _ _ _ h
          exact ⟨by omega, by simp⟩
        · have := ih _ _ _ _ _ _ h
          exact ⟨by omega, by simp⟩
        · exact absurd h (by simp)
    case I =>
      rw [profLoop] at h
      split at h
      · have := ih _ _ _ _ _ _ h
        exact ⟨by omega, by simp⟩
      · have := ih _ _ _ _ _ _ h
        exact ⟨by omega, by simp⟩
    case D =>
      rw [profLoop] at h
      split at h
      · have := ih _ _ _ _ _ _ h
        exact ⟨this.1, by simp⟩
      · split at h
        · have := ih _ _ _ _ _ _ h
          exact ⟨by omega, by simp⟩
        · have := ih _ _ _ _ _ _ h
          exact ⟨by omega, by simp⟩
    case E =>
      rw [profLoop] at h
      split at h
      · have := ih _ _ _ _ _ _ h
        exact ⟨this.1, by simp⟩
      · have := ih _ _ _ _ _ _ h
        exact ⟨this.1, by simp⟩
    case J =>
      rw [profLoop] at h
      split at h
      · have := ih _ _ _ _ _ _ h
        exact ⟨this.1, by simp⟩
      · have := ih _ _ _ _ _ _ h
        exact ⟨by omega, by simp⟩
    case C =>
      rw [profLoop] at h
      split at h
      · have := ih _ _ _ _ _ _ h
        exact ⟨this.1, by simp⟩
      · have := ih _ _ _ _ _ _ h
        exact ⟨by omega, by simp⟩
    case T =>
      rw [profLoop] at h
      have : i = L := by
        cases h
        rfl
      exact ⟨by omega, by simp⟩

/-- A successful core-emitter run never returns length 0: the do/while
retries exactly while i == 0. -/
theorem coreEmit_pos (M : ℕ) (ch : ℕ → ℕ) :
    ∀ oFuel iFuel t L, p7_CoreEmit M ch oFuel iFuel t = EmResult.ok L → 1 ≤ L := by
  intro oFuel
  induction oFuel with
  | zero =>
    intro iFuel t L h
    simp [p7_CoreEmit] at h
  | succ f ih =>
    intro iFuel t L h
    rw [p7_CoreEmit] at h
    split at h
    · split at h
      · exact ih _ _ _ h
      · cases h
        omega
    · exact absurd h (by simp)
    · exact absurd h (by simp)

/-- C10: every sequence successfully returned by `p7_CoreEmit` and by
`p7_ProfileEmit` has length at least 1: the core emitter's do/while rejects
an empty (i = 0) sample (emit.c lines 83, 174), and the profile emitter's
forced B -> M_kstart entry (lines 235-236, 270) emits a residue on every
pass through B, so an empty sample is never returned. -/
theorem C10_emitters_never_empty (M : ℕ) (chC chP : ℕ → ℕ)
    (oFuel iFuel pFuel L1 L2 : ℕ)
    (h1 : p7_CoreEmit M chC oFuel iFuel 0 = EmResult.ok L1)
    (h2 : p7_ProfileEmit chP pFuel = EmResult.ok L2) :
    1 ≤ L1 ∧ 1 ≤ L2 :=
  ⟨coreEmit_pos M chC oFuel iFuel 0 L1 h1,
    (profLoop_ok chP pFuel ProfSt.N 0 0 0 0 L2 h2).2 ⟨Or.inl rfl, rfl⟩⟩

/-- C10 witness: concrete terminating runs of both emitters (all-zero
choice streams: core B -> M_1 -> E on an M = 1 model, one residue; profile
N -> B -> M -> E -> C -> T, one residue), both returning length 1. -/
theorem C10_emitters_never_empty_witness :
    (p7_CoreEmit 1 (fun _ => 0) 2 10 0 = EmResult.ok 1
      ∧ p7_ProfileEmit (fun _ => 0) 10 = EmResult.ok 1)
    ∧ (1 ≤ 1 ∧ 1 ≤ 1) :=
  ⟨⟨by decide, by decide⟩,
    C10_emitters_never_empty 1 (fun _ => 0) (fun _ => 0) 2 10 10 1 1
      (by decide) (by decide)⟩

end HMMER
